import Mathlib

/-!
# Subcyclic tree recogniser: a shallow embedding of `src/main.cpp`

The C++ class `Graph` keeps an `unordered_map<string, vector<string>> adj_`, a
`GraphProperties properties_` record and an output stream.  The embedding below
follows the member functions one by one.

* The map is an association list whose order is the (unspecified) iteration
  order of the container; a key created by `adj_[v]` is appended at the end.
* `std::set` / `std::unordered_set` values are lists without repetition
  (`setInsert`, `setErase`); only membership, size and "some first element"
  are ever observed by the program.
* The `while (!stack.empty())` loop of `DFS` is run with a fuel that is computed
  from the graph (`dfsFuel`).
* `adj_.at(v)` throws `std::out_of_range` on a missing key: functions that can
  reach it return an `Option`, `none` standing for the exception.
* `int` values are modelled by `Int`; no input of realistic size overflows.
-/

namespace Graph

/-- Vertex labels are `std::string`s. -/
abbrev Vertex := String

/-- The type of `adj_`: keys in iteration order, each with its neighbour vector. -/
abbrev AdjMap := List (Vertex × List Vertex)

/-- The record `GraphProperties`. -/
structure GraphProperties where
  is_tree : Bool
  is_numbered_tree : Bool
  is_acyclic : Bool
  is_subcyclic : Bool
  deriving DecidableEq, Repr

/-- The record `CycleData`. -/
structure CycleData where
  count : Int
  path : String
  deriving DecidableEq, Repr

/-- The keys of the map, in iteration order. -/
def keys (adj : AdjMap) : List Vertex := adj.map Prod.fst

/-- Lookup `adj_.find(v)`: the neighbour vector stored under `v`, if any. -/
def find? : AdjMap → Vertex → Option (List Vertex)
  | [], _ => none
  | (k, ns) :: rest, v => if k = v then some ns else find? rest v

/-- The vector denoted by `adj_[v]`: the stored one, or the empty vector that
`operator[]` creates for a missing key. -/
def nbrs (adj : AdjMap) (v : Vertex) : List Vertex := (find? adj v).getD []

/-- The map after `adj_[v]` has been evaluated: a missing key is created with an
empty vector. -/
def touch (adj : AdjMap) (v : Vertex) : AdjMap :=
  match find? adj v with
  | some _ => adj
  | none => adj ++ [(v, [])]

/-- The statement `adj_[v].push_back(w)`. -/
def pushBack : AdjMap → Vertex → Vertex → AdjMap
  | [], v, w => [(v, [w])]
  | (k, ns) :: rest, v, w =>
    if k = v then (k, ns ++ [w]) :: rest else (k, ns) :: pushBack rest v w

/-- The statement `adj_[v].erase(std::remove(adj_[v].begin(), adj_[v].end(), w), adj_[v].end())`:
every element equal to `w` is removed from the vector of `v`. -/
def eraseValue : AdjMap → Vertex → Vertex → AdjMap
  | [], v, _ => [(v, [])]
  | (k, ns) :: rest, v, w =>
    if k = v then (k, ns.filter (fun x => decide (x ≠ w))) :: rest
    else (k, ns) :: eraseValue rest v w

/-- `Graph::AddEdge`. -/
def AddEdge (adj : AdjMap) (v w : Vertex) : AdjMap :=
  pushBack (pushBack adj v w) w v

/-- `Graph::RemoveEdge`. -/
def RemoveEdge (adj : AdjMap) (v w : Vertex) : AdjMap :=
  eraseValue (eraseValue adj v w) w v

/-- `Graph::AreConnected`: `adj_.at(v)` throws on a missing key (`none`). -/
def AreConnected (adj : AdjMap) (v w : Vertex) : Option Bool :=
  match find? adj v with
  | none => none
  | some ns => some (decide (w ∈ ns))

/-- `Graph::GetVertexCount`. -/
def GetVertexCount (adj : AdjMap) : Int := (adj.length : Int)

/-- `Graph::CountEdges`. -/
def CountEdges (adj : AdjMap) : Int :=
  (adj.foldl (fun (edge_count : Int) neighbors => edge_count + (neighbors.2.length : Int)) 0) / 2

/-- Insertion into a set container. -/
def setInsert (s : List String) (x : String) : List String :=
  if x ∈ s then s else s ++ [x]

/-- Erasure from a set container. -/
def setErase (s : List String) (x : String) : List String :=
  s.filter (fun y => decide (y ≠ x))

/-- The order `operator<=` of `std::string` (lexicographic on the characters). -/
def strLe (a b : String) : Prop := a.data ≤ b.data

instance strLe_decidable : DecidableRel strLe :=
  fun a b => inferInstanceAs (Decidable (a.data ≤ b.data))

/-- The call `std::sort(cycle.begin(), cycle.end())`. -/
def sortCycle (cycle : List Vertex) : List Vertex := cycle.insertionSort strLe

/-- `Graph::Join`: every vertex followed by `-`, then the first vertex again.
It is only ever called on a non-empty vector. -/
def Join (cycle : List Vertex) : String :=
  (cycle.foldl (fun result vertex => result ++ (vertex ++ "-")) "") ++ cycle.headD ""

/-- The inner `for (neighbor : adj_[v])` loop of `DFS`, acting on the stack (top
first) and on `unique_cycles`. -/
def visitNeighbors (start : Vertex) (current_path visited : List Vertex) :
    List Vertex → List (Vertex × List Vertex) × List String →
      List (Vertex × List Vertex) × List String
  | [], acc => acc
  | neighbor :: rest, (stack, unique_cycles) =>
    if neighbor = start ∧ current_path.length > 2 then
      visitNeighbors start current_path visited rest
        (stack, setInsert unique_cycles (Join (sortCycle current_path)))
    else if neighbor ∉ visited then
      visitNeighbors start current_path visited rest
        ((neighbor, current_path) :: stack, unique_cycles)
    else
      visitNeighbors start current_path visited rest (stack, unique_cycles)

/-- The variables that the loop of `DFS` reads and writes. -/
structure DfsState where
  adj : AdjMap
  stack : List (Vertex × List Vertex)
  path : List Vertex
  visited : List Vertex
  unique_cycles : List String
  deriving DecidableEq, Repr

/-- One iteration of `while (!stack.empty())` in `DFS` (nothing happens on an
empty stack). -/
def DFSStep (start : Vertex) (st : DfsState) : DfsState :=
  match st.stack with
  | [] => st
  | (v, current_path) :: stack =>
    if v ∈ st.visited then { st with stack := stack }
    else
      let visited := setInsert st.visited v
      let current_path := current_path ++ [v]
      let path := setInsert st.path v
      let adj := touch st.adj v
      let r := visitNeighbors start current_path visited (nbrs adj v) (stack, st.unique_cycles)
      { adj := adj, stack := r.1, path := setErase path v, visited := visited,
        unique_cycles := r.2 }

/-- The loop `while (!stack.empty())` of `DFS`, with fuel. -/
def DFSLoop (start : Vertex) : Nat → DfsState → DfsState
  | 0, st => st
  | fuel + 1, st =>
    match st.stack with
    | [] => st
    | _ :: _ => DFSLoop start fuel (DFSStep start st)

/-- A number of iterations that the loop of `DFS` never exceeds: one more than
the number of entries of the neighbour vectors. -/
def dfsFuel (adj : AdjMap) : Nat :=
  1 + ((keys adj).map (fun k => (nbrs adj k).length)).sum

/-- `Graph::DFS`.  The first parameter is shadowed inside the loop and never
read.  The result holds the final `adj_`, `path`, `visited`, `unique_cycles`. -/
def DFS (adj : AdjMap) (_v start : Vertex) (path visited : List Vertex)
    (unique_cycles : List String) : DfsState :=
  let st := DFSLoop start (dfsFuel adj)
    { adj := adj, stack := [(start, [])], path := path, visited := visited,
      unique_cycles := unique_cycles }
  { st with visited := st.path.foldl setErase st.visited }

/-- The loop `for (pair : adj_)` of `SimpleCycleCount`, over the keys present
when the loop starts. -/
def cycleScan : List Vertex → AdjMap × List String → AdjMap × List String
  | [], acc => acc
  | vertex :: rest, (adj, unique_cycles) =>
    let st := DFS adj vertex vertex [] [] unique_cycles
    cycleScan rest (st.adj, st.unique_cycles)

/-- `Graph::SimpleCycleCount`, together with the map it leaves behind.  Which
element `*unique_cycles.begin()` is depends on the hashing of the
`std::unordered_set`; here it is the first one inserted, and what is proved of the
representative path is proved of every member of the set (`signatures`). -/
def SimpleCycleCount (adj : AdjMap) : AdjMap × CycleData :=
  let r := cycleScan (keys adj) (adj, [])
  (r.1, { count := (r.2.length : Int), path := r.2.headD "" })

end Graph

/-- The class `Graph`: its three data members. -/
structure Graph where
  properties_ : Graph.GraphProperties
  adj_ : Graph.AdjMap
  output_ : String
  deriving DecidableEq, Repr

namespace Graph

/-- `Graph::IsTree`. -/
def IsTree (g : Graph) : Bool :=
  g.properties_.is_acyclic && g.properties_.is_subcyclic

/-- `Graph::IsNumberedTree`. -/
def IsNumberedTree (g : Graph) : Bool :=
  let vertex_count := GetVertexCount g.adj_
  let edge_count := CountEdges g.adj_
  if g.properties_.is_acyclic then
    if g.properties_.is_subcyclic then true else false
  else if g.properties_.is_subcyclic then false
  else decide (edge_count = vertex_count - 1)

/-- `Graph::IsAcyclic`. -/
def IsAcyclic (g : Graph) : Graph × Bool :=
  let r := SimpleCycleCount g.adj_
  let cycle_data := r.2
  if cycle_data.count > 0 then
    ({ g with adj_ := r.1,
              output_ := g.output_ ++ "Нарушение ацикличности. Найденный цикл: "
                ++ cycle_data.path ++ "\n" }, false)
  else ({ g with adj_ := r.1 }, true)

/-- The loop over `j` in `IsSubcyclicException`, for a fixed `neighbors[i]`. -/
def triangleInner (adj : AdjMap) (v ni : Vertex) :
    List Vertex → List Vertex → Option (List Vertex)
  | [], triangle_vertices => some triangle_vertices
  | nj :: rest, triangle_vertices =>
    match AreConnected adj ni nj with
    | none => none
    | some true =>
      triangleInner adj v ni rest (setInsert (setInsert (setInsert triangle_vertices v) ni) nj)
    | some false => triangleInner adj v ni rest triangle_vertices

/-- The loop over `i` in `IsSubcyclicException`. -/
def triangleOuter (adj : AdjMap) (v : Vertex) :
    List Vertex → List Vertex → Option (List Vertex)
  | [], triangle_vertices => some triangle_vertices
  | ni :: rest, triangle_vertices =>
    match triangleInner adj v ni rest triangle_vertices with
    | none => none
    | some t => triangleOuter adj v rest t

/-- The second `if` in the body of the loop of `IsSubcyclicException`: a vertex
of degree 0 or 1 is recorded, with its only neighbour if it has one. -/
def edgeStep (v : Vertex) (neighbors edge_vertices : List Vertex) : List Vertex :=
  if neighbors.length = 1 ∨ neighbors.length = 0 then
    match neighbors with
    | [] => setInsert edge_vertices v
    | n0 :: _ => setInsert (setInsert edge_vertices v) n0
  else edge_vertices

/-- The loop `for (pair : adj_)` of `IsSubcyclicException`, acting on
`(triangle_vertices, edge_vertices)`. -/
def exceptionScan (adj : AdjMap) :
    AdjMap → List Vertex × List Vertex → Option (List Vertex × List Vertex)
  | [], acc => some acc
  | (v, neighbors) :: rest, (triangle_vertices, edge_vertices) =>
    match (if neighbors.length ≥ 2 then triangleOuter adj v neighbors triangle_vertices
           else some triangle_vertices) with
    | none => none
    | some t => exceptionScan adj rest (t, edgeStep v neighbors edge_vertices)

/-- `Graph::IsSubcyclicException`. -/
def IsSubcyclicException (adj : AdjMap) : Option Bool :=
  match exceptionScan adj adj ([], []) with
  | none => none
  | some (triangle_vertices, edge_vertices) =>
    let is_triangle_with_edge :=
      decide (triangle_vertices.length ≥ 3) && decide (edge_vertices.length ≥ 2)
    let is_triangle_with_isolated_vertex :=
      decide (triangle_vertices.length ≥ 3) && decide (edge_vertices.length = 1)
    some (!(is_triangle_with_edge || is_triangle_with_isolated_vertex))

/-- The inner loop `for (pair2 : adj_)` of `IsSubcyclic` for a fixed `v`.  The
Boolean is `false` when the function has returned `false`. -/
def chordInner (v : Vertex) : List Vertex → Graph → Option (Graph × Bool)
  | [], g => some (g, true)
  | w :: rest, g =>
    if v ≠ w then
      match AreConnected g.adj_ v w with
      | none => none
      | some true => chordInner v rest g
      | some false =>
        let r := SimpleCycleCount (AddEdge g.adj_ v w)
        if r.2.count ≠ 1 then
          some ({ g with adj_ := RemoveEdge r.1 v w,
                         output_ := g.output_ ++ "Нарушена субцикличность в вершинах "
                           ++ v ++ "-" ++ w ++ "\n" }, false)
        else chordInner v rest { g with adj_ := RemoveEdge r.1 v w }
    else chordInner v rest g

/-- The outer loop `for (pair1 : adj_)` of `IsSubcyclic`; both loops run over
the keys present when `IsSubcyclic` starts its chord test. -/
def chordOuter (ks : List Vertex) : List Vertex → Graph → Option (Graph × Bool)
  | [], g => some (g, true)
  | v :: rest, g =>
    match chordInner v ks g with
    | none => none
    | some (g1, false) => some (g1, false)
    | some (g1, true) => chordOuter ks rest g1

/-- `Graph::IsSubcyclic`. -/
def IsSubcyclic (g : Graph) : Option (Graph × Bool) :=
  match IsSubcyclicException g.adj_ with
  | none => none
  | some false =>
    some ({ g with output_ := g.output_ ++ "Нарушена субцикличность. Граф является исключением\n" },
          false)
  | some true => chordOuter (keys g.adj_) (keys g.adj_) g

/-- `Graph::SetProperties`. -/
def SetProperties (g : Graph) : Option Graph :=
  let a := IsAcyclic g
  let g1 := { a.1 with properties_ := { a.1.properties_ with is_acyclic := a.2 } }
  match IsSubcyclic g1 with
  | none => none
  | some (g2, s) =>
    let g3 := { g2 with properties_ := { g2.properties_ with is_subcyclic := s } }
    let g4 := { g3 with properties_ := { g3.properties_ with is_numbered_tree := IsNumberedTree g3 } }
    some { g4 with properties_ := { g4.properties_ with is_tree := IsTree g4 } }

/-- `Graph::GetProperties`. -/
def GetProperties (g : Graph) : GraphProperties := g.properties_

/-- One line of the input file, as `LoadGraphFromFile` tokenises it: no token,
one token, or two tokens (further tokens are never read). -/
inductive Line where
  | blank : Line
  | single : Vertex → Line
  | pair : Vertex → Vertex → Line
  deriving DecidableEq, Repr

/-- The loop of `Graph::LoadGraphFromFile` over the lines of an opened file. -/
def LoadGraphFromFile : List Line → AdjMap → AdjMap
  | [], adj => adj
  | Line.blank :: rest, adj => LoadGraphFromFile rest adj
  | Line.single u :: rest, adj =>
    LoadGraphFromFile rest (match find? adj u with
      | none => adj ++ [(u, [])]
      | some _ => adj)
  | Line.pair u v :: rest, adj => LoadGraphFromFile rest (AddEdge adj u v)

/-! ### Vocabulary of the specification -/

/-- The relation "`w` appears in the adjacency list of `u`". -/
def Adj (adj : AdjMap) (u w : Vertex) : Prop := w ∈ nbrs adj u

instance Adj_decidable (adj : AdjMap) : DecidableRel (Adj adj) :=
  fun u w => inferInstanceAs (Decidable (w ∈ nbrs adj u))

/-- Adjacency of consecutive vertices of a list can be checked. -/
instance chain_decidable (adj : AdjMap) : (l : List Vertex) → Decidable (l.Chain' (Adj adj))
  | [] => isTrue List.chain'_nil
  | [a] => isTrue (List.chain'_singleton a)
  | a :: b :: rest =>
    match Adj_decidable adj a b, chain_decidable adj (b :: rest) with
    | isTrue h1, isTrue h2 => isTrue (List.chain'_cons.mpr ⟨h1, h2⟩)
    | isFalse h1, _ => isFalse (fun h => h1 (List.chain'_cons.mp h).1)
    | isTrue _, isFalse h2 => isFalse (fun h => h2 (List.chain'_cons.mp h).2)

/-- The vertex list `c = [c₀, …, cₖ₋₁]` is a simple cycle on at least three
distinct vertices: consecutive vertices are adjacent and `cₖ₋₁` is adjacent to `c₀`. -/
def IsSimpleCycle (adj : AdjMap) (c : List Vertex) : Prop :=
  3 ≤ c.length ∧ c.Nodup ∧ c.Chain' (Adj adj) ∧
    ∀ l ∈ c.getLast?, ∀ h ∈ c.head?, Adj adj l h

instance IsSimpleCycle_decidable (adj : AdjMap) : DecidablePred (IsSimpleCycle adj) :=
  fun c => inferInstanceAs (Decidable (3 ≤ c.length ∧ c.Nodup ∧ c.Chain' (Adj adj) ∧
    ∀ l ∈ c.getLast?, ∀ h ∈ c.head?, Adj adj l h))

/-- A well-formed graph: the keys are distinct (it is a map), every neighbour is
a vertex, and the adjacency lists are symmetric. -/
def WellFormed (adj : AdjMap) : Prop :=
  (keys adj).Nodup ∧
  (∀ u ∈ keys adj, ∀ w ∈ nbrs adj u, w ∈ keys adj) ∧
  (∀ u ∈ keys adj, ∀ w ∈ nbrs adj u, u ∈ nbrs adj w)

instance WellFormed_decidable : DecidablePred WellFormed :=
  fun adj => inferInstanceAs (Decidable ((keys adj).Nodup ∧
    (∀ u ∈ keys adj, ∀ w ∈ nbrs adj u, w ∈ keys adj) ∧
    (∀ u ∈ keys adj, ∀ w ∈ nbrs adj u, u ∈ nbrs adj w)))

/-- A simple graph: no self-loop and no repeated edge. -/
def Simple (adj : AdjMap) : Prop :=
  ∀ u ∈ keys adj, u ∉ nbrs adj u ∧ (nbrs adj u).Nodup

instance Simple_decidable : DecidablePred Simple :=
  fun adj => inferInstanceAs (Decidable (∀ u ∈ keys adj, u ∉ nbrs adj u ∧ (nbrs adj u).Nodup))

/-- Three mutually adjacent vertices. -/
def HasTriangle (adj : AdjMap) : Prop :=
  ∃ a b c, a ≠ b ∧ b ≠ c ∧ a ≠ c ∧ Adj adj a b ∧ Adj adj b c ∧ Adj adj a c

/-- Some vertex has degree 0 or 1. -/
def HasLowDegree (adj : AdjMap) : Prop :=
  ∃ u ∈ keys adj, (nbrs adj u).length ≤ 1

/-- The vertex list `p` is a walk from `u` to `w`. -/
def IsWalk (adj : AdjMap) (p : List Vertex) (u w : Vertex) : Prop :=
  p.head? = some u ∧ p.getLast? = some w ∧ p.Chain' (Adj adj)

instance IsWalk_decidable (adj : AdjMap) (p : List Vertex) (u w : Vertex) :
    Decidable (IsWalk adj p u w) :=
  inferInstanceAs (Decidable (p.head? = some u ∧ p.getLast? = some w ∧ p.Chain' (Adj adj)))

/-- Every two vertices are joined by a walk. -/
def Connected (adj : AdjMap) : Prop :=
  ∀ u ∈ keys adj, ∀ w ∈ keys adj, ∃ p, IsWalk adj p u w

/-- The chord test of `IsSubcyclic` for the ordered pair `(v, w)`, on the graph
itself plus that one chord. -/
def ChordPasses (adj : AdjMap) (v w : Vertex) : Prop :=
  (SimpleCycleCount (AddEdge adj v w)).2.count = 1

instance ChordPasses_decidable (adj : AdjMap) (v w : Vertex) : Decidable (ChordPasses adj v w) :=
  inferInstanceAs (Decidable ((SimpleCycleCount (AddEdge adj v w)).2.count = 1))

/-- Every ordered pair of distinct vertices `v`, `w`, with `w` not in the
adjacency list of `v`, passes the chord test. -/
def AllChordsPass (adj : AdjMap) : Prop :=
  ∀ v ∈ keys adj, ∀ w ∈ keys adj, v ≠ w → w ∉ nbrs adj v → ChordPasses adj v w

instance AllChordsPass_decidable (adj : AdjMap) : Decidable (AllChordsPass adj) :=
  inferInstanceAs (Decidable (∀ v ∈ keys adj, ∀ w ∈ keys adj, v ≠ w → w ∉ nbrs adj v →
    ChordPasses adj v w))

/-! ### Vocabulary of the proofs -/

/-- The test under which the inner loop of `DFS` pushes `neighbor`. -/
def pushable (start : Vertex) (cp vis : List Vertex) (n : Vertex) : Bool :=
  decide (¬ (n = start ∧ cp.length > 2) ∧ n ∉ vis)

/-- The stack entries that the inner loop of `DFS` pushes, in the order of the
neighbour vector. -/
def pushed (start : Vertex) (cp vis ns : List Vertex) : List (Vertex × List Vertex) :=
  (ns.filter (pushable start cp vis)).map (fun n => (n, cp))

/-- The work still ahead of one run of `DFS`: the neighbour entries of the keys
that are not yet visited. -/
def unv (adj : AdjMap) (vis : List Vertex) : Nat :=
  (((keys adj).filter (fun k => decide (k ∉ vis))).map (fun k => (nbrs adj k).length)).sum

/-- The vertices of `C` hang together: a property that holds of one of them and
passes along adjacency inside `C` holds of all of them. -/
def Linked (adj : AdjMap) (C : List Vertex) : Prop :=
  ∀ B : Vertex → Prop, (∃ c ∈ C, B c) →
    (∀ u ∈ C, B u → ∀ nb ∈ nbrs adj u, nb ∈ C → B nb) → ∀ c ∈ C, B c

/-- What `n` iterations of the loop of `DFS` achieve when they take the stack
from `entries ++ rest` (state `st`) down to `rest` (state `st1`). -/
structure Drained (adj : AdjMap) (start : Vertex) (entries rest : List (Vertex × List Vertex))
    (st st1 : DfsState) (n : Nat) : Prop where
  stack_eq : st1.stack = rest
  nbrs_eq : nbrs st1.adj = nbrs adj
  bound : n + unv adj st1.visited ≤ entries.length + unv adj st.visited
  vis_mono : ∀ x ∈ st.visited, x ∈ st1.visited
  cyc_mono : ∀ s ∈ st.unique_cycles, s ∈ st1.unique_cycles
  entries_vis : ∀ e ∈ entries, e.1 ∈ st1.visited
  closed : ∀ u ∈ st1.visited, u ∉ st.visited → ∀ nb ∈ nbrs adj u, nb ∈ st1.visited
  deep : ∀ d, (∀ e ∈ entries, d ≤ e.2.length) → 2 ≤ d →
    ∀ t ∈ st1.visited, t ∉ st.visited → start ∈ nbrs adj t → st1.unique_cycles ≠ []
  hit : ∀ C, Linked adj C →
    (∃ a ∈ C, ∃ b ∈ C, a ≠ b ∧ start ∈ nbrs adj a ∧ start ∈ nbrs adj b) →
    (∀ e ∈ entries, 1 ≤ e.2.length) → (∀ c ∈ C, c ∉ st.visited) →
    (∃ c ∈ C, c ∈ st1.visited) → st1.unique_cycles ≠ []

/-- What holds of every state of the loop of `DFS` when it was entered from
`start` with empty `path` and `visited` and with the signatures `uc0`. -/
structure DfsInv (adj : AdjMap) (start : Vertex) (uc0 : List String) (st : DfsState) :
    Prop where
  nbrs_eq : nbrs st.adj = nbrs adj
  path_nil : st.path = []
  entries : ∀ e ∈ st.stack, (e.2 = [] ∧ e.1 = start) ∨
    (e.2.head? = some start ∧ e.2.Nodup ∧ e.2.Chain' (Adj adj) ∧
      (∃ l ∈ e.2.getLast?, e.1 ∈ nbrs adj l) ∧ ∀ y ∈ e.2, y ∈ st.visited)
  cycles : ∀ s ∈ st.unique_cycles, s ∈ uc0 ∨
    ∃ p, IsSimpleCycle adj p ∧ p.head? = some start ∧ s = Join (sortCycle p)
  nodup : uc0.Nodup → st.unique_cycles.Nodup

/-- A freshly constructed object around a loaded map. -/
def fresh (adj : AdjMap) : Graph :=
  { properties_ := ⟨false, false, false, false⟩, adj_ := adj, output_ := "" }

/-! ### Sample inputs -/

/-- The input `A B`. -/
def singleEdge : AdjMap := LoadGraphFromFile [Line.pair "A" "B"] []

/-- The input `X A / X B / X C`. -/
def star : AdjMap :=
  LoadGraphFromFile [Line.pair "X" "A", Line.pair "X" "B", Line.pair "X" "C"] []

/-- The input `A B / B C / C A`. -/
def triangle : AdjMap :=
  LoadGraphFromFile [Line.pair "A" "B", Line.pair "B" "C", Line.pair "C" "A"] []

/-- The input `A B / B C / C A / C D`. -/
def trianglePendant : AdjMap :=
  LoadGraphFromFile
    [Line.pair "A" "B", Line.pair "B" "C", Line.pair "C" "A", Line.pair "C" "D"] []

/-- The input `A B / B C / C A / D`. -/
def triangleIsolated : AdjMap :=
  LoadGraphFromFile
    [Line.pair "A" "B", Line.pair "B" "C", Line.pair "C" "A", Line.single "D"] []

/-- The input `A B / C D`: two disjoint edges. -/
def twoEdges : AdjMap := LoadGraphFromFile [Line.pair "A" "B", Line.pair "C" "D"] []

/-- The input `A B / B C / C A / B D / C D`: two triangles sharing the edge `B C`. -/
def diamond : AdjMap :=
  LoadGraphFromFile
    [Line.pair "A" "B", Line.pair "B" "C", Line.pair "C" "A", Line.pair "B" "D",
     Line.pair "C" "D"] []

/-- The input `A B / A B`: the same edge twice. -/
def doubleEdge : AdjMap := LoadGraphFromFile [Line.pair "A" "B", Line.pair "A" "B"] []

/-- One call on the graph model, as the specification lists them. -/
inductive Op where
  | add_edge : Vertex → Vertex → Op
  | remove_edge : Vertex → Vertex → Op
  | declare : Vertex → Op
  deriving DecidableEq, Repr

/-- The effect of one call: `AddEdge`, `RemoveEdge`, or the declaration of an
isolated vertex as `LoadGraphFromFile` makes it. -/
def applyOp (adj : AdjMap) : Op → AdjMap
  | Op.add_edge u w => AddEdge adj u w
  | Op.remove_edge u w => RemoveEdge adj u w
  | Op.declare u => LoadGraphFromFile [Line.single u] adj

/-- The adjacency lists are symmetric with multiplicities: `w` occurs in the
list of `u` as often as `u` occurs in the list of `w`. -/
def CountSymmetric (adj : AdjMap) : Prop :=
  ∀ u w, (nbrs adj u).count w = (nbrs adj w).count u

/-- The number of lines of an input that hold an edge, that is, the number of
`AddEdge` calls that `LoadGraphFromFile` makes. -/
def edgeLines : List Line → Nat
  | [] => 0
  | Line.pair _ _ :: rest => edgeLines rest + 1
  | _ :: rest => edgeLines rest

/-- The labels that an input mentions, in an edge or alone. -/
def labels : List Line → List Vertex
  | [] => []
  | Line.blank :: rest => labels rest
  | Line.single u :: rest => u :: labels rest
  | Line.pair u v :: rest => u :: v :: labels rest

/-- The number of entries of all adjacency lists. -/
def lengthSum (adj : AdjMap) : Nat := (adj.map (fun kv => kv.2.length)).sum

/-- The input `A C / C B / B D / D A`: the 4-cycle `A C B D`. -/
def square : AdjMap :=
  LoadGraphFromFile
    [Line.pair "A" "C", Line.pair "C" "B", Line.pair "B" "D", Line.pair "D" "A"] []

/-- Splitting a text at every `-`; `cur` holds the characters read since the
last one. -/
def readPathAux : List Char → List Char → List String
  | [], cur => [String.mk cur]
  | c :: cs, cur =>
    if c = '-' then String.mk cur :: readPathAux cs [] else readPathAux cs (cur ++ [c])

/-- A representative path `v1-v2-...-vk-v1` read as the vertex sequence
`v1, v2, ..., vk, v1`. -/
def readPath (s : String) : List Vertex := readPathAux s.data []

/-- The line that `IsAcyclic` writes for a found cycle. -/
def cycleLine (path : String) : String :=
  "Нарушение ацикличности. Найденный цикл: " ++ path ++ "\n"

/-- The line that `IsSubcyclic` writes for an excluded shape. -/
def exceptionLine : String := "Нарушена субцикличность. Граф является исключением\n"

/-- The line that `IsSubcyclic` writes for a failing chord pair. -/
def chordLine (v w : Vertex) : String :=
  "Нарушена субцикличность в вершинах " ++ v ++ "-" ++ w ++ "\n"

/-- The number of line ends in a text. -/
def lineCount (s : String) : Nat := s.data.count '\n'

/-- The number of false flags among `is_acyclic` and `is_subcyclic`. -/
def falseFlags (p : GraphProperties) : Nat :=
  (if p.is_acyclic then 0 else 1) + (if p.is_subcyclic then 0 else 1)

/-- Two runs of the loop of `DFS` that differ only in the signatures `uc` that one
of them started with (and in the order of the keys of the map). -/
structure SameRun (uc : List String) (st st1 : DfsState) : Prop where
  stack_eq : st.stack = st1.stack
  visited_eq : st.visited = st1.visited
  nbrs_eq : nbrs st.adj = nbrs st1.adj
  cycles : ∀ s, s ∈ st.unique_cycles ↔ s ∈ uc ∨ s ∈ st1.unique_cycles

/-- The set `unique_cycles` of `SimpleCycleCount` when its loop has ended: the
function returns the size of this set and one of its members. -/
def signatures (adj : AdjMap) : List String := (cycleScan (keys adj) (adj, [])).2

end Graph

/-! ## Theorems -/

namespace Graph

/-! ### The association list -/

theorem find?_eq_none_iff (adj : AdjMap) (v : Vertex) : find? adj v = none ↔ v ∉ keys adj := by
  induction adj with
  | nil => simp [find?, keys]
  | cons kv rest ih =>
    obtain ⟨k, ns⟩ := kv
    by_cases h : k = v
    · simp [find?, keys, h]
    · have h' : ¬ v = k := fun e => h e.symm
      simp only [find?, h, if_false, ih, keys, List.map_cons, List.mem_cons, h', false_or]

theorem find?_isSome_of_mem {adj : AdjMap} {v : Vertex} (h : v ∈ keys adj) :
    ∃ ns, find? adj v = some ns := by
  cases hf : find? adj v with
  | none => exact absurd h ((find?_eq_none_iff adj v).mp hf)
  | some ns => exact ⟨ns, rfl⟩

theorem nbrs_of_not_mem {adj : AdjMap} {v : Vertex} (h : v ∉ keys adj) : nbrs adj v = [] := by
  simp [nbrs, (find?_eq_none_iff adj v).mpr h]

theorem mem_keys_of_mem_nbrs {adj : AdjMap} {v w : Vertex} (h : w ∈ nbrs adj v) : v ∈ keys adj := by
  by_contra hv
  rw [nbrs_of_not_mem hv] at h
  exact absurd h (List.not_mem_nil _)

theorem find?_eq_some_nbrs {adj : AdjMap} {v : Vertex} (h : v ∈ keys adj) :
    find? adj v = some (nbrs adj v) := by
  obtain ⟨ns, hns⟩ := find?_isSome_of_mem h
  simp [nbrs, hns]

theorem touch_of_mem {adj : AdjMap} {v : Vertex} (h : v ∈ keys adj) : touch adj v = adj := by
  obtain ⟨ns, hns⟩ := find?_isSome_of_mem h
  simp [touch, hns]

theorem find?_append (a b : AdjMap) (v : Vertex) :
    find? (a ++ b) v = (find? a v).orElse (fun _ => find? b v) := by
  induction a with
  | nil => simp [find?]
  | cons kv rest ih =>
    obtain ⟨k, ns⟩ := kv
    by_cases h : k = v <;> simp [find?, h, ih]

theorem nbrs_touch (adj : AdjMap) (v : Vertex) : nbrs (touch adj v) = nbrs adj := by
  funext u
  unfold touch
  cases hf : find? adj v with
  | some ns => rfl
  | none =>
    simp only [nbrs, find?_append]
    cases hu : find? adj u with
    | some ms => simp
    | none =>
      by_cases h : v = u
      · simp [find?, h]
      · simp [find?, h]

theorem find?_pushBack (adj : AdjMap) (v w x : Vertex) :
    find? (pushBack adj v w) x = if x = v then some (nbrs adj v ++ [w]) else find? adj x := by
  induction adj with
  | nil =>
    by_cases h : x = v
    · simp [pushBack, find?, nbrs, h]
    · have h' : ¬ v = x := fun e => h e.symm
      simp [pushBack, find?, h, h']
  | cons kv rest ih =>
    obtain ⟨k, ns⟩ := kv
    by_cases hk : k = v
    · subst hk
      by_cases hx : x = k
      · simp [pushBack, find?, nbrs, hx]
      · have hx' : ¬ k = x := fun e => hx e.symm
        simp [pushBack, find?, hx, hx']
    · by_cases hx : x = v
      · subst hx
        simp [pushBack, find?, nbrs, hk, ih]
      · by_cases hkx : k = x <;> simp [pushBack, find?, hk, hx, hkx, ih]

theorem nbrs_pushBack (adj : AdjMap) (v w x : Vertex) :
    nbrs (pushBack adj v w) x = if x = v then nbrs adj v ++ [w] else nbrs adj x := by
  unfold nbrs
  rw [find?_pushBack]
  by_cases h : x = v <;> simp [h, nbrs]

theorem keys_pushBack_of_mem {adj : AdjMap} {v : Vertex} (w : Vertex) (h : v ∈ keys adj) :
    keys (pushBack adj v w) = keys adj := by
  induction adj with
  | nil => simp [keys] at h
  | cons kv rest ih =>
    obtain ⟨k, ns⟩ := kv
    by_cases hk : k = v
    · simp [pushBack, keys, hk]
    · have hv : v ∈ keys rest := by
        simp only [keys, List.map_cons, List.mem_cons] at h
        rcases h with h | h
        · exact absurd h.symm hk
        · exact h
      have := ih hv
      simp only [keys] at this
      simp [pushBack, keys, hk, this]

theorem find?_eraseValue (adj : AdjMap) (v w x : Vertex) :
    find? (eraseValue adj v w) x =
      if x = v then some ((nbrs adj v).filter (fun y => decide (y ≠ w))) else find? adj x := by
  induction adj with
  | nil =>
    by_cases h : x = v
    · simp [eraseValue, find?, nbrs, h]
    · have h' : ¬ v = x := fun e => h e.symm
      simp [eraseValue, find?, h, h']
  | cons kv rest ih =>
    obtain ⟨k, ns⟩ := kv
    by_cases hk : k = v
    · subst hk
      by_cases hx : x = k
      · simp [eraseValue, find?, nbrs, hx]
      · have hx' : ¬ k = x := fun e => hx e.symm
        simp [eraseValue, find?, hx, hx']
    · by_cases hx : x = v
      · subst hx
        simp [eraseValue, find?, nbrs, hk, ih]
      · by_cases hkx : k = x <;> simp [eraseValue, find?, hk, hx, hkx, ih]

theorem keys_eraseValue_of_mem {adj : AdjMap} {v : Vertex} (w : Vertex) (h : v ∈ keys adj) :
    keys (eraseValue adj v w) = keys adj := by
  induction adj with
  | nil => simp [keys] at h
  | cons kv rest ih =>
    obtain ⟨k, ns⟩ := kv
    by_cases hk : k = v
    · simp [eraseValue, keys, hk]
    · have hv : v ∈ keys rest := by
        simp only [keys, List.map_cons, List.mem_cons] at h
        rcases h with h | h
        · exact absurd h.symm hk
        · exact h
      have := ih hv
      simp only [keys] at this
      simp [eraseValue, keys, hk, this]

/-- Two maps with the same distinct keys in the same order and the same lookups are equal. -/
theorem adjMap_ext {a b : AdjMap} (hk : keys a = keys b) (hn : (keys a).Nodup)
    (hf : ∀ x ∈ keys a, find? a x = find? b x) : a = b := by
  induction a generalizing b with
  | nil =>
    cases b with
    | nil => rfl
    | cons kv rest => simp [keys] at hk
  | cons kv rest ih =>
    obtain ⟨k, ns⟩ := kv
    cases b with
    | nil => simp [keys] at hk
    | cons kv' rest' =>
      obtain ⟨k', ns'⟩ := kv'
      simp only [keys, List.map_cons, List.cons.injEq] at hk
      obtain ⟨hkk, hrest⟩ := hk
      subst hkk
      have h0 := hf k (by simp [keys])
      simp only [find?, if_true, Option.some.injEq] at h0
      subst h0
      simp only [keys, List.map_cons, List.nodup_cons] at hn
      have : rest = rest' := by
        apply ih hrest hn.2
        intro x hx
        have hxk : ¬ k = x := fun e => hn.1 (e ▸ hx)
        have := hf x (by simp only [keys, List.map_cons, List.mem_cons]; exact Or.inr hx)
        simpa [find?, hxk] using this
      rw [this]

/-! ### The flags computed by `SetProperties` -/

theorem foldl_add_length (adj : AdjMap) (z : Int) :
    adj.foldl (fun (edge_count : Int) neighbors => edge_count + (neighbors.2.length : Int)) z
      = z + ((adj.map (fun kv => kv.2.length)).sum : Nat) := by
  induction adj generalizing z with
  | nil => simp
  | cons kv rest ih =>
    simp only [List.foldl_cons, List.map_cons, List.sum_cons, ih]
    push_cast
    ring

theorem CountEdges_eq (adj : AdjMap) :
    CountEdges adj = (((adj.map (fun kv => kv.2.length)).sum : Nat) : Int) / 2 := by
  unfold CountEdges
  rw [foldl_add_length]
  simp

theorem GetVertexCount_eq (adj : AdjMap) : GetVertexCount adj = ((keys adj).length : Int) := by
  simp [GetVertexCount, keys]

/-- C7. After `SetProperties` the flag `is_numbered_tree` follows the decision
table over `is_acyclic` and `is_subcyclic`; its last row compares the edge count,
half the sum of the lengths of the adjacency lists, with the number of keys
minus one. -/
theorem set_properties_numbered_tree_table (g g' : Graph) (h : SetProperties g = some g') :
    g'.properties_.is_numbered_tree =
      (match g'.properties_.is_acyclic, g'.properties_.is_subcyclic with
       | true, true => true
       | true, false => false
       | false, true => false
       | false, false => decide (CountEdges g'.adj_ = GetVertexCount g'.adj_ - 1))
    ∧ CountEdges g'.adj_ = (((g'.adj_.map (fun kv => kv.2.length)).sum : Nat) : Int) / 2
    ∧ GetVertexCount g'.adj_ = ((keys g'.adj_).length : Int) := by
  refine ⟨?_, CountEdges_eq _, GetVertexCount_eq _⟩
  unfold SetProperties at h
  simp only at h
  split at h
  · exact absurd h (by simp)
  · rename_i g2 s hs
    simp only [Option.some.injEq] at h
    subst h
    simp only [IsNumberedTree, IsTree]
    cases g2.properties_.is_acyclic <;> cases s <;> simp

theorem set_properties_numbered_tree_table_witness :
    SetProperties (fresh triangleIsolated) ≠ none ∧
    ∀ g', SetProperties (fresh triangleIsolated) = some g' →
      g'.properties_.is_acyclic = false ∧ g'.properties_.is_subcyclic = false ∧
      g'.properties_.is_numbered_tree = true := by
  have h : ∃ g', SetProperties (fresh triangleIsolated) = some g' ∧ g'.properties_.is_acyclic = false ∧ g'.properties_.is_subcyclic = false ∧ CountEdges g'.adj_ = 3 ∧ GetVertexCount g'.adj_ = 4 := by
    decide
  obtain ⟨g1, h1, ha, hs, he, hv⟩ := h
  refine ⟨by simp [h1], ?_⟩
  intro g' hg'
  have := set_properties_numbered_tree_table _ g' hg'
  rw [h1] at hg'
  cases hg'
  rw [ha, hs] at this
  simp [ha, hs, this.1, he, hv]


/-- C8. After `SetProperties`, `is_tree` is the conjunction of the other two flags. -/
theorem set_properties_is_tree_eq (g g' : Graph) (h : SetProperties g = some g') :
    g'.properties_.is_tree = (g'.properties_.is_acyclic && g'.properties_.is_subcyclic) := by
  unfold SetProperties at h
  simp only at h
  split at h
  · exact absurd h (by simp)
  · rename_i g2 s hs
    simp only [Option.some.injEq] at h
    subst h
    simp only [IsTree]

theorem set_properties_is_tree_eq_witness :
    ∃ g', SetProperties (fresh triangleIsolated) = some g' ∧
      g'.properties_.is_tree = (g'.properties_.is_acyclic && g'.properties_.is_subcyclic) :=
  have h : (SetProperties (fresh triangleIsolated)).isSome = true := by decide
  (Option.isSome_iff_exists.mp h).elim fun g' hg' => ⟨g', hg', set_properties_is_tree_eq _ g' hg'⟩

/-! ### Set containers -/

theorem mem_setInsert {s : List String} {x y : String} : y ∈ setInsert s x ↔ y ∈ s ∨ y = x := by
  unfold setInsert
  by_cases h : x ∈ s
  · simp only [h, if_true]
    constructor
    · exact Or.inl
    · rintro (h1 | h1)
      · exact h1
      · exact h1 ▸ h
  · simp [h]

theorem setInsert_ne_nil (s : List String) (x : String) : setInsert s x ≠ [] := by
  intro h
  have : x ∈ setInsert s x := mem_setInsert.mpr (Or.inr rfl)
  rw [h] at this
  exact absurd this (List.not_mem_nil _)

theorem setInsert_idem (s : List String) (x : String) :
    setInsert (setInsert s x) x = setInsert s x := by
  have : x ∈ setInsert s x := mem_setInsert.mpr (Or.inr rfl)
  show (if x ∈ setInsert s x then setInsert s x else setInsert s x ++ [x]) = setInsert s x
  rw [if_pos this]

theorem setErase_setInsert_nil (x : String) : setErase (setInsert [] x) x = [] := by
  simp [setInsert, setErase]

/-! ### One iteration of the loop of `DFS` -/

theorem visitNeighbors_fst (start : Vertex) (cp vis ns : List Vertex)
    (stk : List (Vertex × List Vertex)) (uc : List String) :
    (visitNeighbors start cp vis ns (stk, uc)).1 = (pushed start cp vis ns).reverse ++ stk := by
  induction ns generalizing stk uc with
  | nil => simp [visitNeighbors, pushed]
  | cons n rest ih =>
    unfold visitNeighbors
    by_cases h1 : n = start ∧ cp.length > 2
    · rw [if_pos h1, ih]
      have hp : pushable start cp vis n = false := by simp [pushable, h1]
      simp [pushed, List.filter_cons, hp]
    · rw [if_neg h1]
      by_cases h2 : n ∉ vis
      · rw [if_pos h2, ih]
        have hp : pushable start cp vis n = true := by
          unfold pushable; exact decide_eq_true ⟨h1, h2⟩
        simp [pushed, List.filter_cons, hp]
      · rw [if_neg h2, ih]
        have hp : pushable start cp vis n = false := by
          unfold pushable; exact decide_eq_false (fun h => h2 h.2)
        simp [pushed, List.filter_cons, hp]

theorem visitNeighbors_snd (start : Vertex) (cp vis ns : List Vertex)
    (stk : List (Vertex × List Vertex)) (uc : List String) :
    (visitNeighbors start cp vis ns (stk, uc)).2 =
      if start ∈ ns ∧ cp.length > 2 then setInsert uc (Join (sortCycle cp)) else uc := by
  induction ns generalizing stk uc with
  | nil => simp [visitNeighbors]
  | cons n rest ih =>
    unfold visitNeighbors
    by_cases h1 : n = start ∧ cp.length > 2
    · rw [if_pos h1, ih]
      have h3 : start ∈ n :: rest ∧ cp.length > 2 := ⟨by simp [h1.1], h1.2⟩
      rw [if_pos h3]
      by_cases h4 : start ∈ rest ∧ cp.length > 2
      · rw [if_pos h4, setInsert_idem]
      · rw [if_neg h4]
    · have key : (start ∈ n :: rest ∧ cp.length > 2) ↔ (start ∈ rest ∧ cp.length > 2) := by
        constructor
        · rintro ⟨hm, hl⟩
          rcases List.mem_cons.mp hm with e | e
          · exact absurd ⟨e.symm, hl⟩ h1
          · exact ⟨e, hl⟩
        · rintro ⟨hm, hl⟩
          exact ⟨List.mem_cons_of_mem _ hm, hl⟩
      rw [if_neg h1]
      by_cases h2 : n ∉ vis
      · rw [if_pos h2, ih]
        simp only [key]
      · rw [if_neg h2, ih]
        simp only [key]

theorem DFSStep_nil {start : Vertex} {st : DfsState} (h : st.stack = []) :
    DFSStep start st = st := by
  simp [DFSStep, h]

theorem DFSStep_visited {start : Vertex} {st : DfsState} {v : Vertex} {cp : List Vertex}
    {stk : List (Vertex × List Vertex)} (h : st.stack = (v, cp) :: stk) (hv : v ∈ st.visited) :
    DFSStep start st = { st with stack := stk } := by
  simp [DFSStep, h, hv]

theorem DFSStep_fresh {start : Vertex} {st : DfsState} {v : Vertex} {cp : List Vertex}
    {stk : List (Vertex × List Vertex)} (h : st.stack = (v, cp) :: stk) (hv : v ∉ st.visited) :
    DFSStep start st =
      { adj := touch st.adj v,
        stack := (pushed start (cp ++ [v]) (setInsert st.visited v) (nbrs st.adj v)).reverse ++ stk,
        path := setErase (setInsert st.path v) v,
        visited := setInsert st.visited v,
        unique_cycles :=
          if start ∈ nbrs st.adj v ∧ (cp ++ [v]).length > 2 then
            setInsert st.unique_cycles (Join (sortCycle (cp ++ [v])))
          else st.unique_cycles } := by
  simp only [DFSStep, h, hv, if_false, visitNeighbors_fst, visitNeighbors_snd, nbrs_touch]

theorem DFSLoop_eq_iterate (start : Vertex) (n : Nat) (st : DfsState) :
    DFSLoop start n st = (DFSStep start)^[n] st := by
  induction n generalizing st with
  | zero => rfl
  | succ n ih =>
    rw [Function.iterate_succ_apply]
    unfold DFSLoop
    cases hs : st.stack with
    | nil =>
      simp only
      rw [DFSStep_nil hs]
      clear ih
      induction n with
      | zero => rfl
      | succ m ihm => rw [Function.iterate_succ_apply, DFSStep_nil hs]; exact ihm
    | cons e rest =>
      simp only
      exact ih _

theorem iterate_stable {start : Vertex} {st : DfsState} {n : Nat}
    (h : ((DFSStep start)^[n] st).stack = []) (m : Nat) (hm : n ≤ m) :
    (DFSStep start)^[m] st = (DFSStep start)^[n] st := by
  obtain ⟨k, rfl⟩ := Nat.exists_eq_add_of_le hm
  clear hm
  rw [Nat.add_comm, Function.iterate_add_apply]
  generalize (DFSStep start)^[n] st = s at h
  induction k with
  | zero => rfl
  | succ k ih => rw [Function.iterate_succ_apply, DFSStep_nil h]; exact ih


/-! ### The loop of `DFS` drains its stack -/

theorem sum_filter_mono {α : Type} (l : List α) (f : α → Nat) (p q : α → Bool)
    (h : ∀ x, q x = true → p x = true) :
    ((l.filter q).map f).sum ≤ ((l.filter p).map f).sum := by
  induction l with
  | nil => simp
  | cons a rest ih =>
    by_cases hq : q a = true
    · have hp := h a hq
      simp only [List.filter_cons, hq, hp, if_true, List.map_cons, List.sum_cons]
      omega
    · by_cases hp : p a = true
      · simp only [List.filter_cons, hq, hp, if_true, List.map_cons, List.sum_cons]
        simp only [Bool.false_eq_true, if_false]
        omega
      · simp only [List.filter_cons, hq, hp]
        simpa using ih

theorem unv_mono (adj : AdjMap) {vis vis1 : List Vertex} (h : ∀ x ∈ vis, x ∈ vis1) :
    unv adj vis1 ≤ unv adj vis := by
  unfold unv
  apply sum_filter_mono
  intro x hx
  simp only [decide_eq_true_eq] at hx ⊢
  exact fun hv => hx (h x hv)

theorem sum_filter_insert (l : List Vertex) (f : Vertex → Nat) (vis : List Vertex) (x : Vertex)
    (hx : x ∉ vis) (hl : x ∈ l) :
    ((l.filter (fun k => decide (k ∉ setInsert vis x))).map f).sum + f x
      ≤ ((l.filter (fun k => decide (k ∉ vis))).map f).sum := by
  induction l with
  | nil => simp at hl
  | cons a rest ih =>
    by_cases ha : a = x
    · subst ha
      have h1 : a ∈ setInsert vis a := mem_setInsert.mpr (Or.inr rfl)
      have hm := sum_filter_mono rest f (fun k => decide (k ∉ vis))
        (fun k => decide (k ∉ setInsert vis a)) (by
          intro y hy
          simp only [decide_eq_true_eq] at hy ⊢
          exact fun hv => hy (mem_setInsert.mpr (Or.inl hv)))
      simp only [List.filter_cons, h1, hx, not_true_eq_false, decide_False, not_false_eq_true,
        decide_True, if_true, List.map_cons, List.sum_cons, Bool.false_eq_true, if_false]
      refine le_trans (Nat.add_le_add_right hm (f a)) (le_of_eq ?_)
      rw [Nat.add_comm]
    · have hl1 : x ∈ rest := by
        rcases List.mem_cons.mp hl with e | e
        · exact absurd e.symm ha
        · exact e
      have ih1 := ih hl1
      by_cases hv : a ∈ vis
      · have h1 : a ∈ setInsert vis x := mem_setInsert.mpr (Or.inl hv)
        simp only [List.filter_cons, h1, hv, not_true_eq_false, decide_False,
          Bool.false_eq_true, if_false]
        exact ih1
      · have h1 : a ∉ setInsert vis x := by
          intro hm
          rcases mem_setInsert.mp hm with e | e
          · exact hv e
          · exact ha e
        simp only [List.filter_cons, h1, hv, not_false_eq_true, decide_True, if_true,
          List.map_cons, List.sum_cons]
        omega

theorem unv_insert (adj : AdjMap) {vis : List Vertex} {x : Vertex} (hx : x ∉ vis) :
    unv adj (setInsert vis x) + (nbrs adj x).length ≤ unv adj vis := by
  by_cases hk : x ∈ keys adj
  · exact sum_filter_insert (keys adj) (fun k => (nbrs adj k).length) vis x hx hk
  · rw [nbrs_of_not_mem hk]
    have := @unv_mono adj vis (setInsert vis x)
      (fun y hy => mem_setInsert.mpr (Or.inl hy))
    simpa using this

theorem pushed_length_le (start : Vertex) (cp vis ns : List Vertex) :
    (pushed start cp vis ns).length ≤ ns.length := by
  unfold pushed
  rw [List.length_map]
  exact List.length_filter_le _ _

theorem mem_pushed {start : Vertex} {cp vis ns : List Vertex} {e : Vertex × List Vertex} :
    e ∈ pushed start cp vis ns ↔
      e.2 = cp ∧ e.1 ∈ ns ∧ ¬ (e.1 = start ∧ cp.length > 2) ∧ e.1 ∉ vis := by
  unfold pushed pushable
  simp only [List.mem_map, List.mem_filter, decide_eq_true_eq]
  constructor
  · rintro ⟨n, ⟨hn, h1, h2⟩, rfl⟩
    exact ⟨rfl, hn, h1, h2⟩
  · rintro ⟨h0, hn, h1, h2⟩
    exact ⟨e.1, ⟨hn, h1, h2⟩, by rw [← h0]⟩

theorem Drained.nil {adj : AdjMap} {start : Vertex} {rest : List (Vertex × List Vertex)}
    {st : DfsState} (hs : st.stack = rest) (hn : nbrs st.adj = nbrs adj) :
    Drained adj start [] rest st st 0 where
  stack_eq := hs
  nbrs_eq := hn
  bound := by simp
  vis_mono := fun _ h => h
  cyc_mono := fun _ h => h
  entries_vis := fun e he => absurd he (List.not_mem_nil _)
  closed := fun u hu hnu => absurd hu hnu
  deep := fun _ _ _ t ht hnt => absurd ht hnt
  hit := fun C _ _ _ hw hc => by
    obtain ⟨c, hc1, hc2⟩ := hc
    exact absurd hc2 (hw c hc1)

theorem Drained.skip {adj : AdjMap} {start : Vertex} {x : Vertex} {cp : List Vertex}
    {es rest : List (Vertex × List Vertex)} {st st1 : DfsState} {n : Nat}
    (hs : st.stack = (x, cp) :: es ++ rest) (hx : x ∈ st.visited)
    (P : Drained adj start es rest (DFSStep start st) st1 n) :
    Drained adj start ((x, cp) :: es) rest st st1 (n + 1) := by
  have hstep : DFSStep start st = { st with stack := es ++ rest } :=
    DFSStep_visited (by simpa using hs) hx
  rw [hstep] at P
  exact {
    stack_eq := P.stack_eq
    nbrs_eq := P.nbrs_eq
    bound := by
      have := P.bound
      simp only [List.length_cons] at this ⊢
      omega
    vis_mono := P.vis_mono
    cyc_mono := P.cyc_mono
    entries_vis := by
      intro e he
      rcases List.mem_cons.mp he with rfl | he
      · exact P.vis_mono _ hx
      · exact P.entries_vis e he
    closed := P.closed
    deep := fun d hd h2 => P.deep d (fun e he => hd e (List.mem_cons_of_mem _ he)) h2
    hit := fun C hl he hd hw hc =>
      P.hit C hl he (fun e he => hd e (List.mem_cons_of_mem _ he)) hw hc }


theorem Drained.expand {adj : AdjMap} {start : Vertex} {x : Vertex} {cp : List Vertex}
    {es rest : List (Vertex × List Vertex)} {st st2 st3 : DfsState} {n1 n2 : Nat}
    (hs : st.stack = (x, cp) :: es ++ rest) (hx : x ∉ st.visited)
    (hN : nbrs st.adj = nbrs adj) (hstart : start ∈ st.visited)
    (P1 : Drained adj start
      (pushed start (cp ++ [x]) (setInsert st.visited x) (nbrs adj x)).reverse (es ++ rest)
      (DFSStep start st) st2 n1)
    (P2 : Drained adj start es rest st2 st3 n2) :
    Drained adj start ((x, cp) :: es) rest st st3 (n2 + n1 + 1) := by
  have hstep := @DFSStep_fresh start _ _ _ _ (show st.stack = (x, cp) :: (es ++ rest) by
    simpa using hs) hx
  rw [hN] at hstep
  have hv1 : (DFSStep start st).visited = setInsert st.visited x := by rw [hstep]
  have hc1 : (DFSStep start st).unique_cycles =
      if start ∈ nbrs adj x ∧ (cp ++ [x]).length > 2 then
        setInsert st.unique_cycles (Join (sortCycle (cp ++ [x])))
      else st.unique_cycles := by rw [hstep]
  have v01 : ∀ y ∈ st.visited, y ∈ (DFSStep start st).visited := by
    intro y hy
    rw [hv1]
    exact mem_setInsert.mpr (Or.inl hy)
  have v02 : ∀ y ∈ st.visited, y ∈ st2.visited := fun y hy => P1.vis_mono y (v01 y hy)
  have c01 : ∀ s ∈ st.unique_cycles, s ∈ (DFSStep start st).unique_cycles := by
    intro s hs
    rw [hc1]
    split
    · exact mem_setInsert.mpr (Or.inl hs)
    · exact hs
  have ne23 : st2.unique_cycles ≠ [] → st3.unique_cycles ≠ [] := by
    intro h
    obtain ⟨s, hs⟩ := List.exists_mem_of_ne_nil _ h
    exact List.ne_nil_of_mem (P2.cyc_mono s hs)
  have ne12 : (DFSStep start st).unique_cycles ≠ [] → st2.unique_cycles ≠ [] := by
    intro h
    obtain ⟨s, hs⟩ := List.exists_mem_of_ne_nil _ h
    exact List.ne_nil_of_mem (P1.cyc_mono s hs)
  have closed12 : ∀ u ∈ st2.visited, u ∉ st.visited → ∀ nb ∈ nbrs adj u, nb ∈ st2.visited := by
    intro u hu hnu nb hnb
    by_cases hu1 : u ∈ (DFSStep start st).visited
    · rw [hv1] at hu1
      rcases mem_setInsert.mp hu1 with h | h
      · exact absurd h hnu
      · subst h
        by_cases hp : ¬ (nb = start ∧ (cp ++ [u]).length > 2) ∧ nb ∉ setInsert st.visited u
        · have : (nb, cp ++ [u]) ∈
              (pushed start (cp ++ [u]) (setInsert st.visited u) (nbrs adj u)).reverse :=
            List.mem_reverse.mpr (mem_pushed.mpr ⟨rfl, hnb, hp.1, hp.2⟩)
          exact P1.entries_vis _ this
        · rw [not_and_or, not_not, not_not] at hp
          rcases hp with h | h
          · rw [h.1]
            exact v02 _ hstart
          · apply P1.vis_mono
            rw [hv1]
            exact h
    · exact P1.closed u hu hu1 nb hnb
  have depth1 : ∀ d, d ≤ cp.length → ∀ e ∈
      (pushed start (cp ++ [x]) (setInsert st.visited x) (nbrs adj x)).reverse,
      d + 1 ≤ e.2.length := by
    intro d hd e he
    have := (mem_pushed.mp (List.mem_reverse.mp he)).1
    rw [this, List.length_append]
    simpa using hd
  exact {
    stack_eq := P2.stack_eq
    nbrs_eq := P2.nbrs_eq
    bound := by
      have b2 := P2.bound
      have b1 := P1.bound
      rw [hv1] at b1
      have b0 := @unv_insert adj st.visited x hx
      have bl := pushed_length_le start (cp ++ [x]) (setInsert st.visited x) (nbrs adj x)
      simp only [List.length_reverse] at b1
      simp only [List.length_cons]
      omega
    vis_mono := fun y hy => P2.vis_mono y (v02 y hy)
    cyc_mono := fun s hs => P2.cyc_mono s (P1.cyc_mono s (c01 s hs))
    entries_vis := by
      intro e he
      rcases List.mem_cons.mp he with rfl | he
      · apply P2.vis_mono
        apply P1.vis_mono
        rw [hv1]
        exact mem_setInsert.mpr (Or.inr rfl)
      · exact P2.entries_vis e he
    closed := by
      intro u hu hnu nb hnb
      by_cases hu2 : u ∈ st2.visited
      · exact P2.vis_mono _ (closed12 u hu2 hnu nb hnb)
      · exact P2.closed u hu hu2 nb hnb
    deep := by
      intro d hd h2 t ht hnt hst
      by_cases ht2 : t ∈ st2.visited
      · apply ne23
        by_cases ht1 : t ∈ (DFSStep start st).visited
        · apply ne12
          rw [hv1] at ht1
          rcases mem_setInsert.mp ht1 with h | h
          · exact absurd h hnt
          · subst h
            have hlen : (cp ++ [t]).length > 2 := by
              have := hd (t, cp) (List.mem_cons_self _ _)
              simp only [List.length_append, List.length_singleton]
              simp only at this
              omega
            rw [hc1, if_pos ⟨hst, hlen⟩]
            exact setInsert_ne_nil _ _
        · exact P1.deep (d + 1) (depth1 d (hd (x, cp) (List.mem_cons_self _ _)))
            (by omega) t ht2 ht1 hst
      · exact P2.deep d (fun e he => hd e (List.mem_cons_of_mem _ he)) h2 t ht ht2 hst
    hit := by
      intro C hl hends hd hw hc
      by_cases h2 : ∃ c ∈ C, c ∈ st2.visited
      · apply ne23
        have hall : ∀ c ∈ C, c ∈ st2.visited :=
          hl (fun c => c ∈ st2.visited) h2
            (fun u hu hB nb hnb _ => closed12 u hB (hw u hu) nb hnb)
        obtain ⟨a, ha, b, hb, hab, hsa, hsb⟩ := hends
        have hcp : 1 ≤ cp.length := hd (x, cp) (List.mem_cons_self _ _)
        have key : ∀ t ∈ C, t ≠ x → start ∈ nbrs adj t → st2.unique_cycles ≠ [] := by
          intro t htC htx hst
          have ht1 : t ∉ (DFSStep start st).visited := by
            rw [hv1]
            intro hm
            rcases mem_setInsert.mp hm with h | h
            · exact hw t htC h
            · exact htx h
          exact P1.deep 2 (depth1 1 hcp) (le_refl 2) t (hall t htC) ht1 hst
        by_cases hax : a = x
        · exact key b hb (fun h => hab (hax.trans h.symm)) hsb
        · exact key a ha hax hsa
      · have hw2 : ∀ c ∈ C, c ∉ st2.visited := fun c hc hm => h2 ⟨c, hc, hm⟩
        exact P2.hit C hl hends (fun e he => hd e (List.mem_cons_of_mem _ he)) hw2 hc }

/-- From any state whose stack is `entries ++ rest`, finitely many iterations of
the loop of `DFS` bring the stack down to `rest`. -/
theorem drain (adj : AdjMap) (start : Vertex) :
    ∀ (m : Nat) (entries rest : List (Vertex × List Vertex)) (st : DfsState),
      st.stack = entries ++ rest → nbrs st.adj = nbrs adj →
      entries.length + unv adj st.visited ≤ m → start ∈ st.visited →
      ∃ n, Drained adj start entries rest st ((DFSStep start)^[n] st) n := by
  intro m
  induction m with
  | zero =>
    intro entries rest st hs hN hm _
    have : entries = [] := List.length_eq_zero.mp (by omega)
    subst this
    exact ⟨0, Drained.nil (by simpa using hs) hN⟩
  | succ m ih =>
    intro entries rest st hs hN hm hstart
    cases entries with
    | nil => exact ⟨0, Drained.nil (by simpa using hs) hN⟩
    | cons e es =>
      obtain ⟨x, cp⟩ := e
      by_cases hx : x ∈ st.visited
      · have hstep : DFSStep start st = { st with stack := es ++ rest } :=
          DFSStep_visited (by simpa using hs) hx
        obtain ⟨n, P⟩ := ih es rest (DFSStep start st) (by rw [hstep]) (by rw [hstep]; exact hN)
          (by rw [hstep]; simp only [List.length_cons] at hm; simp only; omega)
          (by rw [hstep]; exact hstart)
        refine ⟨n + 1, ?_⟩
        rw [Function.iterate_succ_apply]
        exact Drained.skip hs hx P
      · have hstep := @DFSStep_fresh start _ _ _ _ (show st.stack = (x, cp) :: (es ++ rest) by
          simpa using hs) hx
        rw [hN] at hstep
        have b0 := @unv_insert adj st.visited x hx
        have bl := pushed_length_le start (cp ++ [x]) (setInsert st.visited x) (nbrs adj x)
        simp only [List.length_cons] at hm
        obtain ⟨n1, P1⟩ := ih
          (pushed start (cp ++ [x]) (setInsert st.visited x) (nbrs adj x)).reverse (es ++ rest)
          (DFSStep start st) (by rw [hstep]) (by rw [hstep]; simp only; rw [nbrs_touch]; exact hN)
          (by rw [hstep]; simp only [List.length_reverse]; omega)
          (by rw [hstep]; exact mem_setInsert.mpr (Or.inl hstart))
        have hv2 : unv adj ((DFSStep start)^[n1] (DFSStep start st)).visited
            ≤ unv adj st.visited := by
          apply unv_mono
          intro y hy
          apply P1.vis_mono
          rw [hstep]
          exact mem_setInsert.mpr (Or.inl hy)
        obtain ⟨n2, P2⟩ := ih es rest ((DFSStep start)^[n1] (DFSStep start st)) P1.stack_eq
          P1.nbrs_eq (by omega)
          (by apply P1.vis_mono; rw [hstep]; exact mem_setInsert.mpr (Or.inl hstart))
        refine ⟨n2 + n1 + 1, ?_⟩
        rw [Function.iterate_succ_apply, Function.iterate_add_apply]
        exact Drained.expand hs hx hN hstart P1 P2


theorem unv_nil (adj : AdjMap) : unv adj [] + 1 = dfsFuel adj := by
  unfold unv dfsFuel
  simp [Nat.add_comm]

/-- One run of `DFS` from empty `visited`: the loop ends within `dfsFuel adj`
iterations with an empty stack. -/
theorem DFS_run (adj a : AdjMap) (hN : nbrs a = nbrs adj) (start : Vertex)
    (path : List Vertex) (uc : List String) :
    ∃ st1 : DfsState,
      DFSLoop start (dfsFuel adj)
        { adj := a, stack := [(start, [])], path := path, visited := [], unique_cycles := uc }
        = st1 ∧
      st1.stack = [] ∧ nbrs st1.adj = nbrs adj ∧ (∀ s ∈ uc, s ∈ st1.unique_cycles) ∧
      (∀ C, Linked adj C →
        (∃ x ∈ C, ∃ y ∈ C, x ≠ y ∧ start ∈ nbrs adj x ∧ start ∈ nbrs adj y) →
        start ∉ C → (∃ c ∈ C, c ∈ nbrs adj start) → st1.unique_cycles ≠ []) := by
  let st0 : DfsState :=
    { adj := a, stack := [(start, [])], path := path, visited := [], unique_cycles := uc }
  have hstep := @DFSStep_fresh start st0 start [] []
    rfl (List.not_mem_nil _)
  have hN0 : nbrs st0.adj = nbrs adj := hN
  rw [hN0] at hstep
  have hv1 : (DFSStep start st0).visited = setInsert [] start := by rw [hstep]
  obtain ⟨n, P⟩ := drain adj start
    ((pushed start ([] ++ [start]) (setInsert [] start) (nbrs adj start)).reverse.length
      + unv adj (DFSStep start st0).visited)
    (pushed start ([] ++ [start]) (setInsert [] start) (nbrs adj start)).reverse []
    (DFSStep start st0) (by rw [hstep]) (by rw [hstep]; simp only; rw [nbrs_touch]; exact hN)
    (le_refl _) (by rw [hv1]; exact mem_setInsert.mpr (Or.inr rfl))
  have hbound : n + 1 ≤ dfsFuel adj := by
    have b := P.bound
    rw [hv1] at b
    have b0 := @unv_insert adj [] start (List.not_mem_nil _)
    have bl := pushed_length_le start ([] ++ [start]) (setInsert [] start) (nbrs adj start)
    have := unv_nil adj
    simp only [List.length_reverse] at b
    omega
  refine ⟨(DFSStep start)^[n] (DFSStep start st0), ?_, P.stack_eq, P.nbrs_eq, ?_, ?_⟩
  · rw [DFSLoop_eq_iterate]
    have h1 : ((DFSStep start)^[n + 1] st0).stack = [] := by
      rw [Function.iterate_succ_apply]; exact P.stack_eq
    rw [iterate_stable h1 _ hbound, Function.iterate_succ_apply]
  · intro s hs
    apply P.cyc_mono
    rw [hstep]
    simp only
    split
    · exact mem_setInsert.mpr (Or.inl hs)
    · exact hs
  · intro C hl hends hsC hc
    apply P.hit C hl hends
    · intro e he
      have := (mem_pushed.mp (List.mem_reverse.mp he)).1
      rw [this]
      simp
    · intro c hc hm
      rw [hv1] at hm
      rcases mem_setInsert.mp hm with h | h
      · exact absurd h (List.not_mem_nil _)
      · exact hsC (h ▸ hc)
    · obtain ⟨c, hcC, hcn⟩ := hc
      refine ⟨c, hcC, ?_⟩
      have hcs : c ≠ start := fun h => hsC (h ▸ hcC)
      have : (c, [] ++ [start]) ∈
          (pushed start ([] ++ [start]) (setInsert [] start) (nbrs adj start)).reverse := by
        refine List.mem_reverse.mpr (mem_pushed.mpr ⟨rfl, hcn, fun h => hcs h.1, ?_⟩)
        intro hm
        rcases mem_setInsert.mp hm with h | h
        · exact absurd h (List.not_mem_nil _)
        · exact hcs h
      exact P.entries_vis _ this


/-! ### Cycles and walks -/

theorem WellFormed.symm {adj : AdjMap} (h : WellFormed adj) {u w : Vertex}
    (hw : w ∈ nbrs adj u) : u ∈ nbrs adj w :=
  h.2.2 u (mem_keys_of_mem_nbrs hw) w hw

theorem WellFormed.closed {adj : AdjMap} (h : WellFormed adj) {u w : Vertex}
    (hw : w ∈ nbrs adj u) : w ∈ keys adj :=
  h.2.1 u (mem_keys_of_mem_nbrs hw) w hw

theorem chain_spread {adj : AdjMap} {S : List Vertex} {B : Vertex → Prop}
    (step : ∀ u ∈ S, B u → ∀ nb ∈ nbrs adj u, nb ∈ S → B nb) :
    ∀ (l : List Vertex) (a : Vertex), (a :: l).Chain' (Adj adj) → (∀ y ∈ a :: l, y ∈ S) →
      B a → ∀ y ∈ a :: l, B y := by
  intro l
  induction l with
  | nil =>
    intro a _ _ hB y hy
    rw [List.mem_singleton] at hy
    exact hy ▸ hB
  | cons b rest ih =>
    intro a hc hS hB y hy
    rcases List.mem_cons.mp hy with e | e
    · exact e ▸ hB
    · rw [List.chain'_cons] at hc
      have hb : B b := step a (hS a (List.mem_cons_self _ _)) hB b hc.1
        (hS b (List.mem_cons_of_mem _ (List.mem_cons_self _ _)))
      exact ih b hc.2 (fun z hz => hS z (List.mem_cons_of_mem _ hz)) hb y e

theorem linked_of_chain {adj : AdjMap} (hsym : ∀ u w, w ∈ nbrs adj u → u ∈ nbrs adj w)
    (l : List Vertex) (hc : l.Chain' (Adj adj)) : Linked adj l := by
  intro B hex step x hx
  obtain ⟨c, hcl, hBc⟩ := hex
  obtain ⟨L1, L2, rfl⟩ := List.append_of_mem hcl
  have hc' := List.chain'_append.mp hc
  have hfw := chain_spread step L2 c hc'.2.1
    (fun y hy => List.mem_append_right _ hy) hBc
  have hrev : (c :: L1.reverse).Chain' (Adj adj) := by
    have h1 : (L1 ++ [c]).Chain' (Adj adj) := by
      have : (L1 ++ c :: L2) = (L1 ++ [c]) ++ L2 := by simp
      rw [this] at hc
      exact (List.chain'_append.mp hc).1
    have h2 : (L1 ++ [c]).reverse.Chain' (flip (Adj adj)) := List.chain'_reverse.mpr h1
    rw [List.reverse_append, List.reverse_singleton, List.singleton_append] at h2
    exact h2.imp (fun a b hab => hsym _ _ hab)
  have hbw := chain_spread step L1.reverse c hrev
    (by
      intro y hy
      rcases List.mem_cons.mp hy with e | e
      · rw [e]; exact hcl
      · exact List.mem_append_left _ (List.mem_reverse.mp e)) hBc
  rcases List.mem_append.mp hx with h | h
  · exact hbw x (List.mem_cons_of_mem _ (List.mem_reverse.mpr h))
  · exact hfw x h

/-- A simple cycle may be read from any of its vertices. -/
theorem IsSimpleCycle.rotate {adj : AdjMap} {L1 L2 : List Vertex}
    (h : IsSimpleCycle adj (L1 ++ L2)) : IsSimpleCycle adj (L2 ++ L1) := by
  by_cases h1 : L1 = []
  · subst h1; simpa using h
  by_cases h2 : L2 = []
  · subst h2; simpa using h
  obtain ⟨hlen, hnd, hch, hcl⟩ := h
  have hc := List.chain'_append.mp hch
  refine ⟨by rw [List.length_append] at hlen ⊢; omega, List.nodup_append_comm.mp hnd, ?_, ?_⟩
  · refine List.chain'_append.mpr ⟨hc.2.1, hc.1, ?_⟩
    intro x hx y hy
    apply hcl x _ y _
    · rw [List.getLast?_append_of_ne_nil _ h2]; exact hx
    · rw [List.head?_append_of_ne_nil _ h1]; exact hy
  · intro l hl hd hhd
    apply hc.2.2 l _ hd _
    · rw [List.getLast?_append_of_ne_nil _ h1] at hl; exact hl
    · rw [List.head?_append_of_ne_nil _ h2] at hhd; exact hhd

theorem IsSimpleCycle.mem_keys {adj : AdjMap} {c : List Vertex} (h : IsSimpleCycle adj c)
    {x : Vertex} (hx : x ∈ c) : x ∈ keys adj := by
  obtain ⟨L1, L2, rfl⟩ := List.append_of_mem hx
  have h' : IsSimpleCycle adj ((x :: L2) ++ L1) := h.rotate
  obtain ⟨hlen, _, hch, _⟩ := h'
  cases hL : L2 ++ L1 with
  | nil =>
    simp only [List.cons_append, hL, List.length_singleton] at hlen
    omega
  | cons y rest =>
    simp only [List.cons_append, hL, List.chain'_cons] at hch
    exact mem_keys_of_mem_nbrs hch.1

theorem Adj_congr {a adj : AdjMap} (hN : nbrs a = nbrs adj) : Adj a = Adj adj := by
  funext u w
  simp only [Adj, hN]

theorem IsSimpleCycle_congr {a adj : AdjMap} (hN : nbrs a = nbrs adj) (c : List Vertex) :
    IsSimpleCycle a c ↔ IsSimpleCycle adj c := by
  simp only [IsSimpleCycle, Adj_congr hN]

/-- A start vertex that lies on a simple cycle makes `DFS` record a signature. -/
theorem DFS_complete {adj : AdjMap} (hsym : ∀ u w, w ∈ nbrs adj u → u ∈ nbrs adj w)
    {c : List Vertex} (hc : IsSimpleCycle adj c) {start : Vertex} (hs : start ∈ c)
    (v : Vertex) (uc : List String) :
    (DFS adj v start [] [] uc).unique_cycles ≠ [] := by
  obtain ⟨st1, hrun, -, -, -, hhit⟩ := DFS_run adj adj rfl start [] uc
  have hres : (DFS adj v start [] [] uc).unique_cycles = st1.unique_cycles := by
    simp only [DFS, hrun]
  rw [hres]
  obtain ⟨L1, L2, rfl⟩ := List.append_of_mem hs
  have h' : IsSimpleCycle adj ((start :: L2) ++ L1) := hc.rotate
  rw [List.cons_append] at h'
  obtain ⟨hlen, hnd, hch, hcl⟩ := h'
  cases hC : L2 ++ L1 with
  | nil =>
    simp only [hC, List.length_singleton] at hlen
    omega
  | cons x0 C1 =>
    rw [hC] at hlen hnd hch hcl
    rw [List.chain'_cons] at hch
    have hC1 : C1 ≠ [] := by
      intro h
      simp only [h, List.length_cons, List.length_nil] at hlen
      omega
    have hlast : (start :: x0 :: C1).getLast? = some (C1.getLast hC1) := by
      simp [List.getLast?_eq_getLast, List.getLast_cons, hC1]
    have hy : start ∈ nbrs adj (C1.getLast hC1) := hcl _ hlast start rfl
    have hyC : C1.getLast hC1 ∈ C1 := List.getLast_mem hC1
    have hnd' := List.nodup_cons.mp hnd
    have hnd2 := List.nodup_cons.mp hnd'.2
    apply hhit (x0 :: C1) (linked_of_chain hsym _ hch.2)
    · refine ⟨x0, List.mem_cons_self _ _, C1.getLast hC1, List.mem_cons_of_mem _ hyC, ?_,
        hsym _ _ hch.1, hy⟩
      intro h
      exact hnd2.1 (h ▸ hyC)
    · exact hnd'.1
    · exact ⟨x0, List.mem_cons_self _ _, hch.1⟩


/-! ### Every recorded signature comes from a simple cycle -/

theorem setInsert_nodup {s : List String} (h : s.Nodup) (x : String) :
    (setInsert s x).Nodup := by
  unfold setInsert
  split
  · exact h
  · rename_i hx
    rw [List.nodup_append]
    exact ⟨h, by simp, by
      intro a ha hb
      rw [List.mem_singleton] at hb
      exact hx (hb ▸ ha)⟩

theorem DfsInv.step {adj : AdjMap} {start : Vertex} {uc0 : List String} {st : DfsState}
    (I : DfsInv adj start uc0 st) : DfsInv adj start uc0 (DFSStep start st) := by
  cases hs : st.stack with
  | nil => rw [DFSStep_nil hs]; exact I
  | cons e stk =>
    obtain ⟨v, cp⟩ := e
    by_cases hv : v ∈ st.visited
    · rw [DFSStep_visited hs hv]
      exact {
        nbrs_eq := I.nbrs_eq
        path_nil := I.path_nil
        entries := fun e he => I.entries e (by rw [hs]; exact List.mem_cons_of_mem _ he)
        cycles := I.cycles
        nodup := I.nodup }
    · rw [DFSStep_fresh hs hv, I.nbrs_eq, I.path_nil]
      have hcp : (cp ++ [v]).head? = some start ∧ (cp ++ [v]).Nodup ∧
          (cp ++ [v]).Chain' (Adj adj) ∧ (cp ++ [v]).getLast? = some v ∧
          ∀ y ∈ cp ++ [v], y ∈ setInsert st.visited v := by
        rcases I.entries (v, cp) (by rw [hs]; exact List.mem_cons_self _ _) with h | h
        · obtain ⟨h1, h2⟩ := h
          simp only at h1 h2
          subst h1 h2
          refine ⟨rfl, by simp, by simp, rfl, ?_⟩
          intro y hy
          simp only [List.nil_append, List.mem_singleton] at hy
          exact mem_setInsert.mpr (Or.inr hy)
        · obtain ⟨h1, h2, h3, ⟨l, hl, hvl⟩, h5⟩ := h
          simp only at h1 h2 h3 hl hvl h5
          have hne : cp ≠ [] := by
            intro h; rw [h] at h1; simp at h1
          refine ⟨by rw [List.head?_append_of_ne_nil _ hne]; exact h1, ?_, ?_, by simp, ?_⟩
          · rw [List.nodup_append]
            refine ⟨h2, by simp, ?_⟩
            intro a ha hb
            rw [List.mem_singleton] at hb
            exact hv (hb ▸ h5 a ha)
          · refine List.chain'_append.mpr ⟨h3, by simp, ?_⟩
            intro x hx y hy
            simp only [List.head?_cons, Option.mem_def, Option.some.injEq] at hy
            have : x = l := by
              rw [Option.mem_def] at hx hl
              rw [hx] at hl
              exact Option.some.inj hl
            rw [this, ← hy]
            exact hvl
          · intro y hy
            rcases List.mem_append.mp hy with h | h
            · exact mem_setInsert.mpr (Or.inl (h5 y h))
            · rw [List.mem_singleton] at h
              exact mem_setInsert.mpr (Or.inr h)
      obtain ⟨c1, c2, c3, c4, c5⟩ := hcp
      exact {
        nbrs_eq := by simp only; rw [nbrs_touch]; exact I.nbrs_eq
        path_nil := setErase_setInsert_nil v
        entries := by
          intro e he
          simp only at he
          rcases List.mem_append.mp he with h | h
          · obtain ⟨e2, e1, -, -⟩ := mem_pushed.mp (List.mem_reverse.mp h)
            right
            rw [e2]
            exact ⟨c1, c2, c3, ⟨v, c4, e1⟩, c5⟩
          · rcases I.entries e (by rw [hs]; exact List.mem_cons_of_mem _ h) with h' | h'
            · exact Or.inl h'
            · obtain ⟨h1, h2, h3, h4, h5⟩ := h'
              exact Or.inr ⟨h1, h2, h3, h4, fun y hy => mem_setInsert.mpr (Or.inl (h5 y hy))⟩
        cycles := by
          intro s hs'
          simp only at hs'
          split at hs'
          · rename_i hcond
            rcases mem_setInsert.mp hs' with h | h
            · exact I.cycles s h
            · right
              refine ⟨cp ++ [v], ⟨hcond.2, c2, c3, ?_⟩, c1, h⟩
              intro l hl hd hhd
              rw [c4] at hl
              rw [c1] at hhd
              rw [Option.mem_def, Option.some.injEq] at hl hhd
              rw [← hl, ← hhd]
              exact hcond.1
          · exact I.cycles s hs'
        nodup := by
          intro h0
          simp only
          split
          · exact setInsert_nodup (I.nodup h0) _
          · exact I.nodup h0 }

theorem DfsInv.iterate {adj : AdjMap} {start : Vertex} {uc0 : List String} {st : DfsState}
    (I : DfsInv adj start uc0 st) (n : Nat) : DfsInv adj start uc0 ((DFSStep start)^[n] st) := by
  induction n generalizing st with
  | zero => exact I
  | succ n ih => rw [Function.iterate_succ_apply]; exact ih I.step

/-- The result of `DFS`, entered with empty `path` and `visited`. -/
theorem DFS_sound (adj a : AdjMap) (hN : nbrs a = nbrs adj) (v start : Vertex)
    (uc : List String) :
    DfsInv adj start uc (DFS a v start [] [] uc) ∧ (DFS a v start [] [] uc).stack = [] := by
  have I0 : DfsInv adj start uc
      { adj := a, stack := [(start, [])], path := [], visited := [], unique_cycles := uc } :=
    { nbrs_eq := hN
      path_nil := rfl
      entries := by
        intro e he
        simp only [List.mem_singleton] at he
        subst he
        exact Or.inl ⟨rfl, rfl⟩
      cycles := fun s hs => Or.inl hs
      nodup := fun h => h }
  obtain ⟨st1, hrun, hstk, -, -, -⟩ := DFS_run a a rfl start [] uc
  have I1 : DfsInv adj start uc st1 := by
    rw [← hrun, DFSLoop_eq_iterate]
    exact I0.iterate _
  have hD : DFS a v start [] [] uc = st1 := by
    have hp := I1.path_nil
    simp only [DFS, hrun]
    cases st1
    simp only at hp
    subst hp
    rfl
  rw [hD]
  exact ⟨I1, hstk⟩

/-- Where every neighbour is a key, `DFS` creates no key. -/
theorem DFSStep_adj {start : Vertex} {st : DfsState}
    (hK : ∀ e ∈ st.stack, e.1 ∈ keys st.adj)
    (hC : ∀ u w, w ∈ nbrs st.adj u → w ∈ keys st.adj) :
    (DFSStep start st).adj = st.adj ∧ ∀ e ∈ (DFSStep start st).stack, e.1 ∈ keys st.adj := by
  cases hs : st.stack with
  | nil => rw [DFSStep_nil hs]; exact ⟨rfl, hK⟩
  | cons e stk =>
    obtain ⟨v, cp⟩ := e
    have hvk : v ∈ keys st.adj := hK (v, cp) (by rw [hs]; exact List.mem_cons_self _ _)
    have hrest : ∀ e ∈ stk, e.1 ∈ keys st.adj :=
      fun e he => hK e (by rw [hs]; exact List.mem_cons_of_mem _ he)
    by_cases hv : v ∈ st.visited
    · rw [DFSStep_visited hs hv]
      exact ⟨rfl, hrest⟩
    · rw [DFSStep_fresh hs hv]
      refine ⟨touch_of_mem hvk, ?_⟩
      intro e he
      simp only at he
      rcases List.mem_append.mp he with h | h
      · exact hC v e.1 (mem_pushed.mp (List.mem_reverse.mp h)).2.1
      · exact hrest e h

theorem iterate_adj {start : Vertex} (n : Nat) {st : DfsState}
    (hK : ∀ e ∈ st.stack, e.1 ∈ keys st.adj)
    (hC : ∀ u w, w ∈ nbrs st.adj u → w ∈ keys st.adj) :
    ((DFSStep start)^[n] st).adj = st.adj := by
  induction n generalizing st with
  | zero => rfl
  | succ n ih =>
    rw [Function.iterate_succ_apply]
    obtain ⟨h1, h2⟩ := @DFSStep_adj start _ hK hC
    rw [ih (by rw [h1]; exact h2) (by rw [h1]; exact hC), h1]

theorem DFS_adj {adj : AdjMap} (hC : ∀ u w, w ∈ nbrs adj u → w ∈ keys adj) {start : Vertex}
    (hs : start ∈ keys adj) (v : Vertex) (path visited : List Vertex) (uc : List String) :
    (DFS adj v start path visited uc).adj = adj := by
  simp only [DFS, DFSLoop_eq_iterate]
  exact @iterate_adj start _
    { adj := adj, stack := [(start, [])], path := path, visited := visited, unique_cycles := uc }
    (by intro e he; simp only [List.mem_singleton] at he; subst he; exact hs) hC

/-- The loop of `SimpleCycleCount`: what its signatures are. -/
theorem cycleScan_spec (adj : AdjMap) :
    ∀ (ks : List Vertex) (a : AdjMap) (uc : List String), nbrs a = nbrs adj →
      nbrs (cycleScan ks (a, uc)).1 = nbrs adj ∧
      (∀ s ∈ uc, s ∈ (cycleScan ks (a, uc)).2) ∧
      (uc.Nodup → (cycleScan ks (a, uc)).2.Nodup) ∧
      (∀ s ∈ (cycleScan ks (a, uc)).2, s ∈ uc ∨
        ∃ p, IsSimpleCycle adj p ∧ (∃ start ∈ ks, p.head? = some start) ∧
          s = Join (sortCycle p)) ∧
      ((∀ u w, w ∈ nbrs adj u → u ∈ nbrs adj w) →
        ∀ c, IsSimpleCycle adj c → (∃ start ∈ ks, start ∈ c) →
          (cycleScan ks (a, uc)).2 ≠ []) := by
  intro ks
  induction ks with
  | nil =>
    intro a uc hN
    refine ⟨hN, fun s hs => hs, fun h => h, fun s hs => Or.inl hs, ?_⟩
    rintro - c - ⟨start, hs, -⟩
    exact absurd hs (List.not_mem_nil _)
  | cons k rest ih =>
    intro a uc hN
    obtain ⟨I, -⟩ := DFS_sound adj a hN k k uc
    obtain ⟨h1, h2, h3, h4, h5⟩ := ih (DFS a k k [] [] uc).adj (DFS a k k [] [] uc).unique_cycles
      I.nbrs_eq
    have hmono : ∀ s ∈ uc, s ∈ (DFS a k k [] [] uc).unique_cycles := by
      obtain ⟨st1, hrun, -, -, hm, -⟩ := DFS_run a a rfl k [] uc
      have : (DFS a k k [] [] uc).unique_cycles = st1.unique_cycles := by
        simp only [DFS, hrun]
      rw [this]
      exact hm
    refine ⟨h1, fun s hs => h2 s (hmono s hs), fun h => h3 (I.nodup h), ?_, ?_⟩
    · intro s hs
      rcases h4 s hs with h | ⟨p, hp, ⟨start, hst, hhd⟩, hj⟩
      · rcases I.cycles s h with h' | ⟨p, hp, hhd, hj⟩
        · exact Or.inl h'
        · exact Or.inr ⟨p, hp, ⟨k, List.mem_cons_self _ _, hhd⟩, hj⟩
      · exact Or.inr ⟨p, hp, ⟨start, List.mem_cons_of_mem _ hst, hhd⟩, hj⟩
    · intro hsym c hc hex
      obtain ⟨start, hst, hsc⟩ := hex
      rcases List.mem_cons.mp hst with e | e
      · subst e
        have hsym' : ∀ u w, w ∈ nbrs a u → u ∈ nbrs a w := by rw [hN]; exact hsym
        have := DFS_complete hsym' ((IsSimpleCycle_congr hN c).mpr hc) hsc start uc
        obtain ⟨s, hs⟩ := List.exists_mem_of_ne_nil _ this
        exact List.ne_nil_of_mem (h2 s hs)
      · exact h5 hsym c hc ⟨start, e, hsc⟩

theorem cycleScan_adj {adj : AdjMap} (hC : ∀ u w, w ∈ nbrs adj u → w ∈ keys adj) :
    ∀ (ks : List Vertex) (uc : List String), (∀ k ∈ ks, k ∈ keys adj) →
      (cycleScan ks (adj, uc)).1 = adj := by
  intro ks
  induction ks with
  | nil => intro uc _; rfl
  | cons k rest ih =>
    intro uc hk
    simp only [cycleScan]
    rw [DFS_adj hC (hk k (List.mem_cons_self _ _))]
    exact ih _ (fun x hx => hk x (List.mem_cons_of_mem _ hx))


/-! ### `SimpleCycleCount` and `IsAcyclic` -/

theorem SimpleCycleCount_count (adj : AdjMap) :
    (SimpleCycleCount adj).2.count = ((cycleScan (keys adj) (adj, [])).2.length : Int) := rfl

theorem SimpleCycleCount_adj {adj : AdjMap} (h : WellFormed adj) :
    (SimpleCycleCount adj).1 = adj :=
  cycleScan_adj (fun _ _ hw => h.closed hw) (keys adj) [] (fun _ hk => hk)

theorem IsAcyclic_snd (g : Graph) :
    (IsAcyclic g).2 = decide ((SimpleCycleCount g.adj_).2.count ≤ 0) := by
  unfold IsAcyclic
  by_cases h : (SimpleCycleCount g.adj_).2.count > 0
  · simp only [h, if_true]
    exact (decide_eq_false (by omega)).symm
  · simp only [h, if_false]
    exact (decide_eq_true (by omega)).symm

/-- A graph with a simple cycle has a signature recorded. -/
theorem count_pos_of_cycle {adj : AdjMap} (hwf : WellFormed adj) {c : List Vertex}
    (hc : IsSimpleCycle adj c) : 1 ≤ (SimpleCycleCount adj).2.count := by
  rw [SimpleCycleCount_count]
  obtain ⟨-, -, -, -, h5⟩ := cycleScan_spec adj (keys adj) adj [] rfl
  have hne : c ≠ [] := by
    intro h
    have := hc.1
    rw [h] at this
    simp at this
  obtain ⟨x, hx⟩ := List.exists_mem_of_ne_nil _ hne
  have := h5 (fun u w hw => hwf.symm hw) c hc ⟨x, hc.mem_keys hx, hx⟩
  have hpos := List.length_pos.mpr this
  omega

/-- A graph without a simple cycle has no signature recorded. -/
theorem count_zero_of_acyclic {adj : AdjMap} (hno : ∀ c, ¬ IsSimpleCycle adj c) :
    (cycleScan (keys adj) (adj, [])).2 = [] := by
  obtain ⟨-, -, -, h4, -⟩ := cycleScan_spec adj (keys adj) adj [] rfl
  apply List.eq_nil_iff_forall_not_mem.mpr
  intro s hs
  rcases h4 s hs with h | ⟨p, hp, -, -⟩
  · exact absurd h (List.not_mem_nil _)
  · exact hno p hp

theorem IsSimpleCycle.length_le {adj : AdjMap} {c : List Vertex} (h : IsSimpleCycle adj c) :
    c.length ≤ (keys adj).length :=
  (List.Nodup.subperm h.2.1 (fun _ hx => h.mem_keys hx)).length_le

/-- C2. In a well-formed graph with a simple cycle on at least three vertices,
`SimpleCycleCount` returns a count of at least 1 and `IsAcyclic` returns false;
on the triangle the count is 1 and the signature is `A-B-C-A`. -/
theorem cycle_is_detected (g : Graph) (hwf : WellFormed g.adj_) (c : List Vertex)
    (hc : IsSimpleCycle g.adj_ c) :
    1 ≤ (SimpleCycleCount g.adj_).2.count ∧ (IsAcyclic g).2 = false ∧
    (SimpleCycleCount triangle).2 = { count := 1, path := "A-B-C-A" } := by
  have h1 := count_pos_of_cycle hwf hc
  refine ⟨h1, ?_, by decide⟩
  rw [IsAcyclic_snd]
  exact decide_eq_false (by omega)

theorem cycle_is_detected_witness :
    WellFormed (fresh triangle).adj_ ∧ IsSimpleCycle (fresh triangle).adj_ ["A", "B", "C"] ∧
    1 ≤ (SimpleCycleCount (fresh triangle).adj_).2.count ∧
    (IsAcyclic (fresh triangle)).2 = false :=
  ⟨by decide, by decide,
    (cycle_is_detected (fresh triangle) (by decide) ["A", "B", "C"] (by decide)).1,
    (cycle_is_detected (fresh triangle) (by decide) ["A", "B", "C"] (by decide)).2.1⟩

/-- C3. Every signature that the enumerator records is the sorted vertex list of
a simple path from a start vertex, on at least three distinct vertices, whose
last vertex is adjacent to the start; hence a well-formed graph without a simple
cycle gets count 0 and `IsAcyclic` returns true. -/
theorem acyclic_is_recognised (g : Graph) (hwf : WellFormed g.adj_) :
    (∀ s ∈ (cycleScan (keys g.adj_) (g.adj_, [])).2,
      ∃ start ∈ keys g.adj_, ∃ p : List Vertex,
        p.head? = some start ∧ p.Nodup ∧ 3 ≤ p.length ∧ p.Chain' (Adj g.adj_) ∧
        (∃ l ∈ p.getLast?, start ∈ nbrs g.adj_ l) ∧ s = Join (sortCycle p)) ∧
    ((∀ c, ¬ IsSimpleCycle g.adj_ c) →
      (SimpleCycleCount g.adj_).2.count = 0 ∧ IsAcyclic g = (g, true)) := by
  constructor
  · obtain ⟨-, -, -, h4, -⟩ := cycleScan_spec g.adj_ (keys g.adj_) g.adj_ [] rfl
    intro s hs
    rcases h4 s hs with h | ⟨p, hp, ⟨start, hst, hhd⟩, hj⟩
    · exact absurd h (List.not_mem_nil _)
    · obtain ⟨hlen, hnd, hch, hcl⟩ := hp
      refine ⟨start, hst, p, hhd, hnd, hlen, hch, ?_, hj⟩
      have hne : p ≠ [] := by
        intro h; rw [h] at hhd; simp at hhd
      refine ⟨p.getLast hne, List.getLast?_eq_getLast p hne, ?_⟩
      exact hcl _ (List.getLast?_eq_getLast p hne) start hhd
  · intro hno
    have h0 : (SimpleCycleCount g.adj_).2.count = 0 := by
      rw [SimpleCycleCount_count, count_zero_of_acyclic hno]
      rfl
    refine ⟨h0, ?_⟩
    unfold IsAcyclic
    simp only [h0, SimpleCycleCount_adj hwf]
    simp

theorem acyclic_is_recognised_witness :
    WellFormed (fresh singleEdge).adj_ ∧ (∀ c, ¬ IsSimpleCycle (fresh singleEdge).adj_ c) ∧
    (SimpleCycleCount (fresh singleEdge).adj_).2.count = 0 ∧
    IsAcyclic (fresh singleEdge) = (fresh singleEdge, true) :=
  have hno : ∀ c, ¬ IsSimpleCycle (fresh singleEdge).adj_ c := fun c hc => by
    have h1 := hc.length_le
    have h2 := hc.1
    have h3 : (keys (fresh singleEdge).adj_).length = 2 := by decide
    omega
  ⟨by decide, hno, (acyclic_is_recognised (fresh singleEdge) (by decide)).2 hno⟩


/-! ### The excluded-shape check -/

theorem AreConnected_of_mem {adj : AdjMap} {v : Vertex} (h : v ∈ keys adj) (w : Vertex) :
    AreConnected adj v w = some (decide (w ∈ nbrs adj v)) := by
  simp only [AreConnected, find?_eq_some_nbrs h]

theorem mem_setInsert3 {T : List Vertex} {a b c x : Vertex} :
    x ∈ setInsert (setInsert (setInsert T a) b) c ↔ x ∈ T ∨ x = a ∨ x = b ∨ x = c := by
  simp only [mem_setInsert, or_assoc]

theorem triangleInner_spec {adj : AdjMap} (v ni : Vertex) (hni : ni ∈ keys adj) :
    ∀ (rest T : List Vertex), ∃ T1, triangleInner adj v ni rest T = some T1 ∧
      (T.Nodup → T1.Nodup) ∧
      ∀ x, x ∈ T1 ↔ x ∈ T ∨ ∃ nj ∈ rest, nj ∈ nbrs adj ni ∧ (x = v ∨ x = ni ∨ x = nj) := by
  intro rest
  induction rest with
  | nil => intro T; exact ⟨T, rfl, fun h => h, by simp⟩
  | cons nj rest ih =>
    intro T
    unfold triangleInner
    rw [AreConnected_of_mem hni]
    by_cases h : nj ∈ nbrs adj ni
    · simp only [h, decide_True]
      obtain ⟨T1, h1, h2, h3⟩ := ih (setInsert (setInsert (setInsert T v) ni) nj)
      refine ⟨T1, h1, fun hT => h2 (setInsert_nodup (setInsert_nodup (setInsert_nodup hT _) _) _),
        ?_⟩
      intro x
      rw [h3, mem_setInsert3]
      constructor
      · rintro (h' | ⟨n, hn, hnn, hx⟩)
        · rcases h' with h' | h'
          · exact Or.inl h'
          · exact Or.inr ⟨nj, List.mem_cons_self _ _, h, h'⟩
        · exact Or.inr ⟨n, List.mem_cons_of_mem _ hn, hnn, hx⟩
      · rintro (h' | ⟨n, hn, hnn, hx⟩)
        · exact Or.inl (Or.inl h')
        · rcases List.mem_cons.mp hn with e | e
          · subst e; exact Or.inl (Or.inr hx)
          · exact Or.inr ⟨n, e, hnn, hx⟩
    · simp only [h, decide_False]
      obtain ⟨T1, h1, h2, h3⟩ := ih T
      refine ⟨T1, h1, h2, ?_⟩
      intro x
      rw [h3]
      constructor
      · rintro (h' | ⟨n, hn, hnn, hx⟩)
        · exact Or.inl h'
        · exact Or.inr ⟨n, List.mem_cons_of_mem _ hn, hnn, hx⟩
      · rintro (h' | ⟨n, hn, hnn, hx⟩)
        · exact Or.inl h'
        · rcases List.mem_cons.mp hn with e | e
          · subst e; exact absurd hnn h
          · exact Or.inr ⟨n, e, hnn, hx⟩

theorem triangleOuter_spec {adj : AdjMap} (v : Vertex) :
    ∀ (ns T : List Vertex), (∀ n ∈ ns, n ∈ keys adj) →
      ∃ T1, triangleOuter adj v ns T = some T1 ∧ (T.Nodup → T1.Nodup) ∧
        ∀ x, x ∈ T1 ↔ x ∈ T ∨ ∃ ni nj, List.Sublist [ni, nj] ns ∧ nj ∈ nbrs adj ni ∧
          (x = v ∨ x = ni ∨ x = nj) := by
  intro ns
  induction ns with
  | nil =>
    intro T _
    exact ⟨T, rfl, fun h => h, by simp⟩
  | cons n rest ih =>
    intro T hk
    unfold triangleOuter
    obtain ⟨T0, h0, hnd0, hm0⟩ := triangleInner_spec v n (hk n (List.mem_cons_self _ _)) rest T
    rw [h0]
    simp only
    obtain ⟨T1, h1, hnd1, hm1⟩ := ih T0 (fun x hx => hk x (List.mem_cons_of_mem _ hx))
    refine ⟨T1, h1, fun h => hnd1 (hnd0 h), ?_⟩
    intro x
    rw [hm1, hm0]
    constructor
    · rintro ((h | ⟨nj, hnj, ha, hx⟩) | ⟨ni, nj, hs, ha, hx⟩)
      · exact Or.inl h
      · refine Or.inr ⟨n, nj, ?_, ha, hx⟩
        exact List.cons_sublist_cons.mpr (List.singleton_sublist.mpr hnj)
      · exact Or.inr ⟨ni, nj, List.sublist_cons_of_sublist _ hs, ha, hx⟩
    · rintro (h | ⟨ni, nj, hs, ha, hx⟩)
      · exact Or.inl (Or.inl h)
      · rcases List.sublist_cons_iff.mp hs with h' | ⟨r, hr, hr2⟩
        · exact Or.inr ⟨ni, nj, h', ha, hx⟩
        · simp only [List.cons.injEq] at hr
          obtain ⟨e1, e2⟩ := hr
          subst e1 e2
          exact Or.inl (Or.inr ⟨nj, List.singleton_sublist.mp hr2, ha, hx⟩)

theorem mem_edgeStep (v : Vertex) (ns E : List Vertex) (x : Vertex) :
    x ∈ edgeStep v ns E ↔ x ∈ E ∨ (ns.length ≤ 1 ∧ (x = v ∨ x ∈ ns)) := by
  unfold edgeStep
  cases ns with
  | nil => simp [mem_setInsert]
  | cons n0 tl =>
    cases tl with
    | nil => simp [mem_setInsert, or_assoc]
    | cons n1 tl2 => simp

theorem exceptionScan_spec {adj : AdjMap} :
    ∀ (L : AdjMap) (T E : List Vertex), (∀ kv ∈ L, ∀ n ∈ kv.2, n ∈ keys adj) →
      ∃ T1 E1, exceptionScan adj L (T, E) = some (T1, E1) ∧
        (∀ x, x ∈ T1 ↔ x ∈ T ∨ ∃ kv ∈ L, ∃ ni nj, List.Sublist [ni, nj] kv.2 ∧ nj ∈ nbrs adj ni ∧
          (x = kv.1 ∨ x = ni ∨ x = nj)) ∧
        (∀ x, x ∈ E1 ↔ x ∈ E ∨ ∃ kv ∈ L, kv.2.length ≤ 1 ∧ (x = kv.1 ∨ x ∈ kv.2)) := by
  intro L
  induction L with
  | nil =>
    intro T E _
    exact ⟨T, E, rfl, by simp, by simp⟩
  | cons kv rest ih =>
    intro T E hk
    obtain ⟨v, ns⟩ := kv
    have hns : ∀ n ∈ ns, n ∈ keys adj := hk (v, ns) (List.mem_cons_self _ _)
    have hrest : ∀ kv ∈ rest, ∀ n ∈ kv.2, n ∈ keys adj :=
      fun kv h => hk kv (List.mem_cons_of_mem _ h)
    obtain ⟨T0, h0, -, hm0⟩ := triangleOuter_spec v ns T hns
    have hT : ∃ T0', (if ns.length ≥ 2 then triangleOuter adj v ns T else some T) = some T0' ∧
        ∀ x, x ∈ T0' ↔ x ∈ T ∨ ∃ ni nj, List.Sublist [ni, nj] ns ∧ nj ∈ nbrs adj ni ∧
          (x = v ∨ x = ni ∨ x = nj) := by
      by_cases hl : ns.length ≥ 2
      · rw [if_pos hl]
        exact ⟨T0, h0, hm0⟩
      · rw [if_neg hl]
        refine ⟨T, rfl, ?_⟩
        intro x
        constructor
        · exact Or.inl
        · rintro (h | ⟨ni, nj, hs, -, -⟩)
          · exact h
          · have := hs.length_le
            simp only [List.length_cons, List.length_nil] at this
            omega
    obtain ⟨T0', hT1, hT2⟩ := hT
    unfold exceptionScan
    rw [hT1]
    simp only
    have hE := mem_edgeStep v ns E
    obtain ⟨T1, E1, h1, hm1, he1⟩ := ih T0' _ hrest
    refine ⟨T1, E1, h1, ?_, ?_⟩
    · intro x
      rw [hm1, hT2]
      constructor
      · rintro ((h | ⟨ni, nj, hs, ha, hx⟩) | ⟨kv, hkv, ni, nj, hs, ha, hx⟩)
        · exact Or.inl h
        · exact Or.inr ⟨(v, ns), List.mem_cons_self _ _, ni, nj, hs, ha, hx⟩
        · exact Or.inr ⟨kv, List.mem_cons_of_mem _ hkv, ni, nj, hs, ha, hx⟩
      · rintro (h | ⟨kv, hkv, ni, nj, hs, ha, hx⟩)
        · exact Or.inl (Or.inl h)
        · rcases List.mem_cons.mp hkv with e | e
          · subst e
            exact Or.inl (Or.inr ⟨ni, nj, hs, ha, hx⟩)
          · exact Or.inr ⟨kv, e, ni, nj, hs, ha, hx⟩
    · intro x
      rw [he1, hE]
      constructor
      · rintro ((h | ⟨hl, hx⟩) | ⟨kv, hkv, hl, hx⟩)
        · exact Or.inl h
        · exact Or.inr ⟨(v, ns), List.mem_cons_self _ _, hl, hx⟩
        · exact Or.inr ⟨kv, List.mem_cons_of_mem _ hkv, hl, hx⟩
      · rintro (h | ⟨kv, hkv, hl, hx⟩)
        · exact Or.inl (Or.inl h)
        · rcases List.mem_cons.mp hkv with e | e
          · subst e
            exact Or.inl (Or.inr ⟨hl, hx⟩)
          · exact Or.inr ⟨kv, e, hl, hx⟩


theorem mem_adj_of_mem_keys {adj : AdjMap} {v : Vertex} (h : v ∈ keys adj) :
    (v, nbrs adj v) ∈ adj := by
  induction adj with
  | nil => simp [keys] at h
  | cons kv rest ih =>
    obtain ⟨k, ns⟩ := kv
    by_cases hk : k = v
    · subst hk
      simp [nbrs, find?]
    · have hv : v ∈ keys rest := by
        simp only [keys, List.map_cons, List.mem_cons] at h
        rcases h with h | h
        · exact absurd h.symm hk
        · exact h
      have := ih hv
      have e : nbrs ((k, ns) :: rest) v = nbrs rest v := by simp [nbrs, find?, hk]
      rw [e]
      exact List.mem_cons_of_mem _ this

theorem nbrs_of_mem_adj {adj : AdjMap} (hn : (keys adj).Nodup) {v : Vertex} {ns : List Vertex}
    (h : (v, ns) ∈ adj) : nbrs adj v = ns := by
  induction adj with
  | nil => simp at h
  | cons kv rest ih =>
    obtain ⟨k, ms⟩ := kv
    simp only [keys, List.map_cons, List.nodup_cons] at hn
    rcases List.mem_cons.mp h with e | e
    · simp only [Prod.mk.injEq] at e
      obtain ⟨e1, e2⟩ := e
      subst e1 e2
      simp [nbrs, find?]
    · have hk : ¬ k = v := by
        intro hkv
        apply hn.1
        rw [hkv]
        exact List.mem_map.mpr ⟨(v, ns), e, rfl⟩
      have := ih hn.2 e
      simp only [nbrs, find?, hk, if_false] at this ⊢
      exact this

theorem mem_keys_of_mem_adj {adj : AdjMap} {kv : Vertex × List Vertex} (h : kv ∈ adj) :
    kv.1 ∈ keys adj :=
  List.mem_map.mpr ⟨kv, h, rfl⟩

theorem pair_sublist {l : List Vertex} {b c : Vertex} (hb : b ∈ l) (hc : c ∈ l) (hbc : b ≠ c) :
    List.Sublist [b, c] l ∨ List.Sublist [c, b] l := by
  induction l with
  | nil => simp at hb
  | cons a rest ih =>
    rcases List.mem_cons.mp hb with e1 | e1
    · rcases List.mem_cons.mp hc with e2 | e2
      · exact absurd (e1.trans e2.symm) hbc
      · left
        rw [e1]
        exact List.cons_sublist_cons.mpr (List.singleton_sublist.mpr e2)
    · rcases List.mem_cons.mp hc with e2 | e2
      · right
        rw [e2]
        exact List.cons_sublist_cons.mpr (List.singleton_sublist.mpr e1)
      · rcases ih e1 e2 with h | h
        · exact Or.inl (List.sublist_cons_of_sublist _ h)
        · exact Or.inr (List.sublist_cons_of_sublist _ h)

/-- The two sets that `IsSubcyclicException` collects, on a well-formed graph. -/
theorem exception_sets {adj : AdjMap} (hwf : WellFormed adj) :
    ∃ T E, exceptionScan adj adj ([], []) = some (T, E) ∧
      (∀ x, x ∈ T ↔ ∃ a ∈ keys adj, ∃ ni nj, List.Sublist [ni, nj] (nbrs adj a) ∧
        nj ∈ nbrs adj ni ∧ (x = a ∨ x = ni ∨ x = nj)) ∧
      (∀ x, x ∈ E ↔ ∃ a ∈ keys adj, (nbrs adj a).length ≤ 1 ∧ (x = a ∨ x ∈ nbrs adj a)) := by
  obtain ⟨T, E, h, hT, hE⟩ := @exceptionScan_spec adj adj [] [] (by
    intro kv hkv n hn
    have := nbrs_of_mem_adj hwf.1 (show (kv.1, kv.2) ∈ adj from hkv)
    rw [← this] at hn
    exact hwf.closed hn)
  refine ⟨T, E, h, ?_, ?_⟩
  · intro x
    rw [hT]
    constructor
    · rintro (h' | ⟨kv, hkv, ni, nj, hs, ha, hx⟩)
      · exact absurd h' (List.not_mem_nil _)
      · have := nbrs_of_mem_adj hwf.1 (show (kv.1, kv.2) ∈ adj from hkv)
        exact ⟨kv.1, mem_keys_of_mem_adj hkv, ni, nj, this ▸ hs, ha, hx⟩
    · rintro ⟨a, ha, ni, nj, hs, hadj, hx⟩
      exact Or.inr ⟨(a, nbrs adj a), mem_adj_of_mem_keys ha, ni, nj, hs, hadj, hx⟩
  · intro x
    rw [hE]
    constructor
    · rintro (h' | ⟨kv, hkv, hl, hx⟩)
      · exact absurd h' (List.not_mem_nil _)
      · have := nbrs_of_mem_adj hwf.1 (show (kv.1, kv.2) ∈ adj from hkv)
        exact ⟨kv.1, mem_keys_of_mem_adj hkv, this ▸ hl, this ▸ hx⟩
    · rintro ⟨a, ha, hl, hx⟩
      exact Or.inr ⟨(a, nbrs adj a), mem_adj_of_mem_keys ha, hl, hx⟩

theorem IsSubcyclicException_total {adj : AdjMap} (hwf : WellFormed adj) :
    ∃ b, IsSubcyclicException adj = some b := by
  obtain ⟨T, E, h, -, -⟩ := exception_sets hwf
  unfold IsSubcyclicException
  rw [h]
  exact ⟨_, rfl⟩

theorem IsSubcyclicException_false_iff {adj : AdjMap} (hwf : WellFormed adj)
    (hs : Simple adj) :
    IsSubcyclicException adj = some false ↔ HasTriangle adj ∧ HasLowDegree adj := by
  obtain ⟨T, E, h, hT, hE⟩ := exception_sets hwf
  have hloop : ∀ {u w : Vertex}, w ∈ nbrs adj u → u ≠ w := by
    intro u w hw e
    rw [← e] at hw
    exact (hs u (mem_keys_of_mem_nbrs hw)).1 hw
  have h3 : 3 ≤ T.length ↔ HasTriangle adj := by
    constructor
    · intro hl
      have hne : T ≠ [] := by
        intro e; rw [e] at hl; simp at hl
      obtain ⟨x, hx⟩ := List.exists_mem_of_ne_nil _ hne
      obtain ⟨a, -, ni, nj, hsub, hadj, -⟩ := (hT x).mp hx
      have h1 : ni ∈ nbrs adj a := hsub.subset (by simp)
      have h2 : nj ∈ nbrs adj a := hsub.subset (by simp)
      exact ⟨a, ni, nj, hloop h1, hloop hadj, hloop h2, h1, hadj, h2⟩
    · rintro ⟨a, b, c, hab, hbc, hac, h1, h2, h3⟩
      have hmem : ∀ x, x = a ∨ x = b ∨ x = c → x ∈ T := by
        intro x hx
        rw [hT]
        rcases pair_sublist h1 h3 hbc with hsub | hsub
        · exact ⟨a, mem_keys_of_mem_nbrs h1, b, c, hsub, h2, hx⟩
        · refine ⟨a, mem_keys_of_mem_nbrs h1, c, b, hsub, hwf.symm h2, ?_⟩
          rcases hx with e | e | e
          · exact Or.inl e
          · exact Or.inr (Or.inr e)
          · exact Or.inr (Or.inl e)
      have hnd : [a, b, c].Nodup := by simp [hab, hbc, hac]
      have hsub : [a, b, c] ⊆ T := by
        intro x hx
        simp only [List.mem_cons, List.mem_singleton, List.not_mem_nil, or_false] at hx
        exact hmem x hx
      have := (List.Nodup.subperm hnd hsub).length_le
      simpa using this
  have h1 : 1 ≤ E.length ↔ HasLowDegree adj := by
    constructor
    · intro hl
      have hne : E ≠ [] := by
        intro e; rw [e] at hl; simp at hl
      obtain ⟨x, hx⟩ := List.exists_mem_of_ne_nil _ hne
      obtain ⟨a, ha, hla, -⟩ := (hE x).mp hx
      exact ⟨a, ha, hla⟩
    · rintro ⟨u, hu, hl⟩
      exact List.length_pos_of_mem ((hE u).mpr ⟨u, hu, hl, Or.inl rfl⟩)
  unfold IsSubcyclicException
  rw [h, ← h3, ← h1]
  simp only [Option.some.injEq, Bool.not_eq_false', Bool.or_eq_true, Bool.and_eq_true,
    decide_eq_true_eq, ge_iff_le]
  constructor
  · rintro (⟨a, b⟩ | ⟨a, b⟩)
    · exact ⟨a, by omega⟩
    · exact ⟨a, by omega⟩
  · rintro ⟨a, b⟩
    by_cases h2 : 2 ≤ E.length
    · exact Or.inl ⟨a, h2⟩
    · exact Or.inr ⟨a, by omega⟩


/-! ### Adding and removing a chord -/

theorem keys_AddEdge {adj : AdjMap} {v w : Vertex} (hv : v ∈ keys adj) (hw : w ∈ keys adj) :
    keys (AddEdge adj v w) = keys adj := by
  unfold AddEdge
  rw [keys_pushBack_of_mem _ (by rw [keys_pushBack_of_mem _ hv]; exact hw),
    keys_pushBack_of_mem _ hv]

theorem nbrs_AddEdge (adj : AdjMap) {v w : Vertex} (hvw : v ≠ w) (x : Vertex) :
    nbrs (AddEdge adj v w) x =
      if x = v then nbrs adj v ++ [w] else if x = w then nbrs adj w ++ [v] else nbrs adj x := by
  unfold AddEdge
  rw [nbrs_pushBack, nbrs_pushBack, nbrs_pushBack]
  by_cases h1 : x = v
  · subst h1
    simp [hvw, Ne.symm hvw]
  · by_cases h2 : x = w
    · subst h2
      simp [h1]
    · simp [h1, h2]

theorem mem_nbrs_AddEdge (adj : AdjMap) {v w : Vertex} (hvw : v ≠ w) (x y : Vertex) :
    y ∈ nbrs (AddEdge adj v w) x ↔
      y ∈ nbrs adj x ∨ (x = v ∧ y = w) ∨ (x = w ∧ y = v) := by
  rw [nbrs_AddEdge adj hvw]
  by_cases h1 : x = v
  · subst h1
    simp [hvw]
  · by_cases h2 : x = w
    · subst h2
      simp [h1]
    · simp [h1, h2]

theorem WellFormed.addEdge {adj : AdjMap} (h : WellFormed adj) {v w : Vertex}
    (hv : v ∈ keys adj) (hw : w ∈ keys adj) (hvw : v ≠ w) : WellFormed (AddEdge adj v w) := by
  refine ⟨by rw [keys_AddEdge hv hw]; exact h.1, ?_, ?_⟩
  · intro x _ y hy
    rw [keys_AddEdge hv hw]
    rcases (mem_nbrs_AddEdge adj hvw x y).mp hy with h1 | ⟨-, h2⟩ | ⟨-, h2⟩
    · exact h.closed h1
    · rw [h2]; exact hw
    · rw [h2]; exact hv
  · intro x _ y hy
    rw [mem_nbrs_AddEdge adj hvw]
    rcases (mem_nbrs_AddEdge adj hvw x y).mp hy with h1 | ⟨h1, h2⟩ | ⟨h1, h2⟩
    · exact Or.inl (h.symm h1)
    · exact Or.inr (Or.inr ⟨h2, h1⟩)
    · exact Or.inr (Or.inl ⟨h2, h1⟩)

theorem filter_ne_append_self {l : List Vertex} {w : Vertex} (h : w ∉ l) :
    (l ++ [w]).filter (fun y => decide (y ≠ w)) = l := by
  rw [List.filter_append]
  have h1 : l.filter (fun y => decide (y ≠ w)) = l := by
    apply List.filter_eq_self.mpr
    intro a ha
    exact decide_eq_true (fun e => h (e ▸ ha))
  rw [h1]
  simp

/-- Removing a chord that was just added between two non-adjacent vertices of a
well-formed graph gives back the very same map. -/
theorem RemoveEdge_AddEdge {adj : AdjMap} (h : WellFormed adj) {v w : Vertex}
    (hv : v ∈ keys adj) (hw : w ∈ keys adj) (hvw : v ≠ w) (hn : w ∉ nbrs adj v) :
    RemoveEdge (AddEdge adj v w) v w = adj := by
  have hn' : v ∉ nbrs adj w := fun h' => hn (h.symm h')
  have hk0 : keys (AddEdge adj v w) = keys adj := keys_AddEdge hv hw
  have hk1 : keys (eraseValue (AddEdge adj v w) v w) = keys adj := by
    rw [keys_eraseValue_of_mem _ (by rw [hk0]; exact hv), hk0]
  have hk2 : keys (RemoveEdge (AddEdge adj v w) v w) = keys adj := by
    unfold RemoveEdge
    rw [keys_eraseValue_of_mem _ (by rw [hk1]; exact hw), hk1]
  have hwv : w ≠ v := Ne.symm hvw
  apply adjMap_ext hk2 (by rw [hk2]; exact h.1)
  intro x hx
  rw [hk2] at hx
  unfold RemoveEdge
  rw [find?_eraseValue, find?_eraseValue]
  have e1 : nbrs (eraseValue (AddEdge adj v w) v w) w = nbrs adj w ++ [v] := by
    unfold nbrs
    rw [find?_eraseValue, if_neg hwv]
    have := nbrs_AddEdge adj hvw w
    unfold nbrs at this
    rw [this, if_neg hwv, if_pos rfl]
  rw [e1, nbrs_AddEdge adj hvw v, if_pos rfl, filter_ne_append_self hn,
    filter_ne_append_self hn']
  by_cases h1 : x = w
  · rw [if_pos h1, h1, find?_eq_some_nbrs hw]
  · rw [if_neg h1]
    by_cases h2 : x = v
    · rw [if_pos h2, h2, find?_eq_some_nbrs hv]
    · rw [if_neg h2]
      unfold AddEdge
      rw [find?_pushBack, if_neg h1, find?_pushBack, if_neg h2]


/-! ### The chord test of `IsSubcyclic` -/

theorem graph_eta (g : Graph) : ({ g with adj_ := g.adj_ } : Graph) = g := rfl

theorem chordInner_spec (g : Graph) (hwf : WellFormed g.adj_) (v : Vertex)
    (hv : v ∈ keys g.adj_) :
    ∀ ws : List Vertex, (∀ w ∈ ws, w ∈ keys g.adj_) →
      ∃ g1 b, chordInner v ws g = some (g1, b) ∧ g1.adj_ = g.adj_ ∧
        g1.properties_ = g.properties_ ∧ (b = true → g1 = g) ∧
        (b = true ↔ ∀ w ∈ ws, v ≠ w → w ∉ nbrs g.adj_ v → ChordPasses g.adj_ v w) ∧
        (b = false → ∃ w ∈ ws, g1.output_ =
          g.output_ ++ "Нарушена субцикличность в вершинах " ++ v ++ "-" ++ w ++ "\n") := by
  intro ws
  induction ws with
  | nil =>
    intro _
    exact ⟨g, true, rfl, rfl, rfl, fun _ => rfl, by simp, by simp⟩
  | cons w rest ih =>
    intro hk
    have hw : w ∈ keys g.adj_ := hk w (List.mem_cons_self _ _)
    obtain ⟨g1, b, h1, h2, h3, h4, h5, h6⟩ := ih (fun x hx => hk x (List.mem_cons_of_mem _ hx))
    have lift : (∀ x ∈ rest, v ≠ x → x ∉ nbrs g.adj_ v → ChordPasses g.adj_ v x) →
        (v ≠ w → w ∉ nbrs g.adj_ v → ChordPasses g.adj_ v w) →
        ∀ x ∈ w :: rest, v ≠ x → x ∉ nbrs g.adj_ v → ChordPasses g.adj_ v x := by
      intro hr hw' x hx
      rcases List.mem_cons.mp hx with e | e
      · rw [e]; exact hw'
      · exact hr x e
    have skip : (v ≠ w → w ∉ nbrs g.adj_ v → ChordPasses g.adj_ v w) →
        ∃ g1 b, chordInner v rest g = some (g1, b) ∧ g1.adj_ = g.adj_ ∧
        g1.properties_ = g.properties_ ∧ (b = true → g1 = g) ∧
        (b = true ↔ ∀ x ∈ w :: rest, v ≠ x → x ∉ nbrs g.adj_ v → ChordPasses g.adj_ v x) ∧
        (b = false → ∃ x ∈ w :: rest, g1.output_ =
          g.output_ ++ "Нарушена субцикличность в вершинах " ++ v ++ "-" ++ x ++ "\n") := by
      intro hw'
      refine ⟨g1, b, h1, h2, h3, h4, ?_, ?_⟩
      · rw [h5]
        exact ⟨fun hr => lift hr hw', fun ha x hx => ha x (List.mem_cons_of_mem _ hx)⟩
      · intro hb
        obtain ⟨x, hx, ho⟩ := h6 hb
        exact ⟨x, List.mem_cons_of_mem _ hx, ho⟩
    unfold chordInner
    by_cases hvw : v = w
    · rw [if_neg (not_not.mpr hvw)]
      exact skip (fun h => absurd hvw h)
    · rw [if_pos hvw, AreConnected_of_mem hv]
      by_cases hc : w ∈ nbrs g.adj_ v
      · simp only [hc, decide_True]
        exact skip (fun _ h => absurd hc h)
      · simp only [hc, decide_False]
        have hadj : (SimpleCycleCount (AddEdge g.adj_ v w)).1 = AddEdge g.adj_ v w :=
          SimpleCycleCount_adj (hwf.addEdge hv hw hvw)
        rw [hadj, RemoveEdge_AddEdge hwf hv hw hvw hc]
        by_cases hcount : (SimpleCycleCount (AddEdge g.adj_ v w)).2.count = 1
        · rw [if_neg (not_not.mpr hcount), graph_eta]
          exact skip (fun _ _ => hcount)
        · rw [if_pos hcount]
          refine ⟨_, false, rfl, rfl, rfl, by simp, ?_, ?_⟩
          · constructor
            · intro h; exact absurd h (by simp)
            · intro ha
              exact absurd (ha w (List.mem_cons_self _ _) hvw hc) hcount
          · intro _
            exact ⟨w, List.mem_cons_self _ _, rfl⟩

theorem chordOuter_spec (g : Graph) (hwf : WellFormed g.adj_) (ks : List Vertex)
    (hks : ∀ w ∈ ks, w ∈ keys g.adj_) :
    ∀ vs : List Vertex, (∀ v ∈ vs, v ∈ keys g.adj_) →
      ∃ g1 b, chordOuter ks vs g = some (g1, b) ∧ g1.adj_ = g.adj_ ∧
        g1.properties_ = g.properties_ ∧ (b = true → g1 = g) ∧
        (b = true ↔ ∀ v ∈ vs, ∀ w ∈ ks, v ≠ w → w ∉ nbrs g.adj_ v → ChordPasses g.adj_ v w) ∧
        (b = false → ∃ v ∈ vs, ∃ w ∈ ks, g1.output_ =
          g.output_ ++ "Нарушена субцикличность в вершинах " ++ v ++ "-" ++ w ++ "\n") := by
  intro vs
  induction vs with
  | nil =>
    intro _
    exact ⟨g, true, rfl, rfl, rfl, fun _ => rfl, by simp, by simp⟩
  | cons v rest ih =>
    intro hk
    have hv : v ∈ keys g.adj_ := hk v (List.mem_cons_self _ _)
    obtain ⟨g0, b0, i1, i2, i3, i4, i5, i6⟩ := chordInner_spec g hwf v hv ks hks
    unfold chordOuter
    rw [i1]
    cases b0 with
    | false =>
      simp only
      refine ⟨g0, false, rfl, i2, i3, by simp, ?_, ?_⟩
      · constructor
        · intro h; exact absurd h (by simp)
        · intro ha
          have := i5.mpr (ha v (List.mem_cons_self _ _))
          exact absurd this (by simp)
      · intro _
        obtain ⟨w, hw, ho⟩ := i6 rfl
        exact ⟨v, List.mem_cons_self _ _, w, hw, ho⟩
    | true =>
      simp only
      rw [i4 rfl]
      obtain ⟨g1, b, h1, h2, h3, h4, h5, h6⟩ := ih (fun x hx => hk x (List.mem_cons_of_mem _ hx))
      refine ⟨g1, b, h1, h2, h3, h4, ?_, ?_⟩
      · rw [h5]
        constructor
        · intro hr x hx
          rcases List.mem_cons.mp hx with e | e
          · rw [e]; exact i5.mp rfl
          · exact hr x e
        · intro ha x hx
          exact ha x (List.mem_cons_of_mem _ hx)
      · intro hb
        obtain ⟨x, hx, w, hw, ho⟩ := h6 hb
        exact ⟨x, List.mem_cons_of_mem _ hx, w, hw, ho⟩

/-- What `IsSubcyclic` returns on a well-formed graph. -/
theorem IsSubcyclic_spec (g : Graph) (hwf : WellFormed g.adj_) :
    ∃ g1 b, IsSubcyclic g = some (g1, b) ∧ g1.adj_ = g.adj_ ∧
      g1.properties_ = g.properties_ ∧ (b = true → g1 = g) ∧
      (b = true ↔ IsSubcyclicException g.adj_ = some true ∧ AllChordsPass g.adj_) := by
  obtain ⟨e, he⟩ := IsSubcyclicException_total hwf
  unfold IsSubcyclic
  rw [he]
  cases e with
  | false =>
    simp only
    exact ⟨_, false, rfl, rfl, rfl, by simp, by simp⟩
  | true =>
    simp only
    obtain ⟨g1, b, h1, h2, h3, h4, h5, -⟩ :=
      chordOuter_spec g hwf (keys g.adj_) (fun _ h => h) (keys g.adj_) (fun _ h => h)
    refine ⟨g1, b, h1, h2, h3, h4, ?_⟩
    rw [h5]
    simp only [true_and]
    rfl


/-! ### `SetProperties` on a well-formed graph -/

/-- What `SetProperties` computes on a well-formed graph: it returns, leaves the
map as it was, and the flags are determined by the map alone. -/
theorem SetProperties_spec (g : Graph) (hwf : WellFormed g.adj_) :
    ∃ g1, SetProperties g = some g1 ∧ g1.adj_ = g.adj_ ∧
      g1.properties_.is_acyclic = decide ((SimpleCycleCount g.adj_).2.count ≤ 0) ∧
      (g1.properties_.is_subcyclic = true ↔
        IsSubcyclicException g.adj_ = some true ∧ AllChordsPass g.adj_) ∧
      g1.properties_.is_tree =
        (g1.properties_.is_acyclic && g1.properties_.is_subcyclic) ∧
      g1.properties_.is_numbered_tree =
        (if g1.properties_.is_acyclic then g1.properties_.is_subcyclic
         else if g1.properties_.is_subcyclic then false
         else decide (CountEdges g.adj_ = GetVertexCount g.adj_ - 1)) := by
  have ha1 : (IsAcyclic g).1.adj_ = g.adj_ := by
    unfold IsAcyclic
    simp only
    split <;> exact SimpleCycleCount_adj hwf
  have ha2 := IsAcyclic_snd g
  obtain ⟨g2, s, h1, h2, h3, -, h5⟩ := IsSubcyclic_spec
    { (IsAcyclic g).1 with
      properties_ := { (IsAcyclic g).1.properties_ with is_acyclic := (IsAcyclic g).2 } }
    (by simp only; rw [ha1]; exact hwf)
  simp only at h2 h3 h5
  rw [ha1] at h2 h5
  unfold SetProperties
  simp only
  rw [h1]
  simp only
  refine ⟨_, rfl, h2, ?_, ?_, ?_, ?_⟩
  · simp only [h3, ha2]
  · simp only
    exact h5
  · simp only [IsTree]
  · simp only [IsNumberedTree, h3, h2]
    cases (IsAcyclic g).2 <;> cases s <;> simp

/-- C4. On a well-formed graph `IsSubcyclic` returns, and the adjacency
structure it leaves behind is the one it found (same keys, same neighbour lists
in the same order), whatever it returns. -/
theorem subcyclic_restores_graph (g : Graph) (hwf : WellFormed g.adj_) :
    ∃ g1 b, IsSubcyclic g = some (g1, b) ∧ g1.adj_ = g.adj_ := by
  obtain ⟨g1, b, h1, h2, -⟩ := IsSubcyclic_spec g hwf
  exact ⟨g1, b, h1, h2⟩

theorem subcyclic_restores_graph_witness :
    WellFormed (fresh twoEdges).adj_ ∧
    ∃ g1 b, IsSubcyclic (fresh twoEdges) = some (g1, b) ∧ g1.adj_ = (fresh twoEdges).adj_ :=
  ⟨by decide, subcyclic_restores_graph (fresh twoEdges) (by decide)⟩

/-- C5. On a well-formed graph `IsSubcyclic` returns true exactly when
`IsSubcyclicException` returns true and every ordered pair of distinct vertices
`v`, `w` with `w` not in the list of `v` gives count 1 on the graph plus that one
chord. -/
theorem subcyclic_iff_all_chords_pass (g : Graph) (hwf : WellFormed g.adj_) :
    ∃ g1 b, IsSubcyclic g = some (g1, b) ∧
      (b = true ↔ IsSubcyclicException g.adj_ = some true ∧
        ∀ v ∈ keys g.adj_, ∀ w ∈ keys g.adj_, v ≠ w → w ∉ nbrs g.adj_ v →
          (SimpleCycleCount (AddEdge g.adj_ v w)).2.count = 1) := by
  obtain ⟨g1, b, h1, -, -, -, h5⟩ := IsSubcyclic_spec g hwf
  exact ⟨g1, b, h1, h5⟩

theorem subcyclic_iff_all_chords_pass_witness :
    WellFormed (fresh star).adj_ ∧
    ∃ g1 b, IsSubcyclic (fresh star) = some (g1, b) ∧
      (b = true ↔ IsSubcyclicException (fresh star).adj_ = some true ∧
        ∀ v ∈ keys (fresh star).adj_, ∀ w ∈ keys (fresh star).adj_, v ≠ w →
          w ∉ nbrs (fresh star).adj_ v →
          (SimpleCycleCount (AddEdge (fresh star).adj_ v w)).2.count = 1) :=
  ⟨by decide, subcyclic_iff_all_chords_pass (fresh star) (by decide)⟩

/-- C6. On a simple well-formed graph `IsSubcyclicException` returns false
exactly when the graph has a triangle and a vertex of degree 0 or 1, and then
`IsSubcyclic` returns false at once, writing its one line; the triangle with a
pendant vertex is such a graph, with triangle vertices `A B C` and edge vertices
`D C`. -/
theorem excluded_shape_iff (g : Graph) (hwf : WellFormed g.adj_) (hs : Simple g.adj_) :
    (∃ b, IsSubcyclicException g.adj_ = some b) ∧
    (IsSubcyclicException g.adj_ = some false ↔ HasTriangle g.adj_ ∧ HasLowDegree g.adj_) ∧
    (IsSubcyclicException g.adj_ = some false →
      IsSubcyclic g = some ({ g with output_ := g.output_ ++
        "Нарушена субцикличность. Граф является исключением\n" }, false)) ∧
    exceptionScan trianglePendant trianglePendant ([], []) =
      some (["A", "B", "C"], ["D", "C"]) := by
  refine ⟨IsSubcyclicException_total hwf, IsSubcyclicException_false_iff hwf hs, ?_, by decide⟩
  intro h
  unfold IsSubcyclic
  rw [h]

theorem excluded_shape_iff_witness :
    WellFormed (fresh trianglePendant).adj_ ∧ Simple (fresh trianglePendant).adj_ ∧
    IsSubcyclicException (fresh trianglePendant).adj_ = some false ∧
    HasTriangle (fresh trianglePendant).adj_ ∧ HasLowDegree (fresh trianglePendant).adj_ ∧
    IsSubcyclic (fresh trianglePendant) = some ({ fresh trianglePendant with output_ :=
      "Нарушена субцикличность. Граф является исключением\n" }, false) :=
  have h := excluded_shape_iff (fresh trianglePendant) (by decide) (by decide)
  have hf : IsSubcyclicException (fresh trianglePendant).adj_ = some false := by decide
  ⟨by decide, by decide, hf, (h.2.1.mp hf).1, (h.2.1.mp hf).2, h.2.2.1 hf⟩

/-- C9. On a well-formed graph a second call of `SetProperties` returns the
same four flags as the first. -/
theorem set_properties_twice (g : Graph) (hwf : WellFormed g.adj_) :
    ∃ g1 g2, SetProperties g = some g1 ∧ SetProperties g1 = some g2 ∧
      g2.properties_ = g1.properties_ := by
  obtain ⟨g1, h1, a1, b1, c1, d1, e1⟩ := SetProperties_spec g hwf
  obtain ⟨g2, h2, a2, b2, c2, d2, e2⟩ := SetProperties_spec g1 (by rw [a1]; exact hwf)
  refine ⟨g1, g2, h1, h2, ?_⟩
  rw [a1] at b2 c2 e2
  have hac : g2.properties_.is_acyclic = g1.properties_.is_acyclic := by rw [b1, b2]
  have hsc : g2.properties_.is_subcyclic = g1.properties_.is_subcyclic := by
    have := c2.trans c1.symm
    cases h : g2.properties_.is_subcyclic <;> cases h' : g1.properties_.is_subcyclic <;>
      simp_all
  have ht : g2.properties_.is_tree = g1.properties_.is_tree := by rw [d1, d2, hac, hsc]
  have hn : g2.properties_.is_numbered_tree = g1.properties_.is_numbered_tree := by
    rw [e1, e2, hac, hsc]
  cases hp2 : g2.properties_
  cases hp1 : g1.properties_
  rw [hp1, hp2] at hac hsc ht hn
  simp only at hac hsc ht hn
  rw [hac, hsc, ht, hn]

theorem set_properties_twice_witness :
    WellFormed (fresh diamond).adj_ ∧
    ∃ g1 g2, SetProperties (fresh diamond) = some g1 ∧ SetProperties g1 = some g2 ∧
      g2.properties_ = g1.properties_ :=
  ⟨by decide, set_properties_twice (fresh diamond) (by decide)⟩


/-! ### Walks, paths and the cycles of a tree with one chord -/

theorem IsWalk.mem_head {adj : AdjMap} {p : List Vertex} {u w : Vertex} (h : IsWalk adj p u w) :
    u ∈ p := List.mem_of_mem_head? h.1

theorem IsWalk.mem_last {adj : AdjMap} {p : List Vertex} {u w : Vertex} (h : IsWalk adj p u w) :
    w ∈ p := List.mem_of_mem_getLast? h.2.1

theorem IsWalk.tail {adj : AdjMap} {a y u w : Vertex} {p : List Vertex}
    (h : IsWalk adj (a :: y :: p) u w) : IsWalk adj (y :: p) y w ∧ a = u ∧ Adj adj a y := by
  obtain ⟨h1, h2, h3⟩ := h
  rw [List.chain'_cons] at h3
  refine ⟨⟨rfl, ?_, h3.2⟩, by simpa using h1, h3.1⟩
  rw [List.getLast?_cons_cons] at h2
  exact h2

/-- Every walk contains a path between the same ends. -/
theorem walk_to_path {adj : AdjMap} :
    ∀ (W : List Vertex) (a b : Vertex), IsWalk adj W a b →
      ∃ P, IsWalk adj P a b ∧ P.Nodup ∧ P ⊆ W := by
  intro W
  induction W with
  | nil =>
    intro a b h
    have := h.1
    simp at this
  | cons x W1 ih =>
    intro a b h
    cases W1 with
    | nil => exact ⟨[x], h, by simp, fun _ hx => hx⟩
    | cons y W2 =>
      obtain ⟨ht, hxa, hadj⟩ := h.tail
      subst hxa
      obtain ⟨P1, hP, hnd, hsub⟩ := ih y b ht
      by_cases hx : x ∈ P1
      · obtain ⟨L1, L2, rfl⟩ := List.append_of_mem hx
        refine ⟨x :: L2, ⟨rfl, ?_, ?_⟩, ?_, ?_⟩
        · have := hP.2.1
          rw [List.getLast?_append_of_ne_nil _ (List.cons_ne_nil _ _)] at this
          exact this
        · exact (List.chain'_append.mp hP.2.2).2.1
        · exact (List.nodup_append.mp hnd).2.1
        · intro z hz
          rcases List.mem_cons.mp hz with e | e
          · rw [e]; exact List.mem_cons_self _ _
          · exact List.mem_cons_of_mem _ (hsub (List.mem_append_right _ (List.mem_cons_of_mem _ e)))
      · obtain ⟨P2, rfl⟩ := List.head?_eq_some_iff.mp hP.1
        refine ⟨x :: y :: P2, ⟨rfl, ?_, ?_⟩, List.nodup_cons.mpr ⟨hx, hnd⟩, ?_⟩
        · rw [List.getLast?_cons_cons]; exact hP.2.1
        · exact List.chain'_cons.mpr ⟨hadj, hP.2.2⟩
        · intro z hz
          rcases List.mem_cons.mp hz with e | e
          · rw [e]; exact List.mem_cons_self _ _
          · exact List.mem_cons_of_mem _ (hsub e)

/-- Two walks that meet end to start make a walk. -/
theorem walk_append {adj : AdjMap} {p q : List Vertex} {a t b : Vertex}
    (hp : IsWalk adj p a t) (hq : IsWalk adj q t b) :
    ∃ W, IsWalk adj W a b ∧ W ⊆ p ++ q := by
  obtain ⟨q1, rfl⟩ := List.head?_eq_some_iff.mp hq.1
  obtain ⟨p1, rfl⟩ := List.getLast?_eq_some_iff.mp hp.2.1
  refine ⟨p1 ++ t :: q1, ⟨?_, ?_, ?_⟩, ?_⟩
  · have := hp.1
    cases p1 with
    | nil => simpa using this
    | cons z zs => simpa using this
  · rw [List.getLast?_append_of_ne_nil _ (List.cons_ne_nil _ _)]
    exact hq.2.1
  · have h1 := hp.2.2
    refine List.chain'_append.mpr ⟨(List.chain'_append.mp h1).1, hq.2.2, ?_⟩
    intro x hx y hy
    simp only [List.head?_cons, Option.mem_def, Option.some.injEq] at hy
    subst hy
    exact (List.chain'_append.mp h1).2.2 x hx t (by simp)
  · intro z hz
    rcases List.mem_append.mp hz with e | e
    · exact List.mem_append_left _ (List.mem_append_left _ e)
    · exact List.mem_append_right _ e

theorem IsWalk.reverse {adj : AdjMap} (hsym : ∀ u w, w ∈ nbrs adj u → u ∈ nbrs adj w)
    {p : List Vertex} {a b : Vertex} (h : IsWalk adj p a b) : IsWalk adj p.reverse b a := by
  refine ⟨by rw [List.head?_reverse]; exact h.2.1, by rw [List.getLast?_reverse]; exact h.1, ?_⟩
  rw [List.chain'_reverse]
  exact h.2.2.imp (fun x y hxy => hsym _ _ hxy)

/-- In a graph without a simple cycle, two paths between the same ends are equal. -/
theorem path_unique {adj : AdjMap} (hsym : ∀ u w, w ∈ nbrs adj u → u ∈ nbrs adj w)
    (hno : ∀ c, ¬ IsSimpleCycle adj c) :
    ∀ (p q : List Vertex) (u t : Vertex), IsWalk adj p u t → p.Nodup → IsWalk adj q u t →
      q.Nodup → p = q := by
  intro p
  induction p with
  | nil =>
    intro q u t hp
    have := hp.1
    simp at this
  | cons x p1 ih =>
    intro q u t hp hpn hq hqn
    obtain ⟨q1, rfl⟩ := List.head?_eq_some_iff.mp hq.1
    have hxu : x = u := by simpa using hp.1
    subst hxu
    cases p1 with
    | nil =>
      have hxt : x = t := by simpa using hp.2.1
      subst hxt
      cases q1 with
      | nil => rfl
      | cons b q2 =>
        exfalso
        have h1 : x ∈ b :: q2 := by
          have := hq.tail.1.mem_last
          exact this
        exact (List.nodup_cons.mp hqn).1 h1
    | cons a p2 =>
      cases q1 with
      | nil =>
        exfalso
        have hxt : x = t := by simpa using hq.2.1
        subst hxt
        have h1 : x ∈ a :: p2 := hp.tail.1.mem_last
        exact (List.nodup_cons.mp hpn).1 h1
      | cons b q2 =>
        obtain ⟨hpt, -, hxa⟩ := hp.tail
        obtain ⟨hqt, -, hxb⟩ := hq.tail
        by_cases hab : a = b
        · subst hab
          rw [ih (a :: q2) a t hpt (List.nodup_cons.mp hpn).2 hqt (List.nodup_cons.mp hqn).2]
        · exfalso
          obtain ⟨W, hW, hWsub⟩ := walk_append hpt (hqt.reverse hsym)
          obtain ⟨P, hP, hPn, hPsub⟩ := walk_to_path W a b hW
          have hxP : x ∉ P := by
            intro hx
            rcases List.mem_append.mp (hWsub (hPsub hx)) with e | e
            · exact (List.nodup_cons.mp hpn).1 e
            · exact (List.nodup_cons.mp hqn).1 (List.mem_reverse.mp e)
          obtain ⟨P1, rfl⟩ := List.head?_eq_some_iff.mp hP.1
          have hP1 : P1 ≠ [] := by
            intro e
            subst e
            have := hP.2.1
            simp only [List.getLast?_singleton, Option.some.injEq] at this
            exact hab this
          apply hno (x :: a :: P1)
          refine ⟨?_, List.nodup_cons.mpr ⟨hxP, hPn⟩, List.chain'_cons.mpr ⟨hxa, hP.2.2⟩, ?_⟩
          · cases P1 with
            | nil => exact absurd rfl hP1
            | cons z zs => simp
          · intro l hl h hh
            rw [List.getLast?_cons_cons, hP.2.1] at hl
            simp only [Option.mem_def, Option.some.injEq, List.head?_cons] at hl hh
            subst hl hh
            exact hsym _ _ hxb


theorem sortCycle_perm {p q : List Vertex} (h : p.Perm q) : sortCycle p = sortCycle q := by
  haveI : IsTotal String strLe := ⟨fun a b => le_total a.data b.data⟩
  haveI : IsTrans String strLe := ⟨fun a b c hab hbc => @le_trans (List Char) _ a.data b.data c.data hab hbc⟩
  haveI : IsAntisymm String strLe :=
    ⟨fun a b hab hba => String.ext (@le_antisymm (List Char) _ a.data b.data hab hba)⟩
  unfold sortCycle
  exact List.eq_of_perm_of_sorted
    ((List.perm_insertionSort strLe p).trans (h.trans (List.perm_insertionSort strLe q).symm))
    (List.sorted_insertionSort strLe p) (List.sorted_insertionSort strLe q)

theorem chain_or_split {R S : Vertex → Vertex → Prop} :
    ∀ l : List Vertex, l.Chain' (fun a b => R a b ∨ S a b) →
      l.Chain' R ∨ ∃ L1 x y L2, l = L1 ++ x :: y :: L2 ∧ S x y := by
  intro l
  induction l with
  | nil => intro _; exact Or.inl List.chain'_nil
  | cons a rest ih =>
    intro h
    cases rest with
    | nil => exact Or.inl (List.chain'_singleton a)
    | cons b rest2 =>
      rw [List.chain'_cons] at h
      rcases ih h.2 with h1 | ⟨L1, x, y, L2, e, hS⟩
      · rcases h.1 with hR | hS
        · exact Or.inl (List.chain'_cons.mpr ⟨hR, h1⟩)
        · exact Or.inr ⟨[], a, b, rest2, rfl, hS⟩
      · exact Or.inr ⟨a :: L1, x, y, L2, by rw [e]; rfl, hS⟩

theorem no_chord_inside {c : List Vertex} {x y : Vertex} (hnd : c.Nodup) (hlen : 3 ≤ c.length)
    (hh : c.head? = some y) (hl : c.getLast? = some x) {L1 L2 : List Vertex} {a b : Vertex}
    (hc : c = L1 ++ a :: b :: L2) (hab : (a = x ∧ b = y) ∨ (a = y ∧ b = x)) : False := by
  subst hc
  have hb1 : b ∉ L1 := by
    intro hb
    exact (List.nodup_append.mp hnd).2.2 hb (List.mem_cons_of_mem _ (List.mem_cons_self _ _))
  have ha1 : a ∉ L1 := by
    intro ha
    exact (List.nodup_append.mp hnd).2.2 ha (List.mem_cons_self _ _)
  have hnd2 := (List.nodup_append.mp hnd).2.1
  have hab' : a ≠ b := by
    intro e
    rw [e] at hnd2
    exact (List.nodup_cons.mp hnd2).1 (List.mem_cons_self _ _)
  have hb2 : b ∉ L2 := (List.nodup_cons.mp (List.nodup_cons.mp hnd2).2).1
  have hL1 : ∀ z, (L1 ++ a :: b :: L2).head? = some z → z ≠ a → z ∈ L1 := by
    intro z hz hza
    cases L1 with
    | nil => simp at hz; exact absurd hz.symm hza
    | cons k ks => simp at hz; rw [hz]; exact List.mem_cons_self _ _
  rcases hab with ⟨e1, e2⟩ | ⟨e1, e2⟩
  · subst e1 e2
    exact hb1 (hL1 b hh (Ne.symm hab'))
  · subst e1 e2
    by_cases hn1 : L1 = []
    · subst hn1
      by_cases hn2 : L2 = []
      · subst hn2
        simp at hlen
      · have : (([] : List Vertex) ++ a :: b :: L2).getLast? = L2.getLast? := by
          have e : ([] : List Vertex) ++ a :: b :: L2 = [a, b] ++ L2 := by simp
          rw [e, List.getLast?_append_of_ne_nil _ hn2]
        rw [this] at hl
        exact hb2 (List.mem_of_mem_getLast? hl)
    · cases L1 with
      | nil => exact hn1 rfl
      | cons k ks =>
        simp only [List.cons_append, List.head?_cons, Option.some.injEq] at hh
        exact ha1 (hh ▸ List.mem_cons_self _ _)

/-- A simple cycle of an acyclic graph plus one chord `v w` consists of the
vertices of a path of the graph from `v` to `w`. -/
theorem cycle_through_chord {adj : AdjMap} (hwf : WellFormed adj)
    (hno : ∀ c, ¬ IsSimpleCycle adj c) {v w : Vertex} (hvw : v ≠ w) {c : List Vertex}
    (hc : IsSimpleCycle (AddEdge adj v w) c) :
    ∃ q, q.Perm c ∧ IsWalk adj q v w ∧ q.Nodup := by
  have hadj : ∀ a b, Adj (AddEdge adj v w) a b →
      Adj adj a b ∨ ((a = v ∧ b = w) ∨ (a = w ∧ b = v)) := by
    intro a b h
    exact (mem_nbrs_AddEdge adj hvw a b).mp h
  have step1 : ∃ c1 x y, c1.Perm c ∧ IsSimpleCycle (AddEdge adj v w) c1 ∧
      ((x = v ∧ y = w) ∨ (x = w ∧ y = v)) ∧ c1.head? = some y ∧ c1.getLast? = some x := by
    rcases chain_or_split c (hc.2.2.1.imp hadj) with h | ⟨L1, x, y, L2, e, hS⟩
    · have hne : c ≠ [] := by
        intro e
        have := hc.1
        rw [e] at this
        simp at this
      obtain ⟨z, zs, ez⟩ := List.exists_cons_of_ne_nil hne
      have hlast : c.getLast? = some (c.getLast hne) := List.getLast?_eq_getLast c hne
      have hhead : c.head? = some z := by rw [ez]; rfl
      rcases hadj _ _ (hc.2.2.2 _ hlast z hhead) with h1 | h1
      · exfalso
        apply hno c
        refine ⟨hc.1, hc.2.1, h, ?_⟩
        intro l hl hd hhd
        rw [hlast] at hl
        rw [hhead] at hhd
        simp only [Option.mem_def, Option.some.injEq] at hl hhd
        rw [← hl, ← hhd]
        exact h1
      · exact ⟨c, c.getLast hne, z, List.Perm.refl _, hc, h1, hhead, hlast⟩
    · have e2 : c = (L1 ++ [x]) ++ (y :: L2) := by rw [e]; simp
      rw [e2] at hc
      refine ⟨(y :: L2) ++ (L1 ++ [x]), x, y, ?_, hc.rotate, hS, rfl, ?_⟩
      · rw [e2]; exact List.perm_append_comm
      · rw [List.getLast?_append_of_ne_nil _ (by simp)]
        simp
  obtain ⟨c1, x, y, hperm, hc1, hS, hh, hl⟩ := step1
  have hchain : c1.Chain' (Adj adj) := by
    rcases chain_or_split c1 (hc1.2.2.1.imp hadj) with h | ⟨L1, a, b, L2, e, hS2⟩
    · exact h
    · exfalso
      apply no_chord_inside hc1.2.1 hc1.1 hh hl e
      rcases hS with ⟨e1, e2⟩ | ⟨e1, e2⟩ <;> rcases hS2 with ⟨e3, e4⟩ | ⟨e3, e4⟩
      · exact Or.inl ⟨e3.trans e1.symm, e4.trans e2.symm⟩
      · exact Or.inr ⟨e3.trans e2.symm, e4.trans e1.symm⟩
      · exact Or.inr ⟨e3.trans e2.symm, e4.trans e1.symm⟩
      · exact Or.inl ⟨e3.trans e1.symm, e4.trans e2.symm⟩
  have hwalk : IsWalk adj c1 y x := ⟨hh, hl, hchain⟩
  rcases hS with ⟨e1, e2⟩ | ⟨e1, e2⟩
  · subst e1 e2
    exact ⟨c1.reverse, (List.reverse_perm c1).trans hperm,
      hwalk.reverse (fun _ _ h => hwf.symm h), List.nodup_reverse.mpr hc1.2.1⟩
  · subst e1 e2
    exact ⟨c1, hperm, hwalk, hc1.2.1⟩

/-- In a connected graph, a chord between two non-adjacent vertices closes a
simple cycle. -/
theorem chord_closes_cycle {adj : AdjMap} (hconn : Connected adj) {v w : Vertex}
    (hv : v ∈ keys adj) (hw : w ∈ keys adj) (hvw : v ≠ w) (hn : w ∉ nbrs adj v) :
    ∃ c, IsSimpleCycle (AddEdge adj v w) c := by
  obtain ⟨W, hW⟩ := hconn v hv w hw
  obtain ⟨P, hP, hPn, -⟩ := walk_to_path W v w hW
  obtain ⟨P1, rfl⟩ := List.head?_eq_some_iff.mp hP.1
  cases P1 with
  | nil =>
    have := hP.2.1
    simp only [List.getLast?_singleton, Option.some.injEq] at this
    exact absurd this hvw
  | cons a P2 =>
    cases P2 with
    | nil =>
      exfalso
      have h1 := hP.2.1
      have h2 := hP.2.2
      simp only [List.getLast?_cons_cons, List.getLast?_singleton, Option.some.injEq] at h1
      rw [List.chain'_cons] at h2
      rw [h1] at h2
      exact hn h2.1
    | cons b P3 =>
      refine ⟨v :: a :: b :: P3, by simp, hPn, ?_, ?_⟩
      · exact hP.2.2.imp (fun x y h => (mem_nbrs_AddEdge adj hvw x y).mpr (Or.inl h))
      · intro l hl h hh
        rw [hP.2.1] at hl
        simp only [Option.mem_def, Option.some.injEq, List.head?_cons] at hl hh
        subst hl hh
        exact (mem_nbrs_AddEdge adj hvw _ _).mpr (Or.inr (Or.inr ⟨rfl, rfl⟩))

/-- Adding a chord between two non-adjacent vertices of a tree gives count 1. -/
theorem chord_count_one {adj : AdjMap} (hwf : WellFormed adj) (hconn : Connected adj)
    (hno : ∀ c, ¬ IsSimpleCycle adj c) {v w : Vertex}
    (hv : v ∈ keys adj) (hw : w ∈ keys adj) (hvw : v ≠ w) (hn : w ∉ nbrs adj v) :
    (SimpleCycleCount (AddEdge adj v w)).2.count = 1 := by
  have hwf1 := hwf.addEdge hv hw hvw
  obtain ⟨c0, hc0⟩ := chord_closes_cycle hconn hv hw hvw hn
  have hpos := count_pos_of_cycle hwf1 hc0
  obtain ⟨q0, -, hq0, hq0n⟩ := cycle_through_chord hwf hno hvw hc0
  obtain ⟨-, -, hnd, h4, -⟩ := cycleScan_spec (AddEdge adj v w) (keys (AddEdge adj v w))
    (AddEdge adj v w) [] rfl
  have hall : (cycleScan (keys (AddEdge adj v w)) (AddEdge adj v w, [])).2 ⊆
      [Join (sortCycle q0)] := by
    intro s hs
    rcases h4 s hs with h | ⟨p, hp, -, hj⟩
    · exact absurd h (List.not_mem_nil _)
    · obtain ⟨q, hqp, hq, hqn⟩ := cycle_through_chord hwf hno hvw hp
      have : q = q0 := path_unique (fun _ _ h => hwf.symm h) hno q q0 v w hq hqn hq0 hq0n
      rw [hj, ← sortCycle_perm hqp, this]
      exact List.mem_singleton_self _
  have hle := (List.Nodup.subperm (hnd List.nodup_nil) hall).length_le
  rw [SimpleCycleCount_count] at hpos ⊢
  simp only [List.length_singleton] at hle
  omega


/-! ### Trees -/

theorem triangle_is_cycle {adj : AdjMap} (h : HasTriangle adj)
    (hsym : ∀ u w, w ∈ nbrs adj u → u ∈ nbrs adj w) : ∃ c, IsSimpleCycle adj c := by
  obtain ⟨a, b, c, hab, hbc, hac, h1, h2, h3⟩ := h
  refine ⟨[a, b, c], by simp, by simp [hab, hbc, hac], ?_, ?_⟩
  · simp [h1, h2]
  · intro l hl h hh
    simp only [List.getLast?_cons_cons, List.getLast?_singleton, Option.mem_def,
      Option.some.injEq, List.head?_cons] at hl hh
    subst hl hh
    exact hsym _ _ h3

/-- C1. A simple, well-formed, connected graph without a simple cycle gets all
four flags true from `SetProperties`: it is not an excluded shape, and every chord
between distinct non-adjacent vertices gives a cycle count of exactly 1. -/
theorem tree_is_recognised (g : Graph) (hwf : WellFormed g.adj_) (hs : Simple g.adj_)
    (hconn : Connected g.adj_) (hno : ∀ c, ¬ IsSimpleCycle g.adj_ c) :
    ∃ g1, SetProperties g = some g1 ∧
      g1.properties_ =
        { is_tree := true, is_numbered_tree := true, is_acyclic := true, is_subcyclic := true } ∧
      IsSubcyclicException g.adj_ = some true ∧
      ∀ v ∈ keys g.adj_, ∀ w ∈ keys g.adj_, v ≠ w → w ∉ nbrs g.adj_ v →
        (SimpleCycleCount (AddEdge g.adj_ v w)).2.count = 1 := by
  obtain ⟨g1, h1, -, hac, hsc, ht, hn⟩ := SetProperties_spec g hwf
  have hchords : AllChordsPass g.adj_ :=
    fun v hv w hw hvw hnadj => chord_count_one hwf hconn hno hv hw hvw hnadj
  have hexc : IsSubcyclicException g.adj_ = some true := by
    obtain ⟨b, hb⟩ := IsSubcyclicException_total hwf
    cases b with
    | true => exact hb
    | false =>
      exfalso
      obtain ⟨c, hc⟩ := triangle_is_cycle ((IsSubcyclicException_false_iff hwf hs).mp hb).1
        (fun _ _ h => hwf.symm h)
      exact hno c hc
  have hac1 : g1.properties_.is_acyclic = true := by
    rw [hac, SimpleCycleCount_count, count_zero_of_acyclic hno]
    rfl
  have hsc1 : g1.properties_.is_subcyclic = true := hsc.mpr ⟨hexc, hchords⟩
  refine ⟨g1, h1, ?_, hexc, hchords⟩
  rw [hac1, hsc1] at ht hn
  simp only [Bool.and_self, if_true] at ht hn
  cases hp : g1.properties_
  rw [hp] at hac1 hsc1 ht hn
  simp only at hac1 hsc1 ht hn
  rw [hac1, hsc1, ht, hn]

theorem tree_is_recognised_witness :
    (WellFormed (fresh singleEdge).adj_ ∧ Simple (fresh singleEdge).adj_ ∧
      Connected (fresh singleEdge).adj_ ∧ (∀ c, ¬ IsSimpleCycle (fresh singleEdge).adj_ c) ∧
      ∃ g1, SetProperties (fresh singleEdge) = some g1 ∧ g1.properties_ =
        { is_tree := true, is_numbered_tree := true, is_acyclic := true,
          is_subcyclic := true }) ∧
    (WellFormed (fresh star).adj_ ∧ Simple (fresh star).adj_ ∧
      Connected (fresh star).adj_ ∧ (∀ c, ¬ IsSimpleCycle (fresh star).adj_ c) ∧
      ∃ g1, SetProperties (fresh star) = some g1 ∧ g1.properties_ =
        { is_tree := true, is_numbered_tree := true, is_acyclic := true,
          is_subcyclic := true }) :=
  have acyc : ∀ adj : AdjMap, WellFormed adj → (SimpleCycleCount adj).2.count = 0 →
      ∀ c, ¬ IsSimpleCycle adj c := fun adj hwf h0 c hc => by
    have := count_pos_of_cycle hwf hc
    omega
  have conn1 : Connected (fresh singleEdge).adj_ := fun u hu w hw => by
    have h : ∀ u ∈ keys (fresh singleEdge).adj_, ∀ w ∈ keys (fresh singleEdge).adj_,
        ∃ p ∈ [[u], [u, w]], IsWalk (fresh singleEdge).adj_ p u w := by decide
    obtain ⟨p, -, hp⟩ := h u hu w hw
    exact ⟨p, hp⟩
  have conn2 : Connected (fresh star).adj_ := fun u hu w hw => by
    have h : ∀ u ∈ keys (fresh star).adj_, ∀ w ∈ keys (fresh star).adj_,
        ∃ p ∈ [[u], [u, w], [u, "X", w]], IsWalk (fresh star).adj_ p u w := by decide
    obtain ⟨p, -, hp⟩ := h u hu w hw
    exact ⟨p, hp⟩
  have no1 := acyc (fresh singleEdge).adj_ (by decide) (by decide)
  have no2 := acyc (fresh star).adj_ (by decide) (by decide)
  have r1 := tree_is_recognised (fresh singleEdge) (by decide) (by decide) conn1 no1
  have r2 := tree_is_recognised (fresh star) (by decide) (by decide) conn2 no2
  ⟨⟨by decide, by decide, conn1, no1, r1.elim fun g1 h => ⟨g1, h.1, h.2.1⟩⟩,
   ⟨by decide, by decide, conn2, no2, r2.elim fun g1 h => ⟨g1, h.1, h.2.1⟩⟩⟩

/-! ### What `SimpleCycleCount` misses -/

/-- C10. On the two triangles `A B C` and `B C D` sharing the edge `B C`,
`SimpleCycleCount` returns 2 (the signatures `A-B-C-D-A` and `B-C-D-B`), while the
graph has three simple cycles with pairwise different vertex sets: the traversal
from each start vertex expands every vertex once and never finds `A B C`. -/
theorem simple_cycle_count_misses_a_cycle :
    WellFormed diamond ∧ Simple diamond ∧
    (SimpleCycleCount diamond).2.count = 2 ∧
    (cycleScan (keys diamond) (diamond, [])).2 = ["A-B-C-D-A", "B-C-D-B"] ∧
    IsSimpleCycle diamond ["A", "B", "C"] ∧ IsSimpleCycle diamond ["B", "C", "D"] ∧
    IsSimpleCycle diamond ["A", "B", "D", "C"] ∧
    ¬ List.Perm ["A", "B", "C"] ["B", "C", "D"] ∧
    ¬ List.Perm ["A", "B", "C"] ["A", "B", "D", "C"] ∧
    ¬ List.Perm ["B", "C", "D"] ["A", "B", "D", "C"] := by
  refine ⟨by decide, by decide, by decide, by decide, by decide, by decide, by decide,
    ?_, ?_, ?_⟩
  · intro h
    have := h.mem_iff (a := "A")
    simp at this
  · intro h
    have := h.length_eq
    simp at this
  · intro h
    have := h.length_eq
    simp at this

/-! ### `RemoveEdge` and the symmetry of the adjacency lists -/

theorem nbrs_eraseValue (adj : AdjMap) (v w x : Vertex) :
    nbrs (eraseValue adj v w) x =
      if x = v then (nbrs adj v).filter (fun y => decide (y ≠ w)) else nbrs adj x := by
  unfold nbrs
  rw [find?_eraseValue]
  by_cases h : x = v <;> simp [h, nbrs]

theorem filter_ne_idem (l : List Vertex) (w : Vertex) :
    (l.filter (fun y => decide (y ≠ w))).filter (fun y => decide (y ≠ w)) =
      l.filter (fun y => decide (y ≠ w)) := by
  rw [List.filter_filter]
  congr 1
  funext y
  simp

theorem nbrs_RemoveEdge (adj : AdjMap) (u w x : Vertex) :
    nbrs (RemoveEdge adj u w) x =
      if x = u then (nbrs adj u).filter (fun y => decide (y ≠ w))
      else if x = w then (nbrs adj w).filter (fun y => decide (y ≠ u))
      else nbrs adj x := by
  unfold RemoveEdge
  rw [nbrs_eraseValue, nbrs_eraseValue, nbrs_eraseValue]
  by_cases h1 : x = u
  · subst h1
    by_cases h2 : x = w
    · subst h2
      simp only [if_true]
      exact filter_ne_idem _ _
    · have h2' : ¬ w = x := fun e => h2 e.symm
      simp only [h2, if_false, if_true]
  · by_cases h2 : x = w
    · subst h2
      have h1' : ¬ x = u := h1
      simp only [h1', if_false, if_true]
    · simp only [h1, h2, if_false]

theorem count_filter_ne (l : List Vertex) (w y : Vertex) :
    (l.filter (fun z => decide (z ≠ w))).count y = if y = w then 0 else l.count y := by
  induction l with
  | nil => simp
  | cons a rest ih =>
    by_cases ha : a = w
    · subst ha
      by_cases hy : y = a
      · subst hy
        simp [List.filter_cons] at ih ⊢
        exact ih
      · have hy' : ¬ a = y := fun e => hy e.symm
        simp only [List.filter_cons, ne_eq, not_true_eq_false, decide_False, Bool.false_eq_true,
          if_false, ih, hy, List.count_cons, beq_iff_eq, hy']
        simp
    · by_cases hy : y = w
      · subst hy
        have hay : ¬ a = y := ha
        simp only [List.filter_cons, ne_eq, ha, not_false_eq_true, decide_True, if_true,
          List.count_cons, ih, beq_iff_eq, hay, if_false]
      · simp only [List.filter_cons, ne_eq, ha, not_false_eq_true, decide_True, if_true,
          List.count_cons, ih, hy, if_false]

/-- C11 (as stated, refuted). On the graph with the edge `A B` entered twice,
`B` occurs twice in the list of `A`; after `RemoveEdge` it does not occur once,
as removing the first occurrence would leave it, but not at all. -/
theorem remove_edge_first_occurrence_refuted :
    (nbrs doubleEdge "A").count "B" = 2 ∧ (nbrs doubleEdge "B").count "A" = 2 ∧
    nbrs (RemoveEdge doubleEdge "A" "B") "A" ≠ (nbrs doubleEdge "A").erase "B" ∧
    nbrs (RemoveEdge doubleEdge "A" "B") "B" ≠ (nbrs doubleEdge "B").erase "A" ∧
    (nbrs (RemoveEdge doubleEdge "A" "B") "A").count "B" ≠ 2 - 1 ∧
    (nbrs (RemoveEdge doubleEdge "A" "B") "B").count "A" ≠ 2 - 1 := by
  decide

/-- C11 (amended). `RemoveEdge u w` removes every occurrence of `w` from the list
of `u` and every occurrence of `u` from the list of `w`, keeps the other entries
of these two lists in their order, and leaves every other list alone; whatever
the multiplicity of the edge was, multiplicity 0 remains in both lists. -/
theorem remove_edge_removes_all (adj : AdjMap) (u w : Vertex) :
    (∀ x, nbrs (RemoveEdge adj u w) x =
      if x = u then (nbrs adj u).filter (fun y => decide (y ≠ w))
      else if x = w then (nbrs adj w).filter (fun y => decide (y ≠ u))
      else nbrs adj x) ∧
    (nbrs (RemoveEdge adj u w) u).count w = 0 ∧
    (nbrs (RemoveEdge adj u w) w).count u = 0 := by
  refine ⟨nbrs_RemoveEdge adj u w, ?_, ?_⟩
  · rw [nbrs_RemoveEdge, if_pos rfl, count_filter_ne, if_pos rfl]
  · rw [nbrs_RemoveEdge]
    by_cases h : w = u
    · subst h
      rw [if_pos rfl, count_filter_ne, if_pos rfl]
    · rw [if_neg h, if_pos rfl, count_filter_ne, if_pos rfl]

theorem count_nbrs_AddEdge (adj : AdjMap) (v w x y : Vertex) :
    (nbrs (AddEdge adj v w) x).count y =
      (nbrs adj x).count y + (if x = v ∧ y = w then 1 else 0) +
        (if x = w ∧ y = v then 1 else 0) := by
  unfold AddEdge
  rw [nbrs_pushBack]
  by_cases h1 : x = w
  · subst h1
    rw [if_pos rfl, nbrs_pushBack, List.count_append, List.count_singleton]
    by_cases h2 : x = v
    · subst h2
      rw [if_pos rfl, List.count_append, List.count_singleton]
      by_cases h3 : y = x
      · subst h3; simp
      · have h3' : ¬ x = y := fun e => h3 e.symm
        simp [h3, h3']
    · rw [if_neg h2]
      by_cases h3 : y = v
      · subst h3; simp [h2]
      · have h3' : ¬ v = y := fun e => h3 e.symm
        simp [h2, h3, h3']
  · rw [if_neg h1, nbrs_pushBack]
    by_cases h2 : x = v
    · subst h2
      rw [if_pos rfl, List.count_append, List.count_singleton]
      by_cases h3 : y = w
      · subst h3; simp [h1]
      · have h3' : ¬ w = y := fun e => h3 e.symm
        simp [h1, h3, h3']
    · rw [if_neg h2]
      simp [h1, h2]

theorem CountSymmetric.of_addEdge {adj : AdjMap} (h : CountSymmetric adj) (v w : Vertex) :
    CountSymmetric (AddEdge adj v w) := by
  intro x y
  rw [count_nbrs_AddEdge, count_nbrs_AddEdge, h x y]
  have e1 : (x = v ∧ y = w) ↔ (y = w ∧ x = v) := and_comm
  have e2 : (x = w ∧ y = v) ↔ (y = v ∧ x = w) := and_comm
  simp only [e1, e2]
  omega

theorem count_nbrs_RemoveEdge (adj : AdjMap) (u w x y : Vertex) :
    (nbrs (RemoveEdge adj u w) x).count y =
      if (x = u ∧ y = w) ∨ (x = w ∧ y = u) then 0 else (nbrs adj x).count y := by
  rw [nbrs_RemoveEdge]
  by_cases h1 : x = u
  · subst h1
    rw [if_pos rfl, count_filter_ne]
    by_cases h2 : y = w
    · simp [h2]
    · have : ¬ ((x = x ∧ y = w) ∨ (x = w ∧ y = x)) := by
        rintro (⟨-, e⟩ | ⟨e1, e2⟩)
        · exact h2 e
        · exact h2 (e2.trans e1)
      rw [if_neg h2, if_neg this]
  · rw [if_neg h1]
    by_cases h2 : x = w
    · subst h2
      rw [if_pos rfl, count_filter_ne]
      by_cases h3 : y = u
      · simp [h3]
      · have : ¬ ((x = u ∧ y = x) ∨ (x = x ∧ y = u)) := by
          rintro (⟨e, -⟩ | ⟨-, e⟩)
          · exact h1 e
          · exact h3 e
        rw [if_neg h3, if_neg this]
    · have : ¬ ((x = u ∧ y = w) ∨ (x = w ∧ y = u)) := by
        rintro (⟨e, -⟩ | ⟨e, -⟩)
        · exact h1 e
        · exact h2 e
      rw [if_neg h2, if_neg this]

theorem CountSymmetric.of_removeEdge {adj : AdjMap} (h : CountSymmetric adj) (u w : Vertex) :
    CountSymmetric (RemoveEdge adj u w) := by
  intro x y
  rw [count_nbrs_RemoveEdge, count_nbrs_RemoveEdge, h x y]
  have e : ((x = u ∧ y = w) ∨ (x = w ∧ y = u)) ↔ ((y = u ∧ x = w) ∨ (y = w ∧ x = u)) := by
    constructor
    · rintro (⟨a, b⟩ | ⟨a, b⟩)
      · exact Or.inr ⟨b, a⟩
      · exact Or.inl ⟨b, a⟩
    · rintro (⟨a, b⟩ | ⟨a, b⟩)
      · exact Or.inr ⟨b, a⟩
      · exact Or.inl ⟨b, a⟩
  simp only [e]

theorem LoadGraphFromFile_single (u : Vertex) (rest : List Line) (adj : AdjMap) :
    LoadGraphFromFile (Line.single u :: rest) adj = LoadGraphFromFile rest (touch adj u) := by
  unfold touch
  rw [LoadGraphFromFile]
  cases find? adj u <;> rfl

theorem applyOp_declare (adj : AdjMap) (u : Vertex) : applyOp adj (Op.declare u) = touch adj u := by
  show LoadGraphFromFile [Line.single u] adj = touch adj u
  rw [LoadGraphFromFile_single]
  rfl

theorem CountSymmetric.of_touch {adj : AdjMap} (h : CountSymmetric adj) (u : Vertex) :
    CountSymmetric (touch adj u) := by
  intro x y
  rw [nbrs_touch]
  exact h x y

theorem CountSymmetric.of_empty : CountSymmetric [] := by
  intro u w
  rfl

theorem CountSymmetric.of_applyOp {adj : AdjMap} (h : CountSymmetric adj) (op : Op) :
    CountSymmetric (applyOp adj op) := by
  cases op with
  | add_edge u w => exact h.of_addEdge u w
  | remove_edge u w => exact h.of_removeEdge u w
  | declare u => rw [applyOp_declare]; exact h.of_touch u

theorem CountSymmetric.of_foldl {adj : AdjMap} (h : CountSymmetric adj) (ops : List Op) :
    CountSymmetric (ops.foldl applyOp adj) := by
  induction ops generalizing adj with
  | nil => exact h
  | cons op rest ih => exact ih (h.of_applyOp op)

/-- C14. In the empty graph and after any sequence of `add_edge`, `remove_edge`
and isolated-vertex declarations, `w` occurs in the adjacency list of `u` exactly
as often as `u` occurs in the adjacency list of `w`. -/
theorem adjacency_symmetry_invariant (ops : List Op) (u w : Vertex) :
    (nbrs (ops.foldl applyOp []) u).count w = (nbrs (ops.foldl applyOp []) w).count u :=
  CountSymmetric.of_empty.of_foldl ops u w

/-- C13. The triangle `A B C` with the isolated vertex `D` is a well-formed simple
graph with a simple cycle and with 3 edges on 4 vertices; `SetProperties` gives it
`is_acyclic = false`, `is_subcyclic = false`, `is_numbered_tree = true` and
`is_tree = false`. -/
theorem cyclic_numbered_tree_exists :
    ∃ adj : AdjMap, WellFormed adj ∧ Simple adj ∧ IsSimpleCycle adj ["A", "B", "C"] ∧
      CountEdges adj = GetVertexCount adj - 1 ∧
      ∃ g1, SetProperties (fresh adj) = some g1 ∧
        g1.properties_ = { is_tree := false, is_numbered_tree := true, is_acyclic := false,
                           is_subcyclic := false } :=
  ⟨triangleIsolated, by decide, by decide, by decide, by decide, by decide⟩

/-! ### Graphs built by `LoadGraphFromFile` -/

theorem keys_pushBack (adj : AdjMap) (v w : Vertex) :
    keys (pushBack adj v w) = if v ∈ keys adj then keys adj else keys adj ++ [v] := by
  by_cases h : v ∈ keys adj
  · rw [if_pos h, keys_pushBack_of_mem w h]
  · rw [if_neg h]
    induction adj with
    | nil => simp [pushBack, keys]
    | cons kv rest ih =>
      obtain ⟨k, ns⟩ := kv
      have hk : ¬ k = v := by
        intro e
        apply h
        simp [keys, e]
      have hr : v ∉ keys rest := by
        intro e
        apply h
        simp only [keys, List.map_cons, List.mem_cons]
        exact Or.inr e
      have := ih hr
      simp only [keys] at this
      simp [pushBack, keys, hk, this]

theorem keys_touch (adj : AdjMap) (v : Vertex) :
    keys (touch adj v) = if v ∈ keys adj then keys adj else keys adj ++ [v] := by
  by_cases h : v ∈ keys adj
  · rw [if_pos h, touch_of_mem h]
  · rw [if_neg h]
    unfold touch
    rw [(find?_eq_none_iff adj v).mpr h]
    simp [keys]

theorem lengthSum_pushBack (adj : AdjMap) (v w : Vertex) :
    lengthSum (pushBack adj v w) = lengthSum adj + 1 := by
  induction adj with
  | nil => simp [pushBack, lengthSum]
  | cons kv rest ih =>
    obtain ⟨k, ns⟩ := kv
    by_cases hk : k = v
    · simp only [pushBack, hk, if_true, lengthSum, List.map_cons, List.sum_cons,
        List.length_append, List.length_singleton]
      omega
    · simp only [lengthSum] at ih
      simp only [pushBack, hk, if_false, lengthSum, List.map_cons, List.sum_cons, ih]
      omega

theorem lengthSum_touch (adj : AdjMap) (v : Vertex) : lengthSum (touch adj v) = lengthSum adj := by
  unfold touch
  cases find? adj v with
  | some ns => rfl
  | none => simp [lengthSum]

theorem lengthSum_AddEdge (adj : AdjMap) (v w : Vertex) :
    lengthSum (AddEdge adj v w) = lengthSum adj + 2 := by
  unfold AddEdge
  rw [lengthSum_pushBack, lengthSum_pushBack]

theorem mem_keys_AddEdge (adj : AdjMap) (v w x : Vertex) :
    x ∈ keys (AddEdge adj v w) ↔ x ∈ keys adj ∨ x = v ∨ x = w := by
  unfold AddEdge
  rw [keys_pushBack, keys_pushBack]
  by_cases h1 : v ∈ keys adj
  · rw [if_pos h1]
    by_cases h2 : w ∈ keys adj
    · rw [if_pos h2]
      constructor
      · exact Or.inl
      · rintro (h | h | h)
        · exact h
        · rw [h]; exact h1
        · rw [h]; exact h2
    · rw [if_neg h2, List.mem_append, List.mem_singleton]
      constructor
      · rintro (h | h)
        · exact Or.inl h
        · exact Or.inr (Or.inr h)
      · rintro (h | h | h)
        · exact Or.inl h
        · rw [h]; exact Or.inl h1
        · exact Or.inr h
  · rw [if_neg h1]
    by_cases h2 : w ∈ keys adj ++ [v]
    · rw [if_pos h2, List.mem_append, List.mem_singleton]
      constructor
      · rintro (h | h)
        · exact Or.inl h
        · exact Or.inr (Or.inl h)
      · rintro (h | h | h)
        · exact Or.inl h
        · exact Or.inr h
        · rw [h]; exact List.mem_append.mp h2 |>.imp id List.mem_singleton.mp
    · rw [if_neg h2, List.mem_append, List.mem_append, List.mem_singleton, List.mem_singleton]
      constructor
      · rintro ((h | h) | h)
        · exact Or.inl h
        · exact Or.inr (Or.inl h)
        · exact Or.inr (Or.inr h)
      · rintro (h | h | h)
        · exact Or.inl (Or.inl h)
        · exact Or.inl (Or.inr h)
        · exact Or.inr h

theorem nodup_keys_pushBack {adj : AdjMap} (h : (keys adj).Nodup) (v w : Vertex) :
    (keys (pushBack adj v w)).Nodup := by
  rw [keys_pushBack]
  split
  · exact h
  · rename_i hv
    rw [List.nodup_append]
    exact ⟨h, by simp, by
      intro a ha hb
      rw [List.mem_singleton] at hb
      exact hv (hb ▸ ha)⟩

theorem nodup_keys_AddEdge {adj : AdjMap} (h : (keys adj).Nodup) (v w : Vertex) :
    (keys (AddEdge adj v w)).Nodup :=
  nodup_keys_pushBack (nodup_keys_pushBack h v w) w v

theorem nodup_keys_touch {adj : AdjMap} (h : (keys adj).Nodup) (v : Vertex) :
    (keys (touch adj v)).Nodup := by
  rw [keys_touch]
  split
  · exact h
  · rename_i hv
    rw [List.nodup_append]
    exact ⟨h, by simp, by
      intro a ha hb
      rw [List.mem_singleton] at hb
      exact hv (hb ▸ ha)⟩

theorem mem_keys_touch (adj : AdjMap) (v x : Vertex) :
    x ∈ keys (touch adj v) ↔ x ∈ keys adj ∨ x = v := by
  rw [keys_touch]
  by_cases h : v ∈ keys adj
  · rw [if_pos h]
    constructor
    · exact Or.inl
    · rintro (h1 | h1)
      · exact h1
      · rw [h1]; exact h
  · rw [if_neg h, List.mem_append, List.mem_singleton]

/-- A property of the empty map that `AddEdge` and the declaration of a vertex
preserve holds of every map that `LoadGraphFromFile` builds. -/
theorem LoadGraphFromFile_induct (P : AdjMap → Prop)
    (hadd : ∀ a u v, P a → P (AddEdge a u v)) (htouch : ∀ a u, P a → P (touch a u)) :
    ∀ (lines : List Line) (adj : AdjMap), P adj → P (LoadGraphFromFile lines adj) := by
  intro lines
  induction lines with
  | nil => intro adj h; exact h
  | cons l rest ih =>
    intro adj h
    cases l with
    | blank => exact ih adj h
    | single u => rw [LoadGraphFromFile_single]; exact ih _ (htouch adj u h)
    | pair u v => exact ih _ (hadd adj u v h)

theorem LoadGraphFromFile_counts :
    ∀ (lines : List Line) (adj : AdjMap),
      lengthSum (LoadGraphFromFile lines adj) = lengthSum adj + 2 * edgeLines lines ∧
      ∀ x, x ∈ keys (LoadGraphFromFile lines adj) ↔ x ∈ keys adj ∨ x ∈ labels lines := by
  intro lines
  induction lines with
  | nil => intro adj; simp [LoadGraphFromFile, edgeLines, labels]
  | cons l rest ih =>
    intro adj
    cases l with
    | blank =>
      obtain ⟨h1, h2⟩ := ih adj
      exact ⟨h1, h2⟩
    | single u =>
      rw [LoadGraphFromFile_single]
      obtain ⟨h1, h2⟩ := ih (touch adj u)
      refine ⟨by rw [h1, lengthSum_touch]; rfl, ?_⟩
      intro x
      rw [h2, mem_keys_touch]
      simp only [labels, List.mem_cons]
      tauto
    | pair u v =>
      obtain ⟨h1, h2⟩ := ih (AddEdge adj u v)
      refine ⟨?_, ?_⟩
      · show lengthSum (LoadGraphFromFile rest (AddEdge adj u v)) = _
        rw [h1, lengthSum_AddEdge]
        simp only [edgeLines]
        omega
      · intro x
        show x ∈ keys (LoadGraphFromFile rest (AddEdge adj u v)) ↔ _
        rw [h2, mem_keys_AddEdge]
        simp only [labels, List.mem_cons]
        tauto

theorem LoadGraphFromFile_nodup (lines : List Line) :
    (keys (LoadGraphFromFile lines [])).Nodup :=
  LoadGraphFromFile_induct (fun a => (keys a).Nodup)
    (fun _ u v h => nodup_keys_AddEdge h u v) (fun _ u h => nodup_keys_touch h u)
    lines [] List.nodup_nil

/-- C15. After `n` calls of `AddEdge` (any labels, repeated edges and loops
included) interleaved with declarations of isolated vertices, starting from the
empty map, `CountEdges` returns `n` and `GetVertexCount` returns the number of
distinct labels mentioned. -/
theorem counts_of_built_graph (lines : List Line) :
    CountEdges (LoadGraphFromFile lines []) = (edgeLines lines : Int) ∧
    GetVertexCount (LoadGraphFromFile lines []) = ((labels lines).dedup.length : Int) := by
  obtain ⟨h1, h2⟩ := LoadGraphFromFile_counts lines []
  constructor
  · rw [CountEdges_eq]
    have : (List.map (fun kv => kv.2.length) (LoadGraphFromFile lines [])).sum =
        2 * edgeLines lines := by
      have := h1
      simp only [lengthSum, List.map_nil, List.sum_nil, Nat.zero_add] at this
      exact this
    rw [this]
    push_cast
    omega
  · rw [GetVertexCount_eq]
    have hp : (keys (LoadGraphFromFile lines [])).Perm (labels lines).dedup := by
      rw [List.perm_ext_iff_of_nodup (LoadGraphFromFile_nodup lines) (List.nodup_dedup _)]
      intro x
      rw [h2, List.mem_dedup]
      simp [keys]
    rw [hp.length_eq]

theorem mem_nbrs_AddEdge_iff (adj : AdjMap) (v w x y : Vertex) :
    y ∈ nbrs (AddEdge adj v w) x ↔
      y ∈ nbrs adj x ∨ (x = v ∧ y = w) ∨ (x = w ∧ y = v) := by
  rw [← List.count_pos_iff, count_nbrs_AddEdge, ← List.count_pos_iff]
  by_cases h1 : x = v ∧ y = w <;> by_cases h2 : x = w ∧ y = v <;> simp [h1, h2]

theorem mem_nbrs_symm_of_count {adj : AdjMap} (h : CountSymmetric adj) {u w : Vertex}
    (hw : w ∈ nbrs adj u) : u ∈ nbrs adj w := by
  rw [← List.count_pos_iff] at hw ⊢
  rw [← h u w]
  exact hw

/-- Every map that `LoadGraphFromFile` builds from the empty map is well-formed. -/
theorem LoadGraphFromFile_wellFormed (lines : List Line) :
    WellFormed (LoadGraphFromFile lines []) := by
  have hclosed : ∀ u w, w ∈ nbrs (LoadGraphFromFile lines []) u →
      w ∈ keys (LoadGraphFromFile lines []) := by
    apply LoadGraphFromFile_induct (fun a => ∀ u w, w ∈ nbrs a u → w ∈ keys a) _ _ lines []
    · intro u w h
      exact absurd h (List.not_mem_nil _)
    · intro a u v h x y hy
      rw [mem_keys_AddEdge]
      rcases (mem_nbrs_AddEdge_iff a u v x y).mp hy with h1 | ⟨-, h2⟩ | ⟨-, h2⟩
      · exact Or.inl (h x y h1)
      · exact Or.inr (Or.inr h2)
      · exact Or.inr (Or.inl h2)
    · intro a u h x y hy
      rw [nbrs_touch] at hy
      rw [mem_keys_touch]
      exact Or.inl (h x y hy)
  have hsym : CountSymmetric (LoadGraphFromFile lines []) :=
    LoadGraphFromFile_induct CountSymmetric (fun _ u v h => h.of_addEdge u v)
      (fun _ u h => h.of_touch u) lines [] CountSymmetric.of_empty
  exact ⟨LoadGraphFromFile_nodup lines, fun u _ w hw => hclosed u w hw,
    fun u _ w hw => mem_nbrs_symm_of_count hsym hw⟩

theorem iterate_keys {start : Vertex} (n : Nat) {st : DfsState}
    (hK : ∀ e ∈ st.stack, e.1 ∈ keys st.adj)
    (hC : ∀ u w, w ∈ nbrs st.adj u → w ∈ keys st.adj) :
    ((DFSStep start)^[n] st).adj = st.adj ∧
      ∀ e ∈ ((DFSStep start)^[n] st).stack, e.1 ∈ keys st.adj := by
  induction n generalizing st with
  | zero => exact ⟨rfl, hK⟩
  | succ n ih =>
    rw [Function.iterate_succ_apply]
    obtain ⟨h1, h2⟩ := @DFSStep_adj start _ hK hC
    obtain ⟨h3, h4⟩ := @ih (DFSStep start st) (by rw [h1]; exact h2) (by rw [h1]; exact hC)
    rw [h1] at h3 h4
    exact ⟨h3, h4⟩

/-- C20. A graph built by `AddEdge` calls and declarations of isolated vertices
is key-closed (indeed well-formed), and so is every graph that the chord test
passes through. On such a graph every vertex that the loop of `DFS` pops is a key
and the map stays as it is, the cycle count leaves the map as it is, and
`SetProperties` returns (the checked lookup of `AreConnected` never fails) with
the map it started from. -/
theorem key_closure_invariant (lines : List Line) (p : GraphProperties) (o : String) :
    WellFormed (LoadGraphFromFile lines []) ∧
    (∀ u ∈ keys (LoadGraphFromFile lines []), ∀ w ∈ nbrs (LoadGraphFromFile lines []) u,
      w ∈ keys (LoadGraphFromFile lines [])) ∧
    (∀ v ∈ keys (LoadGraphFromFile lines []), ∀ w ∈ keys (LoadGraphFromFile lines []), v ≠ w →
      w ∉ nbrs (LoadGraphFromFile lines []) v →
      WellFormed (AddEdge (LoadGraphFromFile lines []) v w) ∧
      keys (AddEdge (LoadGraphFromFile lines []) v w) = keys (LoadGraphFromFile lines []) ∧
      (SimpleCycleCount (AddEdge (LoadGraphFromFile lines []) v w)).1 =
        AddEdge (LoadGraphFromFile lines []) v w ∧
      RemoveEdge (AddEdge (LoadGraphFromFile lines []) v w) v w = LoadGraphFromFile lines []) ∧
    (∀ a : AdjMap, WellFormed a → ∀ start ∈ keys a, ∀ (uc : List String) (n : Nat),
      ((DFSStep start)^[n]
        { adj := a, stack := [(start, [])], path := [], visited := [], unique_cycles := uc }).adj
        = a ∧
      ∀ e ∈ ((DFSStep start)^[n]
        { adj := a, stack := [(start, [])], path := [], visited := [],
          unique_cycles := uc }).stack, e.1 ∈ keys a) ∧
    (SimpleCycleCount (LoadGraphFromFile lines [])).1 = LoadGraphFromFile lines [] ∧
    ∃ g1, SetProperties { properties_ := p, adj_ := LoadGraphFromFile lines [], output_ := o }
        = some g1 ∧ g1.adj_ = LoadGraphFromFile lines [] := by
  have hwf := LoadGraphFromFile_wellFormed lines
  refine ⟨hwf, hwf.2.1, ?_, ?_, SimpleCycleCount_adj hwf, ?_⟩
  · intro v hv w hw hvw hn
    exact ⟨hwf.addEdge hv hw hvw, keys_AddEdge hv hw,
      SimpleCycleCount_adj (hwf.addEdge hv hw hvw), RemoveEdge_AddEdge hwf hv hw hvw hn⟩
  · intro a ha start hs uc n
    exact @iterate_keys start n
      { adj := a, stack := [(start, [])], path := [], visited := [], unique_cycles := uc }
      (by intro e he; simp only [List.mem_singleton] at he; subst he; exact hs)
      (fun _ _ h => ha.closed h)
  · obtain ⟨g1, h1, h2, -⟩ := SetProperties_spec
      { properties_ := p, adj_ := LoadGraphFromFile lines [], output_ := o } hwf
    exact ⟨g1, h1, h2⟩

theorem key_closure_invariant_witness :
    WellFormed twoEdges ∧
    ∃ g1, SetProperties (fresh twoEdges) = some g1 ∧ g1.adj_ = twoEdges :=
  have h := key_closure_invariant [Line.pair "A" "B", Line.pair "C" "D"]
    ⟨false, false, false, false⟩ ""
  ⟨h.1, h.2.2.2.2.2⟩

/-! ### Termination -/

/-- C16. The loop of `DFS`, entered as `SimpleCycleCount` enters it, empties its
stack within `dfsFuel adj` iterations for every map and every start vertex: with
any larger fuel it gives the same state, whose stack is empty. Hence on a
well-formed graph `SetProperties` returns, with its four flags. -/
theorem dfs_terminates (g : Graph) (hwf : WellFormed g.adj_) :
    (∀ (adj : AdjMap) (start : Vertex) (path : List Vertex) (uc : List String) (fuel : Nat),
      dfsFuel adj ≤ fuel →
      (DFSLoop start fuel
        { adj := adj, stack := [(start, [])], path := path, visited := [],
          unique_cycles := uc }).stack = [] ∧
      DFSLoop start fuel
        { adj := adj, stack := [(start, [])], path := path, visited := [],
          unique_cycles := uc } =
      DFSLoop start (dfsFuel adj)
        { adj := adj, stack := [(start, [])], path := path, visited := [],
          unique_cycles := uc }) ∧
    ∃ g1 a s n t, SetProperties g = some g1 ∧
      g1.properties_ = { is_tree := t, is_numbered_tree := n, is_acyclic := a,
                         is_subcyclic := s } := by
  constructor
  · intro adj start path uc fuel hf
    obtain ⟨st1, hrun, hstk, -⟩ := DFS_run adj adj rfl start path uc
    have h1 : ((DFSStep start)^[dfsFuel adj]
        { adj := adj, stack := [(start, [])], path := path, visited := [],
          unique_cycles := uc }).stack = [] := by
      rw [← DFSLoop_eq_iterate, hrun]
      exact hstk
    have h2 := iterate_stable h1 fuel hf
    rw [DFSLoop_eq_iterate, DFSLoop_eq_iterate, h2]
    exact ⟨h1, rfl⟩
  · obtain ⟨g1, h1, -⟩ := SetProperties_spec g hwf
    exact ⟨g1, g1.properties_.is_acyclic, g1.properties_.is_subcyclic,
      g1.properties_.is_numbered_tree, g1.properties_.is_tree, h1, rfl⟩

theorem dfs_terminates_witness :
    WellFormed (fresh diamond).adj_ ∧
    (DFSLoop "A" (dfsFuel diamond + 5)
      { adj := diamond, stack := [("A", [])], path := [], visited := [],
        unique_cycles := [] }).stack = [] ∧
    ∃ g1 a s n t, SetProperties (fresh diamond) = some g1 ∧
      g1.properties_ = { is_tree := t, is_numbered_tree := n, is_acyclic := a,
                         is_subcyclic := s } :=
  have h := dfs_terminates (fresh diamond) (by decide)
  ⟨by decide, (h.1 diamond "A" [] [] (dfsFuel diamond + 5) (Nat.le_add_right _ _)).1, h.2⟩

/-! ### The flag `is_tree` -/

theorem connected_of_chords {adj : AdjMap} (hwf : WellFormed adj)
    (hno : ∀ c, ¬ IsSimpleCycle adj c) (hch : AllChordsPass adj) : Connected adj := by
  intro u hu w hw
  by_cases huw : u = w
  · subst huw
    exact ⟨[u], rfl, rfl, List.chain'_singleton u⟩
  by_cases hadj : w ∈ nbrs adj u
  · exact ⟨[u, w], rfl, rfl, by simp [Adj, hadj]⟩
  have h1 : (SimpleCycleCount (AddEdge adj u w)).2.count = 1 := hch u hu w hw huw hadj
  rw [SimpleCycleCount_count] at h1
  have hne : (cycleScan (keys (AddEdge adj u w)) (AddEdge adj u w, [])).2 ≠ [] := by
    intro e
    rw [e] at h1
    simp at h1
  obtain ⟨s, hs⟩ := List.exists_mem_of_ne_nil _ hne
  obtain ⟨-, -, -, h4, -⟩ := cycleScan_spec (AddEdge adj u w) (keys (AddEdge adj u w))
    (AddEdge adj u w) [] rfl
  rcases h4 s hs with h | ⟨p, hp, -, -⟩
  · exact absurd h (List.not_mem_nil _)
  · obtain ⟨q, -, hq, -⟩ := cycle_through_chord hwf hno huw hp
    exact ⟨q, hq⟩

/-- C17. On a well-formed graph, if `SetProperties` sets `is_tree` then the graph
is connected and has no simple cycle; the two disjoint edges `A B` and `C D` get
`is_subcyclic = false` and `is_tree = false`. -/
theorem tree_flag_is_sound (g g1 : Graph) (hwf : WellFormed g.adj_)
    (h : SetProperties g = some g1) (ht : g1.properties_.is_tree = true) :
    Connected g.adj_ ∧ (∀ c, ¬ IsSimpleCycle g.adj_ c) ∧
    ∃ g2, SetProperties (fresh twoEdges) = some g2 ∧ g2.properties_.is_subcyclic = false ∧
      g2.properties_.is_tree = false := by
  obtain ⟨g1', h1, -, hac, hsc, htr, -⟩ := SetProperties_spec g hwf
  rw [h] at h1
  cases h1
  rw [htr, Bool.and_eq_true] at ht
  have hno : ∀ c, ¬ IsSimpleCycle g.adj_ c := by
    intro c hc
    have hpos := count_pos_of_cycle hwf hc
    have := hac.symm.trans ht.1
    rw [decide_eq_true_eq] at this
    omega
  exact ⟨connected_of_chords hwf hno (hsc.mp ht.2).2, hno, by decide⟩

theorem tree_flag_is_sound_witness :
    WellFormed (fresh star).adj_ ∧
    (∃ g1, SetProperties (fresh star) = some g1 ∧ g1.properties_.is_tree = true) ∧
    Connected (fresh star).adj_ ∧ ∀ c, ¬ IsSimpleCycle (fresh star).adj_ c :=
  have h : ∃ g1, SetProperties (fresh star) = some g1 ∧ g1.properties_.is_tree = true := by
    decide
  ⟨by decide, h,
    h.elim fun g1 h1 => (tree_flag_is_sound (fresh star) g1 (by decide) h1.1 h1.2).1,
    h.elim fun g1 h1 => (tree_flag_is_sound (fresh star) g1 (by decide) h1.1 h1.2).2.1⟩

/-! ### Diagnostics -/

theorem lineCount_append (a b : String) : lineCount (a ++ b) = lineCount a + lineCount b := by
  unfold lineCount
  rw [String.data_append, List.count_append]

theorem lineCount_foldl_join (l : List Vertex) (h : ∀ v ∈ l, lineCount v = 0) :
    ∀ acc : String, lineCount acc = 0 →
      lineCount (l.foldl (fun result vertex => result ++ (vertex ++ "-")) acc) = 0 := by
  induction l with
  | nil => intro acc hacc; exact hacc
  | cons a rest ih =>
    intro acc hacc
    rw [List.foldl_cons]
    apply ih (fun v hv => h v (List.mem_cons_of_mem _ hv))
    rw [lineCount_append, lineCount_append, hacc, h a (List.mem_cons_self _ _)]
    rfl

theorem lineCount_Join (l : List Vertex) (h : ∀ v ∈ l, lineCount v = 0) :
    lineCount (Join l) = 0 := by
  unfold Join
  rw [lineCount_append, lineCount_foldl_join l h "" rfl, Nat.zero_add]
  cases l with
  | nil => rfl
  | cons a rest => exact h a (List.mem_cons_self _ _)

theorem lineCount_cycleLine (path : String) : lineCount (cycleLine path) = lineCount path + 1 := by
  unfold cycleLine
  rw [lineCount_append, lineCount_append]
  have h1 : lineCount "Нарушение ацикличности. Найденный цикл: " = 0 := by decide
  have h2 : lineCount "\n" = 1 := by decide
  rw [h1, h2]
  omega

theorem lineCount_exceptionLine : lineCount exceptionLine = 1 := by decide

theorem lineCount_chordLine (v w : Vertex) :
    lineCount (chordLine v w) = lineCount v + lineCount w + 1 := by
  unfold chordLine
  rw [lineCount_append, lineCount_append, lineCount_append, lineCount_append]
  have h1 : lineCount "Нарушена субцикличность в вершинах " = 0 := by decide
  have h2 : lineCount "\n" = 1 := by decide
  have h3 : lineCount "-" = 0 := by decide
  rw [h1, h2, h3]
  omega

/-- The representative path of a graph whose labels hold no line end holds none. -/
theorem lineCount_path {adj : AdjMap} (hk : ∀ k ∈ keys adj, lineCount k = 0) :
    lineCount (SimpleCycleCount adj).2.path = 0 := by
  show lineCount ((cycleScan (keys adj) (adj, [])).2.headD "") = 0
  obtain ⟨-, -, -, h4, -⟩ := cycleScan_spec adj (keys adj) adj [] rfl
  cases hL : (cycleScan (keys adj) (adj, [])).2 with
  | nil => rfl
  | cons s rest =>
    rcases h4 s (by rw [hL]; exact List.mem_cons_self _ _) with h | ⟨p, hp, -, hj⟩
    · exact absurd h (List.not_mem_nil _)
    · show lineCount s = 0
      rw [hj]
      apply lineCount_Join
      intro v hv
      have hvp : v ∈ p := (List.perm_insertionSort strLe p).subset hv
      exact hk v (hp.mem_keys hvp)

/-- What `IsSubcyclic` writes on a well-formed graph. -/
theorem IsSubcyclic_output (g : Graph) (hwf : WellFormed g.adj_) :
    ∃ g1 b, IsSubcyclic g = some (g1, b) ∧ g1.properties_ = g.properties_ ∧
      ((b = true ∧ g1.output_ = g.output_) ∨
       (b = false ∧ (g1.output_ = g.output_ ++ exceptionLine ∨
          ∃ v ∈ keys g.adj_, ∃ w ∈ keys g.adj_, g1.output_ = g.output_ ++ chordLine v w))) := by
  obtain ⟨e, he⟩ := IsSubcyclicException_total hwf
  unfold IsSubcyclic
  rw [he]
  cases e with
  | false =>
    simp only
    exact ⟨_, false, rfl, rfl, Or.inr ⟨rfl, Or.inl rfl⟩⟩
  | true =>
    simp only
    obtain ⟨g1, b, h1, -, h3, h4, -, h6⟩ :=
      chordOuter_spec g hwf (keys g.adj_) (fun _ h => h) (keys g.adj_) (fun _ h => h)
    refine ⟨g1, b, h1, h3, ?_⟩
    cases b with
    | true => exact Or.inl ⟨rfl, by rw [h4 rfl]⟩
    | false =>
      obtain ⟨v, hv, w, hw, ho⟩ := h6 rfl
      refine Or.inr ⟨rfl, Or.inr ⟨v, hv, w, hw, ?_⟩⟩
      rw [ho]
      unfold chordLine
      simp only [String.append_assoc]

/-- C12. On a well-formed graph one run of `SetProperties` appends to the output
the line for a found cycle exactly when `is_acyclic` is false, then one line,
either for the excluded shape or for one chord pair, exactly when `is_subcyclic`
is false, and nothing else; when no label holds a line end, the number of lines
written is the number of false flags among the two. -/
theorem diagnostics_match_flags (g : Graph) (hwf : WellFormed g.adj_) :
    ∃ g1, SetProperties g = some g1 ∧ ∃ d1 d2 : String,
      g1.output_ = g.output_ ++ d1 ++ d2 ∧
      ((g1.properties_.is_acyclic = true ∧ d1 = "") ∨
       (g1.properties_.is_acyclic = false ∧ d1 = cycleLine (SimpleCycleCount g.adj_).2.path)) ∧
      ((g1.properties_.is_subcyclic = true ∧ d2 = "") ∨
       (g1.properties_.is_subcyclic = false ∧ (d2 = exceptionLine ∨
          ∃ v ∈ keys g.adj_, ∃ w ∈ keys g.adj_, d2 = chordLine v w))) ∧
      ((∀ k ∈ keys g.adj_, lineCount k = 0) →
        lineCount g1.output_ = lineCount g.output_ + falseFlags g1.properties_) := by
  have ha1 : (IsAcyclic g).1.adj_ = g.adj_ := by
    unfold IsAcyclic
    simp only
    split <;> exact SimpleCycleCount_adj hwf
  have ha3 : ((IsAcyclic g).2 = true ∧ (IsAcyclic g).1.output_ = g.output_ ++ "") ∨
      ((IsAcyclic g).2 = false ∧
        (IsAcyclic g).1.output_ = g.output_ ++ cycleLine (SimpleCycleCount g.adj_).2.path) := by
    unfold IsAcyclic
    simp only
    split
    · right
      refine ⟨rfl, ?_⟩
      unfold cycleLine
      simp only [String.append_assoc]
    · left
      exact ⟨rfl, by simp⟩
  obtain ⟨g2, s, h1, h3, h5⟩ := IsSubcyclic_output
    { (IsAcyclic g).1 with
      properties_ := { (IsAcyclic g).1.properties_ with is_acyclic := (IsAcyclic g).2 } }
    (by simp only; rw [ha1]; exact hwf)
  simp only at h3 h5
  rw [ha1] at h5
  unfold SetProperties
  simp only
  rw [h1]
  simp only
  have hd : ∃ d1 d2 : String, g2.output_ = g.output_ ++ d1 ++ d2 ∧
      (((IsAcyclic g).2 = true ∧ d1 = "") ∨
       ((IsAcyclic g).2 = false ∧ d1 = cycleLine (SimpleCycleCount g.adj_).2.path)) ∧
      ((s = true ∧ d2 = "") ∨
       (s = false ∧ (d2 = exceptionLine ∨
          ∃ v ∈ keys g.adj_, ∃ w ∈ keys g.adj_, d2 = chordLine v w))) := by
    rcases ha3 with ⟨a1, a2⟩ | ⟨a1, a2⟩
    · rcases h5 with ⟨b1, b2⟩ | ⟨b1, b2 | ⟨v, hv, w, hw, b2⟩⟩
      · exact ⟨"", "", by rw [b2, a2]; simp, Or.inl ⟨a1, rfl⟩, Or.inl ⟨b1, rfl⟩⟩
      · exact ⟨"", exceptionLine, by rw [b2, a2], Or.inl ⟨a1, rfl⟩, Or.inr ⟨b1, Or.inl rfl⟩⟩
      · exact ⟨"", chordLine v w, by rw [b2, a2], Or.inl ⟨a1, rfl⟩,
          Or.inr ⟨b1, Or.inr ⟨v, hv, w, hw, rfl⟩⟩⟩
    · rcases h5 with ⟨b1, b2⟩ | ⟨b1, b2 | ⟨v, hv, w, hw, b2⟩⟩
      · exact ⟨cycleLine (SimpleCycleCount g.adj_).2.path, "", by rw [b2, a2]; simp,
          Or.inr ⟨a1, rfl⟩, Or.inl ⟨b1, rfl⟩⟩
      · exact ⟨cycleLine (SimpleCycleCount g.adj_).2.path, exceptionLine, by rw [b2, a2],
          Or.inr ⟨a1, rfl⟩, Or.inr ⟨b1, Or.inl rfl⟩⟩
      · exact ⟨cycleLine (SimpleCycleCount g.adj_).2.path, chordLine v w, by rw [b2, a2],
          Or.inr ⟨a1, rfl⟩, Or.inr ⟨b1, Or.inr ⟨v, hv, w, hw, rfl⟩⟩⟩
  obtain ⟨d1, d2, e0, e1, e2⟩ := hd
  refine ⟨_, rfl, d1, d2, e0, ?_, e2, ?_⟩
  · simp only [h3]
    exact e1
  · intro hk
    simp only [h3, falseFlags]
    rw [e0, lineCount_append, lineCount_append]
    have hp := lineCount_path hk
    have c1 : lineCount d1 = if (IsAcyclic g).2 then 0 else 1 := by
      rcases e1 with ⟨a1, a2⟩ | ⟨a1, a2⟩
      · rw [a1, a2]; rfl
      · rw [a1, a2, lineCount_cycleLine, hp]; rfl
    have c2 : lineCount d2 = if s then 0 else 1 := by
      rcases e2 with ⟨b1, b2⟩ | ⟨b1, b2 | ⟨v, hv, w, hw, b2⟩⟩
      · rw [b1, b2]; rfl
      · rw [b1, b2, lineCount_exceptionLine]; rfl
      · rw [b1, b2, lineCount_chordLine, hk v hv, hk w hw]; rfl
    rw [c1, c2]
    omega

theorem diagnostics_match_flags_witness :
    WellFormed (fresh trianglePendant).adj_ ∧
    (∀ k ∈ keys (fresh trianglePendant).adj_, lineCount k = 0) ∧
    ∃ g1, SetProperties (fresh trianglePendant) = some g1 ∧
      g1.properties_.is_acyclic = false ∧ g1.properties_.is_subcyclic = false ∧
      lineCount g1.output_ = 2 :=
  have h := diagnostics_match_flags (fresh trianglePendant) (by decide)
  have hk : ∀ k ∈ keys (fresh trianglePendant).adj_, lineCount k = 0 := by decide
  have hf : ∃ g1, SetProperties (fresh trianglePendant) = some g1 ∧
      g1.properties_.is_acyclic = false ∧ g1.properties_.is_subcyclic = false := by decide
  ⟨by decide, hk, h.elim fun g1 h1 => hf.elim fun g2 h2 => by
    have e : g1 = g2 := Option.some.inj (h1.1.symm.trans h2.1)
    subst e
    obtain ⟨d1, d2, -, -, -, hl⟩ := h1.2
    have := hl hk
    simp only [falseFlags, h2.2.1, h2.2.2] at this
    exact ⟨g1, h1.1, h2.2.1, h2.2.2, by rw [this]; rfl⟩⟩

/-! ### The order of the keys -/

theorem SameRun.of_step {uc : List String} {st st1 : DfsState} (start : Vertex)
    (h : SameRun uc st st1) : SameRun uc (DFSStep start st) (DFSStep start st1) := by
  cases hs : st.stack with
  | nil =>
    have hs1 : st1.stack = [] := by rw [← h.stack_eq]; exact hs
    rw [DFSStep_nil hs, DFSStep_nil hs1]
    exact h
  | cons e stk =>
    obtain ⟨v, cp⟩ := e
    have hs1 : st1.stack = (v, cp) :: stk := by rw [← h.stack_eq]; exact hs
    by_cases hv : v ∈ st.visited
    · have hv1 : v ∈ st1.visited := by rw [← h.visited_eq]; exact hv
      rw [DFSStep_visited hs hv, DFSStep_visited hs1 hv1]
      exact ⟨rfl, h.visited_eq, h.nbrs_eq, h.cycles⟩
    · have hv1 : v ∉ st1.visited := by rw [← h.visited_eq]; exact hv
      rw [DFSStep_fresh hs hv, DFSStep_fresh hs1 hv1]
      refine ⟨?_, ?_, ?_, ?_⟩
      · simp only [h.visited_eq, h.nbrs_eq]
      · simp only [h.visited_eq]
      · simp only [nbrs_touch, h.nbrs_eq]
      · intro s
        simp only [h.nbrs_eq]
        by_cases hc : start ∈ nbrs st1.adj v ∧ (cp ++ [v]).length > 2
        · rw [if_pos hc, if_pos hc, mem_setInsert, mem_setInsert, h.cycles s]
          exact or_assoc
        · rw [if_neg hc, if_neg hc]
          exact h.cycles s

theorem SameRun.of_iterate {uc : List String} (start : Vertex) (n : Nat) {st st1 : DfsState}
    (h : SameRun uc st st1) :
    SameRun uc ((DFSStep start)^[n] st) ((DFSStep start)^[n] st1) := by
  induction n generalizing st st1 with
  | zero => exact h
  | succ n ih =>
    rw [Function.iterate_succ_apply, Function.iterate_succ_apply]
    exact ih (h.of_step start)

/-- The signatures that `DFS` leaves are those it was given and those it finds
from the start vertex; the latter depend on the adjacency lists only. -/
theorem DFS_cycles_mem {adj a : AdjMap} (hN : nbrs a = nbrs adj) (v v1 k : Vertex)
    (uc : List String) (s : String) :
    s ∈ (DFS a v k [] [] uc).unique_cycles ↔
      s ∈ uc ∨ s ∈ (DFS adj v1 k [] [] []).unique_cycles := by
  obtain ⟨r1, hr1, hs1, -⟩ := DFS_run a a rfl k [] uc
  obtain ⟨r2, hr2, hs2, -⟩ := DFS_run adj adj rfl k [] []
  have e1 : (DFS a v k [] [] uc).unique_cycles = r1.unique_cycles := by
    simp only [DFS, hr1]
  have e2 : (DFS adj v1 k [] [] []).unique_cycles = r2.unique_cycles := by
    simp only [DFS, hr2]
  rw [e1, e2]
  rw [DFSLoop_eq_iterate] at hr1 hr2
  have hst1 : ((DFSStep k)^[dfsFuel a]
      { adj := a, stack := [(k, [])], path := [], visited := [], unique_cycles := uc }).stack
      = [] := by rw [hr1]; exact hs1
  have hst2 : ((DFSStep k)^[dfsFuel adj]
      { adj := adj, stack := [(k, [])], path := [], visited := [],
        unique_cycles := [] }).stack = [] := by rw [hr2]; exact hs2
  have m1 := iterate_stable hst1 (max (dfsFuel a) (dfsFuel adj)) (le_max_left _ _)
  have m2 := iterate_stable hst2 (max (dfsFuel a) (dfsFuel adj)) (le_max_right _ _)
  have h0 : SameRun uc
      { adj := a, stack := [(k, [])], path := [], visited := [], unique_cycles := uc }
      { adj := adj, stack := [(k, [])], path := [], visited := [], unique_cycles := [] } :=
    ⟨rfl, rfl, hN, fun s => by simp⟩
  have hN1 := (h0.of_iterate k (max (dfsFuel a) (dfsFuel adj))).cycles s
  rw [m1, m2, hr1, hr2] at hN1
  exact hN1

theorem cycleScan_mem (adj : AdjMap) :
    ∀ (ks : List Vertex) (a : AdjMap) (uc : List String), nbrs a = nbrs adj →
      ∀ s, s ∈ (cycleScan ks (a, uc)).2 ↔
        s ∈ uc ∨ ∃ k ∈ ks, s ∈ (DFS adj k k [] [] []).unique_cycles := by
  intro ks
  induction ks with
  | nil => intro a uc _ s; simp [cycleScan]
  | cons k rest ih =>
    intro a uc hN s
    obtain ⟨I, -⟩ := DFS_sound adj a hN k k uc
    have h1 := ih (DFS a k k [] [] uc).adj (DFS a k k [] [] uc).unique_cycles I.nbrs_eq s
    show s ∈ (cycleScan rest ((DFS a k k [] [] uc).adj, (DFS a k k [] [] uc).unique_cycles)).2 ↔ _
    rw [h1, DFS_cycles_mem hN k k k uc s]
    constructor
    · rintro ((h | h) | ⟨k1, hk1, h⟩)
      · exact Or.inl h
      · exact Or.inr ⟨k, List.mem_cons_self _ _, h⟩
      · exact Or.inr ⟨k1, List.mem_cons_of_mem _ hk1, h⟩
    · rintro (h | ⟨k1, hk1, h⟩)
      · exact Or.inl (Or.inl h)
      · rcases List.mem_cons.mp hk1 with e | e
        · rw [e] at h; exact Or.inl (Or.inr h)
        · exact Or.inr ⟨k1, e, h⟩

/-- The count depends on the set of keys and on the adjacency lists only. -/
theorem count_congr {a1 a2 : AdjMap} (hN : nbrs a1 = nbrs a2)
    (hk : ∀ k, k ∈ keys a1 ↔ k ∈ keys a2) :
    (SimpleCycleCount a1).2.count = (SimpleCycleCount a2).2.count := by
  rw [SimpleCycleCount_count, SimpleCycleCount_count]
  obtain ⟨-, -, n1, -, -⟩ := cycleScan_spec a1 (keys a1) a1 [] rfl
  obtain ⟨-, -, n2, -, -⟩ := cycleScan_spec a2 (keys a2) a2 [] rfl
  have hp : ((cycleScan (keys a1) (a1, [])).2).Perm (cycleScan (keys a2) (a2, [])).2 := by
    rw [List.perm_ext_iff_of_nodup (n1 List.nodup_nil) (n2 List.nodup_nil)]
    intro s
    rw [cycleScan_mem a1 (keys a1) a1 [] rfl s, cycleScan_mem a1 (keys a2) a2 [] hN.symm s]
    constructor
    · rintro (h | ⟨k, hk1, h⟩)
      · exact Or.inl h
      · exact Or.inr ⟨k, (hk k).mp hk1, h⟩
    · rintro (h | ⟨k, hk1, h⟩)
      · exact Or.inl h
      · exact Or.inr ⟨k, (hk k).mpr hk1, h⟩
  rw [hp.length_eq]

theorem edgeStep_nodup (v : Vertex) (ns : List Vertex) {E : List Vertex} (h : E.Nodup) :
    (edgeStep v ns E).Nodup := by
  unfold edgeStep
  split
  · cases ns with
    | nil => exact setInsert_nodup h _
    | cons n0 tl => exact setInsert_nodup (setInsert_nodup h _) _
  · exact h

theorem exceptionScan_nodup {adj : AdjMap} :
    ∀ (L : AdjMap) (T E : List Vertex), (∀ kv ∈ L, ∀ n ∈ kv.2, n ∈ keys adj) →
      T.Nodup → E.Nodup → ∀ T1 E1, exceptionScan adj L (T, E) = some (T1, E1) →
        T1.Nodup ∧ E1.Nodup := by
  intro L
  induction L with
  | nil =>
    intro T E _ hT hE T1 E1 h
    simp only [exceptionScan, Option.some.injEq, Prod.mk.injEq] at h
    rw [← h.1, ← h.2]
    exact ⟨hT, hE⟩
  | cons kv rest ih =>
    intro T E hk hT hE T1 E1 h
    obtain ⟨v, ns⟩ := kv
    have hns : ∀ n ∈ ns, n ∈ keys adj := hk (v, ns) (List.mem_cons_self _ _)
    have hrest : ∀ kv ∈ rest, ∀ n ∈ kv.2, n ∈ keys adj :=
      fun kv h => hk kv (List.mem_cons_of_mem _ h)
    obtain ⟨T0, h0, hnd0, -⟩ := triangleOuter_spec v ns T hns
    unfold exceptionScan at h
    by_cases hl : ns.length ≥ 2
    · rw [if_pos hl, h0] at h
      simp only at h
      exact ih T0 _ hrest (hnd0 hT) (edgeStep_nodup v ns hE) T1 E1 h
    · rw [if_neg hl] at h
      simp only at h
      exact ih T _ hrest hT (edgeStep_nodup v ns hE) T1 E1 h

theorem WellFormed.entries_closed {adj : AdjMap} (hwf : WellFormed adj) :
    ∀ kv ∈ adj, ∀ n ∈ kv.2, n ∈ keys adj := by
  intro kv hkv n hn
  have := nbrs_of_mem_adj hwf.1 (show (kv.1, kv.2) ∈ adj from hkv)
  rw [← this] at hn
  exact hwf.closed hn

theorem IsSubcyclicException_congr {a1 a2 : AdjMap} (h1 : WellFormed a1) (h2 : WellFormed a2)
    (hN : nbrs a1 = nbrs a2) (hk : ∀ k, k ∈ keys a1 ↔ k ∈ keys a2) :
    IsSubcyclicException a1 = IsSubcyclicException a2 := by
  obtain ⟨T1, E1, e1, hT1, hE1⟩ := exception_sets h1
  obtain ⟨T2, E2, e2, hT2, hE2⟩ := exception_sets h2
  obtain ⟨nT1, nE1⟩ := exceptionScan_nodup a1 [] [] h1.entries_closed List.nodup_nil
    List.nodup_nil T1 E1 e1
  obtain ⟨nT2, nE2⟩ := exceptionScan_nodup a2 [] [] h2.entries_closed List.nodup_nil
    List.nodup_nil T2 E2 e2
  have pT : T1.Perm T2 := by
    rw [List.perm_ext_iff_of_nodup nT1 nT2]
    intro x
    rw [hT1, hT2, hN]
    constructor
    · rintro ⟨a, ha, r⟩
      exact ⟨a, (hk a).mp ha, r⟩
    · rintro ⟨a, ha, r⟩
      exact ⟨a, (hk a).mpr ha, r⟩
  have pE : E1.Perm E2 := by
    rw [List.perm_ext_iff_of_nodup nE1 nE2]
    intro x
    rw [hE1, hE2, hN]
    constructor
    · rintro ⟨a, ha, r⟩
      exact ⟨a, (hk a).mp ha, r⟩
    · rintro ⟨a, ha, r⟩
      exact ⟨a, (hk a).mpr ha, r⟩
  unfold IsSubcyclicException
  rw [e1, e2]
  simp only [pT.length_eq, pE.length_eq]

theorem nbrs_AddEdge_congr {a1 a2 : AdjMap} (hN : nbrs a1 = nbrs a2) (v w : Vertex) :
    nbrs (AddEdge a1 v w) = nbrs (AddEdge a2 v w) := by
  funext x
  simp only [AddEdge, nbrs_pushBack, hN]

theorem AllChordsPass_congr {a1 a2 : AdjMap} (hN : nbrs a1 = nbrs a2)
    (hk : ∀ k, k ∈ keys a1 ↔ k ∈ keys a2) (h : AllChordsPass a1) : AllChordsPass a2 := by
  intro v hv w hw hvw hn
  have := h v ((hk v).mpr hv) w ((hk w).mpr hw) hvw (by rw [hN]; exact hn)
  unfold ChordPasses at this ⊢
  rw [← this]
  apply count_congr (nbrs_AddEdge_congr hN v w).symm
  intro k
  rw [mem_keys_AddEdge, mem_keys_AddEdge, hk k]

theorem nbrs_perm {a1 a2 : AdjMap} (hp : a1.Perm a2) (hn : (keys a1).Nodup) :
    nbrs a1 = nbrs a2 := by
  have hn2 : (keys a2).Nodup := (hp.map Prod.fst).nodup_iff.mp hn
  funext x
  by_cases hx : x ∈ keys a1
  · have := hp.subset (mem_adj_of_mem_keys hx)
    exact (nbrs_of_mem_adj hn2 this).symm
  · have hx2 : x ∉ keys a2 := fun h => hx ((hp.map Prod.fst).symm.subset h)
    rw [nbrs_of_not_mem hx, nbrs_of_not_mem hx2]

theorem WellFormed.perm {a1 a2 : AdjMap} (h : WellFormed a1) (hp : a1.Perm a2) :
    WellFormed a2 := by
  have hN := nbrs_perm hp h.1
  have hk : ∀ k, k ∈ keys a2 → k ∈ keys a1 := fun k hk => (hp.map Prod.fst).symm.subset hk
  refine ⟨(hp.map Prod.fst).nodup_iff.mp h.1, ?_, ?_⟩
  · intro u _ w hw
    rw [← hN] at hw
    exact (hp.map Prod.fst).subset (h.closed hw)
  · intro u _ w hw
    rw [← hN] at hw ⊢
    exact h.symm hw

/-- C19. Two well-formed maps that hold the same keys with the same adjacency
lists, enumerated in different orders, get the same count from
`SimpleCycleCount` and the same four flags from `SetProperties`. -/
theorem classification_order_independent (g1 g2 : Graph) (hwf : WellFormed g1.adj_)
    (hp : g1.adj_.Perm g2.adj_) :
    (SimpleCycleCount g1.adj_).2.count = (SimpleCycleCount g2.adj_).2.count ∧
    ∃ r1 r2, SetProperties g1 = some r1 ∧ SetProperties g2 = some r2 ∧
      r1.properties_ = r2.properties_ := by
  have hwf2 := hwf.perm hp
  have hN := nbrs_perm hp hwf.1
  have hk : ∀ k, k ∈ keys g1.adj_ ↔ k ∈ keys g2.adj_ :=
    fun k => (hp.map Prod.fst).mem_iff
  have hcount := count_congr hN hk
  obtain ⟨r1, s1, -, b1, c1, d1, e1⟩ := SetProperties_spec g1 hwf
  obtain ⟨r2, s2, -, b2, c2, d2, e2⟩ := SetProperties_spec g2 hwf2
  refine ⟨hcount, r1, r2, s1, s2, ?_⟩
  have hac : r1.properties_.is_acyclic = r2.properties_.is_acyclic := by
    rw [b1, b2, hcount]
  have hsc : r1.properties_.is_subcyclic = r2.properties_.is_subcyclic := by
    have hiff : (IsSubcyclicException g1.adj_ = some true ∧ AllChordsPass g1.adj_) ↔
        (IsSubcyclicException g2.adj_ = some true ∧ AllChordsPass g2.adj_) := by
      rw [IsSubcyclicException_congr hwf hwf2 hN hk]
      constructor
      · rintro ⟨x, y⟩
        exact ⟨x, AllChordsPass_congr hN hk y⟩
      · rintro ⟨x, y⟩
        exact ⟨x, AllChordsPass_congr hN.symm (fun k => (hk k).symm) y⟩
    have := c1.trans (hiff.trans c2.symm)
    cases h : r1.properties_.is_subcyclic <;> cases h' : r2.properties_.is_subcyclic <;>
      simp_all
  have hce : CountEdges g1.adj_ = CountEdges g2.adj_ := by
    rw [CountEdges_eq, CountEdges_eq, (hp.map (fun kv => kv.2.length)).sum_eq]
  have hvc : GetVertexCount g1.adj_ = GetVertexCount g2.adj_ := by
    rw [GetVertexCount_eq, GetVertexCount_eq]
    exact congrArg (fun n : Nat => (n : Int)) (hp.map Prod.fst).length_eq
  have ht : r1.properties_.is_tree = r2.properties_.is_tree := by rw [d1, d2, hac, hsc]
  have hn : r1.properties_.is_numbered_tree = r2.properties_.is_numbered_tree := by
    rw [e1, e2, hac, hsc, hce, hvc]
  cases hp1 : r1.properties_
  cases hp2 : r2.properties_
  rw [hp1, hp2] at hac hsc ht hn
  simp only at hac hsc ht hn
  rw [hac, hsc, ht, hn]

theorem classification_order_independent_witness :
    WellFormed (fresh diamond).adj_ ∧
    (fresh diamond).adj_.Perm (fresh diamond.reverse).adj_ ∧
    (SimpleCycleCount (fresh diamond).adj_).2.count =
      (SimpleCycleCount (fresh diamond.reverse).adj_).2.count ∧
    ∃ r1 r2, SetProperties (fresh diamond) = some r1 ∧
      SetProperties (fresh diamond.reverse) = some r2 ∧ r1.properties_ = r2.properties_ :=
  have hp : (fresh diamond).adj_.Perm (fresh diamond.reverse).adj_ :=
    (List.reverse_perm diamond).symm
  ⟨by decide, hp,
    (classification_order_independent (fresh diamond) (fresh diamond.reverse) (by decide) hp).1,
    (classification_order_independent (fresh diamond) (fresh diamond.reverse) (by decide) hp).2⟩

/-! ### The representative path -/

theorem mem_signatures {adj a : AdjMap} (hN : nbrs a = nbrs adj) (s : String) :
    s ∈ signatures a ↔ ∃ k ∈ keys a, s ∈ (DFS adj k k [] [] []).unique_cycles := by
  unfold signatures
  rw [cycleScan_mem adj (keys a) a [] hN s]
  simp

/-- The recorded signatures do not depend, as a set, on the order of the keys. -/
theorem signatures_perm {a1 a2 : AdjMap} (hn : (keys a1).Nodup) (hp : a1.Perm a2)
    (s : String) : s ∈ signatures a2 ↔ s ∈ signatures a1 := by
  rw [mem_signatures (nbrs_perm hp hn).symm s, mem_signatures rfl s]
  constructor
  · rintro ⟨k, hk, h⟩
    exact ⟨k, (hp.map Prod.fst).mem_iff.mpr hk, h⟩
  · rintro ⟨k, hk, h⟩
    exact ⟨k, (hp.map Prod.fst).mem_iff.mp hk, h⟩

theorem signature_is_sorted_cycle {adj : AdjMap} {s : String} (h : s ∈ signatures adj) :
    ∃ p, IsSimpleCycle adj p ∧ (sortCycle p).Perm p ∧ (sortCycle p).Sorted strLe ∧
      s = Join (sortCycle p) := by
  haveI : IsTotal String strLe := ⟨fun a b => le_total a.data b.data⟩
  haveI : IsTrans String strLe :=
    ⟨fun a b c hab hbc => @le_trans (List Char) _ a.data b.data c.data hab hbc⟩
  obtain ⟨-, -, -, h4, -⟩ := cycleScan_spec adj (keys adj) adj [] rfl
  rcases h4 s h with h0 | ⟨p, hp, -, hj⟩
  · exact absurd h0 (List.not_mem_nil _)
  · exact ⟨p, hp, List.perm_insertionSort strLe p, List.sorted_insertionSort strLe p, hj⟩

/-- C18 (as stated, refuted). On the 4-cycle `A C B D` the only signature, and so
the representative path, is `A-B-C-D-A`; read as a vertex sequence it starts
with `A, B`, and `B` is not in the adjacency list of `A`. -/
theorem representative_path_not_a_walk :
    WellFormed square ∧ signatures square = ["A-B-C-D-A"] ∧
    (SimpleCycleCount square).2 = { count := 1, path := "A-B-C-D-A" } ∧
    readPath (SimpleCycleCount square).2.path = ["A", "B", "C", "D", "A"] ∧
    ¬ Adj square "A" "B" ∧
    ¬ (readPath (SimpleCycleCount square).2.path).Chain' (Adj square) := by
  decide

/-- C18 (amended). On a well-formed graph with a positive count, the set of
recorded signatures is not empty and has the count as its size, and every member
of it, whichever order the keys of the map are gone through in, is the joined,
sorted list of the vertices of a simple cycle of the graph; the representative
path is a member of the set. -/
theorem representative_path_is_sorted_cycle (adj : AdjMap) (hwf : WellFormed adj)
    (hpos : 0 < (SimpleCycleCount adj).2.count) :
    signatures adj ≠ [] ∧
    (SimpleCycleCount adj).2.count = ((signatures adj).length : Int) ∧
    (SimpleCycleCount adj).2.path ∈ signatures adj ∧
    (∀ a, adj.Perm a → ∀ s, s ∈ signatures a ↔ s ∈ signatures adj) ∧
    (∀ a, adj.Perm a → (SimpleCycleCount a).2.path ∈ signatures adj) ∧
    (∀ s ∈ signatures adj,
      ∃ p, IsSimpleCycle adj p ∧ (sortCycle p).Perm p ∧ (sortCycle p).Sorted strLe ∧
        s = Join (sortCycle p)) ∧
    ∃ p, IsSimpleCycle adj p ∧ (sortCycle p).Perm p ∧ (sortCycle p).Sorted strLe ∧
      (SimpleCycleCount adj).2.path = Join (sortCycle p) := by
  have hne : ∀ a, adj.Perm a → signatures a ≠ [] := by
    intro a hp he
    have h1 := count_congr (nbrs_perm hp hwf.1) (fun k => (hp.map Prod.fst).mem_iff)
    rw [h1, SimpleCycleCount_count] at hpos
    unfold signatures at he
    rw [he] at hpos
    simp at hpos
  have hmem : ∀ a, adj.Perm a → (SimpleCycleCount a).2.path ∈ signatures a := by
    intro a hp
    show ((cycleScan (keys a) (a, [])).2).headD "" ∈ signatures a
    have h1 := hne a hp
    unfold signatures at h1 ⊢
    cases hL : (cycleScan (keys a) (a, [])).2 with
    | nil => exact absurd hL h1
    | cons s rest => exact List.mem_cons_self _ _
  have hself := hmem adj (List.Perm.refl adj)
  exact ⟨hne adj (List.Perm.refl adj), SimpleCycleCount_count adj, hself,
    fun a hp s => signatures_perm hwf.1 hp s,
    fun a hp => (signatures_perm hwf.1 hp _).mp (hmem a hp),
    fun s hs => signature_is_sorted_cycle hs,
    signature_is_sorted_cycle hself⟩

theorem representative_path_is_sorted_cycle_witness :
    WellFormed square ∧ 0 < (SimpleCycleCount square).2.count ∧
    (SimpleCycleCount square).2.path ∈ signatures square ∧
    ∀ s ∈ signatures square,
      ∃ p, IsSimpleCycle square p ∧ (sortCycle p).Perm p ∧ (sortCycle p).Sorted strLe ∧
        s = Join (sortCycle p) :=
  ⟨by decide, by decide,
    (representative_path_is_sorted_cycle square (by decide) (by decide)).2.2.1,
    (representative_path_is_sorted_cycle square (by decide) (by decide)).2.2.2.2.2.1⟩

end Graph
